import Mathlib

/-!
Verification of the Fenwick (binary-indexed) tree family:

* `Fenwick`      — the base 1-D tree (`src/fenwick.h`), with plain and
  optimized ("fast") variants of access, range sum and order-statistic search,
  two bulk constructors, and the range-update/point-query pair;
* `FenwickRURQ`  — two coupled trees for range-update/range-query
  (`src/fenwick_rurq.h`);
* `Fenwick2D`    — the two-dimensional generalization (`src/fenwick_2d.h`);
* `FenwickRMQ`   — the dual-tree dynamic range-minimum structure
  (`src/fenwick_rmq.h`).

Trees are embedded as total functions `Nat → Int` (the C storage `T[0..n]`
with indices beyond the used range irrelevant), machine integers as
unbounded `Int`/`Nat` (no operation here overflows in the scenarios the
claims quantify over), and C `for`/`while` loops as structurally recursive
functions on an explicit fuel argument, so that every definition reduces by
`rfl`/`decide`; each loop gets a proven unfolding equation that matches the
C loop exactly, and fuel is always instantiated so that it never runs out
on inputs satisfying the loop's documented precondition.
-/

namespace BIT

/-- Recursion worker for `lowBit`, structural on a fuel argument so that the
kernel can evaluate it (`n` at least halves on every step, so fuel `n`
always suffices). -/
def lowBit_go : Nat → Nat → Nat
  | 0, _ => 0
  | f + 1, n => if n = 0 then 0 else if n % 2 = 1 then 1 else 2 * lowBit_go f (n / 2)

/-- The value of the lowest set bit of `n` (the C idiom `n & -n` on a
nonnegative two's-complement `n`; `lowBit 0 = 0`). -/
def lowBit (n : Nat) : Nat := lowBit_go n n

theorem lowBit_go_congr : ∀ f g n, n ≤ f → n ≤ g → lowBit_go f n = lowBit_go g n := by
  intro f
  induction f with
  | zero =>
    intro g n hf hg
    have h0 : n = 0 := by omega
    subst h0
    cases g with
    | zero => rfl
    | succ g => simp [lowBit_go]
  | succ f ih =>
    intro g n hf hg
    cases g with
    | zero =>
      have h0 : n = 0 := by omega
      subst h0
      simp [lowBit_go]
    | succ g =>
      simp only [lowBit_go]
      by_cases h0 : n = 0
      · rw [if_pos h0, if_pos h0]
      · rw [if_neg h0, if_neg h0]
        by_cases h2 : n % 2 = 1
        · rw [if_pos h2, if_pos h2]
        · rw [if_neg h2, if_neg h2]
          rw [ih g (n / 2) (by omega) (by omega)]

theorem lowBit_zero : lowBit 0 = 0 := rfl

theorem lowBit_odd {n : Nat} (h : n % 2 = 1) : lowBit n = 1 := by
  have hn : n ≠ 0 := by omega
  unfold lowBit
  cases hc : n with
  | zero => omega
  | succ m =>
    simp only [lowBit_go]
    rw [if_neg (by omega), if_pos (by omega)]

theorem lowBit_even {n : Nat} (h0 : n ≠ 0) (h : n % 2 = 0) :
    lowBit n = 2 * lowBit (n / 2) := by
  unfold lowBit
  cases hc : n with
  | zero => omega
  | succ m =>
    simp only [lowBit_go]
    rw [if_neg (by omega), if_neg (by omega)]
    rw [lowBit_go_congr m (n / 2) ((m + 1) / 2) (by omega) (by omega), ← hc]

theorem lowBit_pos {n : Nat} (h : 1 ≤ n) : 1 ≤ lowBit n := by
  induction n using Nat.strong_induction_on with
  | _ n ih =>
    rcases Nat.even_or_odd n with he | ho
    · have h2 : n % 2 = 0 := Nat.even_iff.mp he
      rw [lowBit_even (by omega) h2]
      have : 1 ≤ lowBit (n / 2) := ih (n / 2) (Nat.div_lt_self (by omega) one_lt_two) (by omega)
      omega
    · rw [lowBit_odd (Nat.odd_iff.mp ho)]

theorem lowBit_le {n : Nat} (h : 1 ≤ n) : lowBit n ≤ n := by
  induction n using Nat.strong_induction_on with
  | _ n ih =>
    rcases Nat.even_or_odd n with he | ho
    · have h2 : n % 2 = 0 := Nat.even_iff.mp he
      rw [lowBit_even (by omega) h2]
      have : lowBit (n / 2) ≤ n / 2 := ih (n / 2) (Nat.div_lt_self (by omega) one_lt_two) (by omega)
      omega
    · rw [lowBit_odd (Nat.odd_iff.mp ho)]
      exact h

/-- `n` written in terms of its lowest set bit: `n ≡ lowBit n (mod 2·lowBit n)`. -/
theorem lowBit_mod {n : Nat} (h : 1 ≤ n) : n % (2 * lowBit n) = lowBit n := by
  induction n using Nat.strong_induction_on with
  | _ n ih =>
    rcases Nat.even_or_odd n with he | ho
    · have h2 : n % 2 = 0 := Nat.even_iff.mp he
      rw [lowBit_even (by omega) h2]
      have ihh : n / 2 % (2 * lowBit (n / 2)) = lowBit (n / 2) :=
        ih (n / 2) (Nat.div_lt_self (by omega) one_lt_two) (by omega)
      have hn : n = 2 * (n / 2) := by omega
      calc n % (2 * (2 * lowBit (n / 2)))
          = 2 * (n / 2) % (2 * (2 * lowBit (n / 2))) := by rw [← hn]
        _ = 2 * (n / 2 % (2 * lowBit (n / 2))) := by rw [Nat.mul_mod_mul_left]
        _ = 2 * lowBit (n / 2) := by rw [ihh]
    · rw [lowBit_odd (Nat.odd_iff.mp ho)]
      have h2 := Nat.odd_iff.mp ho
      omega

theorem lowBit_dvd (n : Nat) : lowBit n ∣ n := by
  rcases Nat.eq_zero_or_pos n with h0 | h1
  · subst h0; rw [lowBit_zero]
  · have hm := lowBit_mod h1
    set q := n / (2 * lowBit n) with hq
    have hn : n = 2 * lowBit n * q + lowBit n := by
      conv_lhs => rw [← Nat.div_add_mod n (2 * lowBit n)]
      rw [hm]
    refine ⟨2 * q + 1, ?_⟩
    conv_lhs => rw [hn]
    ring

theorem two_lowBit_dvd_sub {n : Nat} (h : 1 ≤ n) : 2 * lowBit n ∣ n - lowBit n := by
  have hm := lowBit_mod h
  set q := n / (2 * lowBit n) with hq
  have hn : n = 2 * lowBit n * q + lowBit n := by
    conv_lhs => rw [← Nat.div_add_mod n (2 * lowBit n)]
    rw [hm]
  exact ⟨q, by omega⟩

theorem two_lowBit_dvd_add {n : Nat} (h : 1 ≤ n) : 2 * lowBit n ∣ n + lowBit n := by
  have hs := two_lowBit_dvd_sub h
  have hle := lowBit_le h
  rcases hs with ⟨q, hq⟩
  refine ⟨q + 1, ?_⟩
  rw [mul_add, mul_one]
  omega

/-- A power of two divides `n` exactly when it divides `lowBit n`. -/
theorem pow_dvd_iff_dvd_lowBit {n : Nat} (h : 1 ≤ n) (k : Nat) :
    2 ^ k ∣ n ↔ 2 ^ k ∣ lowBit n := by
  induction n using Nat.strong_induction_on generalizing k with
  | _ n ih =>
    rcases Nat.even_or_odd n with he | ho
    · have h2 : n % 2 = 0 := Nat.even_iff.mp he
      rw [lowBit_even (by omega) h2]
      cases k with
      | zero => simp
      | succ j =>
        have hn : n = 2 * (n / 2) := by omega
        have ihh := ih (n / 2) (Nat.div_lt_self (by omega) one_lt_two) (by omega) j
        constructor
        · intro hd
          rcases hd with ⟨c, hc⟩
          have hx : n = 2 * (2 ^ j * c) := by rw [hc, pow_succ]; ring
          have h1 : n / 2 = 2 ^ j * c := by omega
          rcases ihh.mp ⟨c, h1⟩ with ⟨d, hd2⟩
          exact ⟨d, by rw [hd2, pow_succ]; ring⟩
        · intro hd
          rcases hd with ⟨c, hc⟩
          have hx : 2 * lowBit (n / 2) = 2 * (2 ^ j * c) := by rw [hc, pow_succ]; ring
          have h1 : lowBit (n / 2) = 2 ^ j * c := by omega
          rcases ihh.mpr ⟨c, h1⟩ with ⟨d, hd2⟩
          refine ⟨d, ?_⟩
          calc n = 2 * (n / 2) := hn
            _ = 2 * (2 ^ j * d) := by rw [hd2]
            _ = 2 ^ (j + 1) * d := by rw [pow_succ]; ring
    · rw [lowBit_odd (Nat.odd_iff.mp ho)]
      cases k with
      | zero => simp
      | succ j =>
        constructor
        · intro hd
          have h2 : (2 : Nat) ∣ n := dvd_trans (dvd_pow_self 2 (Nat.succ_ne_zero j)) hd
          have h3 := Nat.odd_iff.mp ho
          omega
        · intro hd
          have h2 := Nat.le_of_dvd one_pos hd
          have h1 : (1 : Nat) < 2 ^ (j + 1) := Nat.one_lt_two_pow_iff.mpr (by omega)
          omega

theorem lowBit_isPow {n : Nat} (h : 1 ≤ n) : ∃ k, lowBit n = 2 ^ k := by
  induction n using Nat.strong_induction_on with
  | _ n ih =>
    rcases Nat.even_or_odd n with he | ho
    · have h2 : n % 2 = 0 := Nat.even_iff.mp he
      rw [lowBit_even (by omega) h2]
      rcases ih (n / 2) (Nat.div_lt_self (by omega) one_lt_two) (by omega) with ⟨k, hk⟩
      exact ⟨k + 1, by rw [hk, pow_succ]; ring⟩
    · exact ⟨0, by rw [lowBit_odd (Nat.odd_iff.mp ho), pow_zero]⟩

theorem lowBit_pow (k : Nat) : lowBit (2 ^ k) = 2 ^ k := by
  induction k with
  | zero => rw [pow_zero, lowBit_odd (by omega)]
  | succ j ih =>
    have hpos : 1 ≤ 2 ^ (j + 1) := Nat.one_le_two_pow
    have h2 : 2 ^ (j + 1) % 2 = 0 := by
      have : (2 : Nat) ∣ 2 ^ (j + 1) := dvd_pow_self 2 (by omega)
      omega
    rw [lowBit_even (by omega) h2]
    have : 2 ^ (j + 1) / 2 = 2 ^ j := by
      rw [pow_succ]
      omega
    rw [this, ih, pow_succ]
    ring

/-- Two `lowBit` values are always comparable by divisibility. -/
theorem lowBit_dvd_or {x y : Nat} (hx : 1 ≤ x) (hy : 1 ≤ y) :
    lowBit x ∣ lowBit y ∨ lowBit y ∣ lowBit x := by
  rcases lowBit_isPow hx with ⟨a, ha⟩
  rcases lowBit_isPow hy with ⟨b, hb⟩
  rcases le_total a b with hab | hab
  · exact Or.inl (by rw [ha, hb]; exact pow_dvd_pow 2 hab)
  · exact Or.inr (by rw [ha, hb]; exact pow_dvd_pow 2 hab)

/-- Two Fenwick blocks cannot properly straddle each other: if `x < y`,
`x` lies inside `(y − lowBit y, y]` and `y` lies inside `[x, x + lowBit x)`,
we get a contradiction. -/
theorem block_straddle {x y : Nat} (hx : 1 ≤ x) (hxy : x < y)
    (h1 : y - lowBit y < x) (h2 : y < x + lowBit x) : False := by
  have hy : 1 ≤ y := by omega
  have hylb := lowBit_le hy
  -- both `lowBit x ∣ x` and `lowBit y ∣ y`, and the difference `y − x` is
  -- positive but smaller than both low bits
  have hdx : lowBit x ∣ x := lowBit_dvd x
  have hdy : lowBit y ∣ y := lowBit_dvd y
  have hlt1 : y - x < lowBit x := by omega
  have hlt2 : y - x < lowBit y := by omega
  have hpos : 0 < y - x := by omega
  rcases lowBit_dvd_or hx hy with hcmp | hcmp
  · -- lowBit x ∣ lowBit y ∣ y and lowBit x ∣ x, so lowBit x ∣ y − x < lowBit x
    have : lowBit x ∣ y - x := Nat.dvd_sub' (dvd_trans hcmp hdy) hdx
    exact absurd (Nat.le_of_dvd hpos this) (by omega)
  · have : lowBit y ∣ y - x := Nat.dvd_sub' hdy (dvd_trans hcmp hdx)
    exact absurd (Nat.le_of_dvd hpos this) (by omega)

/-- Stepping the update chain once loses no ancestors: a block that covers
`idx + lowBit idx` from below also covers `idx`. -/
theorem block_step_down {idx j : Nat} (hidx : 1 ≤ idx)
    (hj : idx + lowBit idx ≤ j) (h : j - lowBit j < idx + lowBit idx) :
    j - lowBit j < idx := by
  by_contra hc
  push_neg at hc
  -- idx ≤ j − lowBit j < idx + lowBit idx
  have hj1 : 1 ≤ j := by omega
  have hjlb := lowBit_le hj1
  have hL := lowBit_pos hidx
  have hM := lowBit_pos hj1
  have hdll : 2 * lowBit j ∣ j - lowBit j := two_lowBit_dvd_sub hj1
  have hda : 2 * lowBit idx ∣ idx + lowBit idx := two_lowBit_dvd_add hidx
  rcases lowBit_dvd_or hj1 hidx with hcmp | hcmp
  · -- lowBit j ∣ lowBit idx: then lowBit j divides both j and idx + lowBit idx,
    -- and j ∈ [idx + lowBit idx, idx + lowBit idx + lowBit j), so j = idx + lowBit idx
    have hdyj : lowBit j ∣ j := lowBit_dvd j
    have hd2 : lowBit j ∣ idx + lowBit idx :=
      dvd_trans (dvd_trans hcmp (dvd_mul_left _ 2)) hda
    have hdiff : lowBit j ∣ j - (idx + lowBit idx) := Nat.dvd_sub' hdyj hd2
    have hlt : j - (idx + lowBit idx) < lowBit j := by omega
    have heq : j = idx + lowBit idx := by
      rcases Nat.eq_zero_or_pos (j - (idx + lowBit idx)) with h0 | hp
      · omega
      · exact absurd (Nat.le_of_dvd hp hdiff) (by omega)
    -- but then 2·lowBit idx ∣ j, hence 2·lowBit idx ∣ lowBit j ∣ lowBit idx
    have : 2 * lowBit idx ∣ lowBit j := by
      rw [heq] at hdyj ⊢
      rcases lowBit_isPow hidx with ⟨a, ha⟩
      have : 2 * lowBit idx = 2 ^ (a + 1) := by rw [ha, pow_succ]; ring
      rw [this] at hda ⊢
      exact (pow_dvd_iff_dvd_lowBit (by omega) (a + 1)).mp hda
    have h2L : 2 * lowBit idx ≤ lowBit j := Nat.le_of_dvd (by omega) this
    have hML : lowBit j ≤ lowBit idx := Nat.le_of_dvd (by omega) hcmp
    omega
  · -- lowBit idx ∣ lowBit j, so 2·lowBit idx ∣ 2·lowBit j ∣ j − lowBit j;
    -- but j − lowBit j ∈ [idx, idx + lowBit idx) where idx ≡ lowBit idx (mod 2·lowBit idx)
    have hd2 : 2 * lowBit idx ∣ j - lowBit j :=
      dvd_trans (mul_dvd_mul_left 2 hcmp) hdll
    have hsub : 2 * lowBit idx ∣ idx - lowBit idx := two_lowBit_dvd_sub hidx
    have hlblei := lowBit_le hidx
    have : 2 * lowBit idx ∣ (j - lowBit j) - (idx - lowBit idx) := Nat.dvd_sub' hd2 hsub
    have hpos : 0 < (j - lowBit j) - (idx - lowBit idx) := by omega
    have hlt : (j - lowBit j) - (idx - lowBit idx) < 2 * lowBit idx := by omega
    exact absurd (Nat.le_of_dvd hpos this) (by omega)

/-- Mirror of `block_step_down` for the descending chain: a right-looking
block that covers `idx − lowBit idx` from above also covers `idx`. -/
theorem block_step_up {idx v : Nat} (hv : 1 ≤ v) (hidx : 1 ≤ idx)
    (h1 : v ≤ idx - lowBit idx) (h2 : idx - lowBit idx < v + lowBit v) :
    idx < v + lowBit v := by
  by_contra hc
  push_neg at hc
  -- v + lowBit v ≤ idx and idx − lowBit idx ∈ [v, v + lowBit v)
  have hilb := lowBit_le hidx
  have hK := lowBit_pos hv
  have hL := lowBit_pos hidx
  have hvlb := lowBit_le hv
  have hdvv : lowBit v ∣ v := lowBit_dvd v
  have hdii : lowBit idx ∣ idx := lowBit_dvd idx
  have hda : 2 * lowBit v ∣ v + lowBit v := two_lowBit_dvd_add hv
  rcases lowBit_dvd_or hidx hv with hcmp | hcmp
  · -- lowBit idx ∣ lowBit v: lowBit idx divides idx and v + lowBit v, and
    -- idx ∈ [v + lowBit v, v + lowBit v + lowBit idx), so idx = v + lowBit v
    have hd2 : lowBit idx ∣ v + lowBit v :=
      dvd_trans (dvd_trans hcmp (dvd_mul_left _ 2)) hda
    have hdiff : lowBit idx ∣ idx - (v + lowBit v) := Nat.dvd_sub' hdii hd2
    have hlt : idx - (v + lowBit v) < lowBit idx := by omega
    have heq : idx = v + lowBit v := by
      rcases Nat.eq_zero_or_pos (idx - (v + lowBit v)) with h0 | hp
      · omega
      · exact absurd (Nat.le_of_dvd hp hdiff) (by omega)
    have : 2 * lowBit v ∣ lowBit idx := by
      rw [heq] at hdii ⊢
      rcases lowBit_isPow hv with ⟨a, ha⟩
      have h2a : 2 * lowBit v = 2 ^ (a + 1) := by rw [ha, pow_succ]; ring
      rw [h2a] at hda ⊢
      exact (pow_dvd_iff_dvd_lowBit (by omega) (a + 1)).mp hda
    have h2K : 2 * lowBit v ≤ lowBit idx := Nat.le_of_dvd (by omega) this
    have hKL : lowBit idx ≤ lowBit v := Nat.le_of_dvd (by omega) hcmp
    omega
  · -- lowBit v ∣ lowBit idx: 2·lowBit v ∣ 2·lowBit idx ∣ idx − lowBit idx;
    -- but idx − lowBit idx ∈ [v, v + lowBit v) where v ≡ lowBit v (mod 2·lowBit v)
    have hdll : 2 * lowBit idx ∣ idx - lowBit idx := two_lowBit_dvd_sub hidx
    have hd2 : 2 * lowBit v ∣ idx - lowBit idx :=
      dvd_trans (mul_dvd_mul_left 2 hcmp) hdll
    have hsub : 2 * lowBit v ∣ v - lowBit v := two_lowBit_dvd_sub hv
    have : 2 * lowBit v ∣ (idx - lowBit idx) - (v - lowBit v) := Nat.dvd_sub' hd2 hsub
    have hpos : 0 < (idx - lowBit idx) - (v - lowBit v) := by omega
    have hlt : (idx - lowBit idx) - (v - lowBit v) < 2 * lowBit v := by omega
    exact absurd (Nat.le_of_dvd hpos this) (by omega)

end BIT

namespace BIT

theorem lowBit_eq_of_dvd_iff {x y : Nat} (hx : 1 ≤ x) (hy : 1 ≤ y)
    (h : ∀ k, 2 ^ k ∣ x ↔ 2 ^ k ∣ y) : lowBit x = lowBit y := by
  rcases lowBit_isPow hx with ⟨a, ha⟩
  rcases lowBit_isPow hy with ⟨b, hb⟩
  have h1 : lowBit x ∣ lowBit y := by
    rw [ha]
    exact (pow_dvd_iff_dvd_lowBit hy a).mp
      ((h a).mp ((pow_dvd_iff_dvd_lowBit hx a).mpr (by rw [← ha])))
  have h2 : lowBit y ∣ lowBit x := by
    rw [hb]
    exact (pow_dvd_iff_dvd_lowBit hx b).mp
      ((h b).mpr ((pow_dvd_iff_dvd_lowBit hy b).mpr (by rw [← hb])))
  exact Nat.dvd_antisymm h1 h2

/-- Adding a multiple of `2^s` below position `s` does not change the low bit. -/
theorem lowBit_add_of_dvd {m v s : Nat} (hm : 2 ^ s ∣ m) (hv : 0 < v)
    (hvs : v < 2 ^ s) : lowBit (m + v) = lowBit v := by
  apply lowBit_eq_of_dvd_iff (by omega) hv
  intro k
  rcases le_or_lt k s with hks | hks
  · have hkm : 2 ^ k ∣ m := dvd_trans (pow_dvd_pow 2 hks) hm
    constructor
    · intro hd
      have := Nat.dvd_sub' hd hkm
      simpa using this
    · intro hd
      exact Dvd.dvd.add hkm hd
  · constructor
    · intro hd
      have hsk : 2 ^ s ∣ 2 ^ k := pow_dvd_pow 2 (by omega)
      have h1 : 2 ^ s ∣ m + v := dvd_trans hsk hd
      have h2 : 2 ^ s ∣ v := by
        have := Nat.dvd_sub' h1 hm
        simpa using this
      exact absurd (Nat.le_of_dvd hv h2) (by omega)
    · intro hd
      have := Nat.le_of_dvd hv hd
      have h1 : 2 ^ s < 2 ^ k := Nat.pow_lt_pow_right one_lt_two hks
      omega

/-- Inside a window `(0, 2^s)`, one ascent step stays within `2^s`. -/
theorem add_lowBit_le {v s : Nat} (hv : 0 < v) (hvs : v < 2 ^ s) :
    v + lowBit v ≤ 2 ^ s := by
  have h2 : 2 * lowBit v ∣ v + lowBit v := two_lowBit_dvd_add hv
  have hlb := lowBit_le hv
  have hlbpos := lowBit_pos hv
  rcases lowBit_isPow hv with ⟨t, ht⟩
  have hts : t < s := by
    have h1 : 2 ^ t ≤ v := by rw [← ht]; exact hlb
    exact (Nat.pow_lt_pow_iff_right one_lt_two).mp (by omega)
  have hdvd2s : 2 * lowBit v ∣ 2 ^ s := by
    rw [ht]
    have : 2 * 2 ^ t = 2 ^ (t + 1) := by rw [pow_succ]; ring
    rw [this]
    exact pow_dvd_pow 2 (by omega)
  by_contra hc
  push_neg at hc
  have hdd : 2 * lowBit v ∣ v + lowBit v - 2 ^ s := Nat.dvd_sub' h2 hdvd2s
  have hpos : 0 < v + lowBit v - 2 ^ s := by omega
  have hlt : v + lowBit v - 2 ^ s < 2 * lowBit v := by omega
  exact absurd (Nat.le_of_dvd hpos hdd) (by omega)

/-- Inside a window `(m, m + 2^s)` aligned at a multiple of `2^s`, one descent
step `x − lowBit x` stays at or above `m`. -/
theorem lowBit_le_sub_of_window {m s x : Nat} (hm : 2 ^ s ∣ m) (h1 : m < x)
    (h2 : x < m + 2 ^ s) : lowBit x ≤ x - m := by
  have hx : x = m + (x - m) := by omega
  have h := lowBit_add_of_dvd hm (v := x - m) (by omega) (by omega)
  rw [← hx] at h
  rw [h]
  exact lowBit_le (by omega)

/-- Inside a window `(m, m + 2^s)` aligned at a multiple of `2^s`, one ascent
step `x + lowBit x` stays within `m + 2^s`. -/
theorem add_lowBit_le_of_window {m s x : Nat} (hm : 2 ^ s ∣ m) (h1 : m < x)
    (h2 : x < m + 2 ^ s) : x + lowBit x ≤ m + 2 ^ s := by
  have hx : x = m + (x - m) := by omega
  have h := lowBit_add_of_dvd hm (v := x - m) (by omega) (by omega)
  rw [← hx] at h
  rw [h]
  have := add_lowBit_le (v := x - m) (s := s) (by omega) (by omega)
  omega

/-- The low bit strictly grows along the ascending chain. -/
theorem lowBit_add_lowBit {n : Nat} (h : 1 ≤ n) :
    2 * lowBit n ∣ lowBit (n + lowBit n) := by
  rcases lowBit_isPow h with ⟨t, ht⟩
  have h2 : 2 * lowBit n = 2 ^ (t + 1) := by rw [ht, pow_succ]; ring
  rw [h2]
  exact (pow_dvd_iff_dvd_lowBit (by have := lowBit_pos h; omega) (t + 1)).mp
    (by rw [← h2]; exact two_lowBit_dvd_add h)

theorem two_lowBit_le_lowBit_add {n : Nat} (h : 1 ≤ n) :
    2 * lowBit n ≤ lowBit (n + lowBit n) := by
  have hp := lowBit_pos h
  exact Nat.le_of_dvd (lowBit_pos (by omega)) (lowBit_add_lowBit h)

/-- The low bit strictly grows along the descending chain (when it does not
terminate at zero). -/
theorem lowBit_sub_lowBit {n : Nat} (h : 1 ≤ n) (h2 : 1 ≤ n - lowBit n) :
    2 * lowBit n ∣ lowBit (n - lowBit n) := by
  rcases lowBit_isPow h with ⟨t, ht⟩
  have h2t : 2 * lowBit n = 2 ^ (t + 1) := by rw [ht, pow_succ]; ring
  rw [h2t]
  exact (pow_dvd_iff_dvd_lowBit h2 (t + 1)).mp (by rw [← h2t]; exact two_lowBit_dvd_sub h)

theorem two_lowBit_le_lowBit_sub {n : Nat} (h : 1 ≤ n) (h2 : 1 ≤ n - lowBit n) :
    2 * lowBit n ≤ lowBit (n - lowBit n) := by
  exact Nat.le_of_dvd (lowBit_pos h2) (lowBit_sub_lowBit h h2)

end BIT

namespace BIT

/-!
### The base 1-D tree (`struct Fenwick`, `src/fenwick.h`)

The struct owns `n` (`= 2^m − 1`), `nmask` (`= 2^(m−1)`) and the storage
`T[0..n]`, here a total function `Nat → Int`.  `allocate` zero-fills the
storage.  Every C loop below is rendered as a structurally recursive `_go`
function on a fuel argument together with a wrapper instantiating the fuel
generously; the `_eq` lemma of each loop recovers the exact C loop step.
-/

/-- `Fenwick::allocate` zero-fills the storage (`std::fill_n(instance->T, n + 1, 0LL)`). -/
def zeroT : Nat → Int := fun _ => 0

/-- `Fenwick::clear`: `std::fill_n(T, n + 1, 0LL)`. -/
def clear (n : Nat) (T : Nat → Int) : Nat → Int := fun j => if j ≤ n then 0 else T j

/-- The loop of `Fenwick::prefix_sum`:
`for (; idx >= 1; idx -= idx & -idx) sum += T[idx];` -/
def prefix_sum_go (T : Nat → Int) : Nat → Nat → Int
  | 0, _ => 0
  | f + 1, idx => if 1 ≤ idx then T idx + prefix_sum_go T f (idx - lowBit idx) else 0

/-- `Fenwick::prefix_sum` (fuel `idx + 1` never runs out: `idx` strictly
decreases on every iteration). -/
def prefix_sum (T : Nat → Int) (idx : Nat) : Int := prefix_sum_go T (idx + 1) idx

theorem prefix_sum_go_congr (T : Nat → Int) :
    ∀ f g idx, idx < f → idx < g → prefix_sum_go T f idx = prefix_sum_go T g idx := by
  intro f
  induction f with
  | zero => intro g idx h; omega
  | succ f ih =>
    intro g idx hf hg
    cases g with
    | zero => omega
    | succ g =>
      show (if 1 ≤ idx then T idx + prefix_sum_go T f (idx - lowBit idx) else 0) =
        (if 1 ≤ idx then T idx + prefix_sum_go T g (idx - lowBit idx) else 0)
      rcases le_or_lt 1 idx with h1 | h1
      · have hlb := lowBit_pos h1
        rw [if_pos h1, if_pos h1, ih g (idx - lowBit idx) (by omega) (by omega)]
      · rw [if_neg (by omega), if_neg (by omega)]

/-- The C loop equation for `prefix_sum`. -/
theorem prefix_sum_eq (T : Nat → Int) (idx : Nat) :
    prefix_sum T idx =
      if 1 ≤ idx then T idx + prefix_sum T (idx - lowBit idx) else 0 := by
  show (if 1 ≤ idx then T idx + prefix_sum_go T idx (idx - lowBit idx) else 0) = _
  rcases le_or_lt 1 idx with h1 | h1
  · have hlb := lowBit_pos h1
    rw [if_pos h1, if_pos h1,
      prefix_sum_go_congr T idx (idx - lowBit idx + 1) (idx - lowBit idx) (by omega) (by omega)]
    rfl
  · rw [if_neg (by omega), if_neg (by omega)]

theorem prefix_sum_zero (T : Nat → Int) : prefix_sum T 0 = 0 := by
  rw [prefix_sum_eq]
  simp

/-- The loop of `Fenwick::update`:
`for (; idx <= n; idx += idx & -idx) T[idx] += delta;`
(for `idx = 0` the C loop would never advance since `idx & -idx == 0`;
the model exits instead, and no claim exercises that case). -/
def update_go (n : Nat) (delta : Int) : Nat → (Nat → Int) → Nat → (Nat → Int)
  | 0, T, _ => T
  | f + 1, T, idx =>
    if idx ≤ n then
      if lowBit idx = 0 then T
      else update_go n delta f (fun j => if j = idx then T j + delta else T j) (idx + lowBit idx)
    else T

/-- `Fenwick::update` (fuel `n + 1` never runs out: `idx` strictly increases). -/
def update (n : Nat) (T : Nat → Int) (idx : Nat) (delta : Int) : Nat → Int :=
  update_go n delta (n + 1) T idx

theorem update_go_congr (n : Nat) (delta : Int) :
    ∀ f g T idx, n < idx + f → n < idx + g →
      update_go n delta f T idx = update_go n delta g T idx := by
  intro f
  induction f with
  | zero =>
    intro g T idx hf hg
    cases g with
    | zero => rfl
    | succ g =>
      simp only [update_go]
      rw [if_neg (by omega)]
  | succ f ih =>
    intro g T idx hf hg
    cases g with
    | zero =>
      simp only [update_go]
      rw [if_neg (by omega)]
    | succ g =>
      simp only [update_go]
      rcases le_or_lt idx n with h1 | h1
      · rw [if_pos h1, if_pos h1]
        rcases Nat.eq_zero_or_pos (lowBit idx) with h0 | hp
        · rw [if_pos h0, if_pos h0]
        · rw [if_neg (by omega), if_neg (by omega)]
          exact ih g _ (idx + lowBit idx) (by omega) (by omega)
      · rw [if_neg (by omega), if_neg (by omega)]

/-- The C loop equation for `update`. -/
theorem update_eq_step (n : Nat) (T : Nat → Int) (idx : Nat) (delta : Int) :
    update n T idx delta =
      if idx ≤ n then
        (if lowBit idx = 0 then T
         else update n (fun j => if j = idx then T j + delta else T j) (idx + lowBit idx) delta)
      else T := by
  show update_go n delta (n + 1) T idx = _
  cases hn : n + 1 with
  | zero => omega
  | succ f =>
    show (if idx ≤ n then _ else T) = _
    rcases le_or_lt idx n with h1 | h1
    · rw [if_pos h1, if_pos h1]
      rcases Nat.eq_zero_or_pos (lowBit idx) with h0 | hp
      · rw [if_pos h0, if_pos h0]
      · rw [if_neg (by omega), if_neg (by omega)]
        exact update_go_congr n delta f (n + 1) _ (idx + lowBit idx) (by omega) (by omega)
    · rw [if_neg (by omega), if_neg (by omega)]

end BIT

namespace BIT

/-- One step of the ascending chain preserves the ancestor property: for
`idx < v`, the block of `v` covers `idx` exactly when `v` is at least the
next chain element `idx + lowBit idx` and its block covers that element. -/
theorem ancestor_step {idx v : Nat} (hidx : 1 ≤ idx) (hv : idx < v) :
    v - lowBit v < idx ↔
      idx + lowBit idx ≤ v ∧ v - lowBit v < idx + lowBit idx := by
  constructor
  · intro h
    constructor
    · by_contra hc
      push_neg at hc
      exact block_straddle hidx hv h hc
    · have := lowBit_pos hidx
      omega
  · intro ⟨h1, h2⟩
    exact block_step_down hidx h1 h2

/-- Pointwise effect of `Fenwick::update`: `delta` is added exactly at the
in-range indices whose block `(j − lowBit j, j]` contains `idx`. -/
theorem update_apply (n : Nat) (delta : Int) :
    ∀ k idx T, n + 1 - idx ≤ k → 1 ≤ idx → ∀ j,
      update n T idx delta j =
        T j + (if idx ≤ j ∧ j ≤ n ∧ j - lowBit j < idx then delta else 0) := by
  intro k
  induction k with
  | zero =>
    intro idx T hk hidx j
    rw [update_eq_step, if_neg (by omega)]
    rw [if_neg (by omega)]
    omega
  | succ k ih =>
    intro idx T hk hidx j
    rw [update_eq_step]
    rcases le_or_lt idx n with h1 | h1
    · have hlb := lowBit_pos hidx
      rw [if_pos h1, if_neg (by omega)]
      rw [ih (idx + lowBit idx) _ (by omega) (by omega) j]
      by_cases hj : j = idx
      · subst hj
        have h2 : ¬(j + lowBit j ≤ j ∧ j ≤ n ∧ j - lowBit j < j + lowBit j) := by
          omega
        have h3 : j ≤ j ∧ j ≤ n ∧ j - lowBit j < j := ⟨le_refl j, h1, by omega⟩
        rw [if_neg h2, if_pos h3, if_pos rfl]
        ring
      · rw [if_neg hj]
        by_cases hcond : idx ≤ j ∧ j ≤ n ∧ j - lowBit j < idx
        · rw [if_pos hcond]
          obtain ⟨hc1, hc2, hc3⟩ := hcond
          have hlt : idx < j := by omega
          have := (ancestor_step hidx hlt).mp hc3
          rw [if_pos ⟨this.1, hc2, this.2⟩]
        · rw [if_neg hcond]
          by_cases hcond2 : idx + lowBit idx ≤ j ∧ j ≤ n ∧ j - lowBit j < idx + lowBit idx
          · exfalso
            obtain ⟨hd1, hd2, hd3⟩ := hcond2
            have hlt : idx < j := by omega
            exact hcond ⟨by omega, hd2, (ancestor_step hidx hlt).mpr ⟨hd1, hd3⟩⟩
          · rw [if_neg hcond2]
    · rw [if_neg (by omega), if_neg (by omega)]
      omega

/-- Pointwise effect of `Fenwick::update`, fuel pre-instantiated. -/
theorem update_apply' (n : Nat) (T : Nat → Int) (idx : Nat) (delta : Int)
    (hidx : 1 ≤ idx) (j : Nat) :
    update n T idx delta j =
      T j + (if idx ≤ j ∧ j ≤ n ∧ j - lowBit j < idx then delta else 0) :=
  update_apply n delta (n + 1) idx T (by omega) hidx j

/-- The data-structure invariant of the base tree (spec §3): every
accumulator `T[i]` holds the sum of the fictive array over the half-open
interval `(i − lowBit i, i]`. -/
def fenwickInv (n : Nat) (T : Nat → Int) (a : Nat → Int) : Prop :=
  ∀ i, 1 ≤ i → i ≤ n → T i = ∑ j in Finset.Ioc (i - lowBit i) i, a j

/-- The fictive array after a point update `a[idx] += delta`. -/
def aUpd (a : Nat → Int) (idx : Nat) (delta : Int) : Nat → Int :=
  fun j => if j = idx then a j + delta else a j

theorem sum_aUpd (a : Nat → Int) (idx : Nat) (delta : Int) (s : Finset Nat) :
    ∑ j in s, aUpd a idx delta j =
      (∑ j in s, a j) + if idx ∈ s then delta else 0 := by
  have h1 : ∀ j, aUpd a idx delta j = a j + (if j = idx then delta else 0) := by
    intro j
    unfold aUpd
    by_cases hj : j = idx
    · rw [if_pos hj, if_pos hj]
    · rw [if_neg hj, if_neg hj, add_zero]
  calc ∑ j in s, aUpd a idx delta j
      = ∑ j in s, (a j + if j = idx then delta else 0) := by
        exact Finset.sum_congr rfl (fun j _ => h1 j)
    _ = (∑ j in s, a j) + ∑ j in s, (if j = idx then delta else 0) := by
        rw [Finset.sum_add_distrib]
    _ = (∑ j in s, a j) + if idx ∈ s then delta else 0 := by
        rw [Finset.sum_ite_eq' s idx (fun _ => delta)]

/-- `Fenwick::update` maintains the invariant, the fictive array gaining
`delta` at `idx`. -/
theorem update_fenwickInv {n : Nat} {T a : Nat → Int} (h : fenwickInv n T a)
    {idx : Nat} (hidx : 1 ≤ idx) (delta : Int) :
    fenwickInv n (update n T idx delta) (aUpd a idx delta) := by
  intro i h1 hn
  rw [update_apply' n T idx delta hidx i, h i h1 hn, sum_aUpd]
  congr 1
  by_cases hc : i - lowBit i < idx ∧ idx ≤ i
  · rw [if_pos ⟨hc.2, hn, hc.1⟩, if_pos (Finset.mem_Ioc.mpr hc)]
  · rw [if_neg (fun hcc => hc ⟨hcc.2.2, hcc.1⟩),
      if_neg (fun hm => hc (Finset.mem_Ioc.mp hm))]

/-- Under the invariant, `prefix_sum` returns the prefix of the fictive
array: `a[1] + … + a[idx]`. -/
theorem prefix_sum_of_inv {n : Nat} {T a : Nat → Int} (h : fenwickInv n T a) :
    ∀ idx, idx ≤ n → prefix_sum T idx = ∑ j in Finset.Ioc 0 idx, a j := by
  intro idx
  induction idx using Nat.strong_induction_on with
  | _ idx ih =>
    intro hn
    rw [prefix_sum_eq]
    rcases le_or_lt 1 idx with h1 | h1
    · have hlb := lowBit_pos h1
      have hlble := lowBit_le h1
      rw [if_pos h1, h idx h1 hn,
        ih (idx - lowBit idx) (by omega) (by omega)]
      rw [add_comm]
      exact Finset.sum_Ioc_consecutive _ (by omega) (by omega)
    · rw [if_neg (by omega)]
      have : idx = 0 := by omega
      subst this
      simp

end BIT

namespace BIT

/-- `Fenwick::access`:
`(idx == 1) ? T[1] : prefix_sum(idx) - prefix_sum(idx - 1)`. -/
def access (T : Nat → Int) (idx : Nat) : Int :=
  if idx = 1 then T 1 else prefix_sum T idx - prefix_sum T (idx - 1)

/-- The two-pointer convergence loop shared verbatim by the bodies of
`Fenwick::fast_access` and `Fenwick::fast_range_sum`:
`while (i != j) { if (i > j) { sum += T[i]; i -= i & -i; } else { sum -= T[j]; j -= j & -j; } }`. -/
def converge_go (T : Nat → Int) : Nat → Nat → Nat → Int → Int
  | 0, _, _, sum => sum
  | f + 1, i, j, sum =>
    if i = j then sum
    else if j < i then converge_go T f (i - lowBit i) j (sum + T i)
    else converge_go T f i (j - lowBit j) (sum - T j)

/-- The convergence loop with fuel `i + j + 1`, which never runs out: while
`i ≠ j`, the larger pointer is positive and strictly decreases. -/
def converge (T : Nat → Int) (i j : Nat) (sum : Int) : Int :=
  converge_go T (i + j + 1) i j sum

theorem converge_go_congr (T : Nat → Int) :
    ∀ f g i j sum, i + j < f → i + j < g →
      converge_go T f i j sum = converge_go T g i j sum := by
  intro f
  induction f with
  | zero => intro g i j sum hf; omega
  | succ f ih =>
    intro g i j sum hf hg
    cases g with
    | zero => omega
    | succ g =>
      simp only [converge_go]
      by_cases hij : i = j
      · rw [if_pos hij, if_pos hij]
      · rw [if_neg hij, if_neg hij]
        rcases lt_or_gt_of_ne hij with h1 | h1
        · rw [if_neg (by omega), if_neg (by omega)]
          have hj1 : 1 ≤ j := by omega
          have := lowBit_pos hj1
          exact ih g i (j - lowBit j) _ (by omega) (by omega)
        · rw [if_pos h1, if_pos h1]
          have hi1 : 1 ≤ i := by omega
          have := lowBit_pos hi1
          exact ih g (i - lowBit i) j _ (by omega) (by omega)

/-- The C loop equation for the convergence loop. -/
theorem converge_eq (T : Nat → Int) (i j : Nat) (sum : Int) :
    converge T i j sum =
      if i = j then sum
      else if j < i then converge T (i - lowBit i) j (sum + T i)
      else converge T i (j - lowBit j) (sum - T j) := by
  show converge_go T (i + j + 1) i j sum = _
  simp only [converge_go]
  by_cases hij : i = j
  · rw [if_pos hij, if_pos hij]
  · rw [if_neg hij, if_neg hij]
    rcases lt_or_gt_of_ne hij with h1 | h1
    · rw [if_neg (by omega), if_neg (by omega)]
      have hj1 : 1 ≤ j := by omega
      have := lowBit_pos hj1
      exact converge_go_congr T (i + j) (i + (j - lowBit j) + 1) i (j - lowBit j) _
        (by omega) (by omega)
    · rw [if_pos h1, if_pos h1]
      have hi1 : 1 ≤ i := by omega
      have := lowBit_pos hi1
      exact converge_go_congr T (i + j) ((i - lowBit i) + j + 1) (i - lowBit i) j _
        (by omega) (by omega)

/-- `Fenwick::fast_access`: seeds the convergence loop with
`sum = T[idx]`, `i = idx - (idx & -idx)`, `j = idx - 1`. -/
def fast_access (T : Nat → Int) (idx : Nat) : Int :=
  converge T (idx - lowBit idx) (idx - 1) (T idx)

/-- `Fenwick::range_sum`:
`sum = prefix_sum(r); if (l > 1) sum -= prefix_sum(l - 1);`. -/
def range_sum (T : Nat → Int) (l r : Nat) : Int :=
  prefix_sum T r - (if 1 < l then prefix_sum T (l - 1) else 0)

/-- `Fenwick::fast_range_sum`: seeds the convergence loop with
`sum = T[r]`, `i = r - (r & -r)`, `j = l - 1`. -/
def fast_range_sum (T : Nat → Int) (l r : Nat) : Int :=
  converge T (r - lowBit r) (l - 1) (T r)

/-- The loop of `Fenwick::search`:
`for (int i = 1; i <= n; i++) if (prefix_sum(i) >= val) return i; return n + 1;`. -/
def search_go (n : Nat) (T : Nat → Int) (val : Int) : Nat → Nat → Nat
  | 0, _ => n + 1
  | f + 1, i =>
    if i ≤ n then
      (if val ≤ prefix_sum T i then i else search_go n T val f (i + 1))
    else n + 1

/-- `Fenwick::search` (fuel `n + 1` never runs out starting from `i = 1`). -/
def search (n : Nat) (T : Nat → Int) (val : Int) : Nat :=
  search_go n T val (n + 1) 1

/-- The loop of `Fenwick::fast_search`:
`val--; i = 0; for (mask = nmask; mask != 0; mask >>= 1) { ii = i + mask;
if (ii > n) continue; if (T[ii] <= val) { val -= T[ii]; i = ii; } }; return i + 1;`. -/
def fast_search_go (n : Nat) (T : Nat → Int) : Nat → Nat → Nat → Int → Nat
  | 0, _, i, _ => i + 1
  | f + 1, mask, i, val =>
    if mask = 0 then i + 1
    else if i + mask > n then fast_search_go n T f (mask / 2) i val
    else if T (i + mask) ≤ val then
      fast_search_go n T f (mask / 2) (i + mask) (val - T (i + mask))
    else fast_search_go n T f (mask / 2) i val

/-- `Fenwick::fast_search` (fuel `nmask + 1` never runs out: `mask` at least
halves on every iteration). -/
def fast_search (n nmask : Nat) (T : Nat → Int) (val : Int) : Nat :=
  fast_search_go n T (nmask + 1) nmask 0 (val - 1)

theorem fast_search_go_congr (n : Nat) (T : Nat → Int) :
    ∀ f g mask i val, mask < f → mask < g →
      fast_search_go n T f mask i val = fast_search_go n T g mask i val := by
  intro f
  induction f with
  | zero => intro g mask i val hf; omega
  | succ f ih =>
    intro g mask i val hf hg
    cases g with
    | zero => omega
    | succ g =>
      simp only [fast_search_go]
      by_cases h0 : mask = 0
      · rw [if_pos h0, if_pos h0]
      · rw [if_neg h0, if_neg h0]
        have hm2 : mask / 2 < f ∧ mask / 2 < g := by omega
        by_cases h1 : i + mask > n
        · rw [if_pos h1, if_pos h1]
          exact ih g (mask / 2) i val hm2.1 hm2.2
        · rw [if_neg h1, if_neg h1]
          by_cases h2 : T (i + mask) ≤ val
          · rw [if_pos h2, if_pos h2]
            exact ih g (mask / 2) (i + mask) _ hm2.1 hm2.2
          · rw [if_neg h2, if_neg h2]
            exact ih g (mask / 2) i val hm2.1 hm2.2

/-- The loop of `Fenwick::construct`, descending:
`for (int i = n; i >= 1; i--) { T[i] = 0LL; update(i, a[i]); }`. -/
def construct_go (n : Nat) (a : Nat → Int) : Nat → (Nat → Int) → (Nat → Int)
  | 0, T => T
  | i + 1, T =>
    construct_go n a i (update n (fun j => if j = i + 1 then 0 else T j) (i + 1) (a (i + 1)))

/-- `Fenwick::construct` (the loop runs `i = n, …, 1`). -/
def construct (n : Nat) (T : Nat → Int) (a : Nat → Int) : Nat → Int :=
  construct_go n a n T

/-- The cumulative-sum pass of `Fenwick::fast_construct`:
`a[0] = 0; for (int i = 1; i <= n; i++) a[i] += a[i - 1];` leaves
`a[i] = a₀[1] + … + a₀[i]` for `0 ≤ i ≤ n`, which is `csum a i`. -/
def csum (a : Nat → Int) : Nat → Int
  | 0 => 0
  | i + 1 => csum a i + a (i + 1)

/-- `Fenwick::fast_construct`, second loop: for `1 ≤ i ≤ n` it overwrites
`T[i] = (ii == 0) ? a[i] : a[i] - a[ii]` with `ii = i - (i & -i)` and `a`
already in cumulative form. -/
def fast_construct (n : Nat) (T : Nat → Int) (a : Nat → Int) : Nat → Int :=
  fun i =>
    if 1 ≤ i ∧ i ≤ n then
      (if i - lowBit i = 0 then csum a i else csum a i - csum a (i - lowBit i))
    else T i

/-- The caller's array after `Fenwick::fast_construct` returns: indices
`0 ≤ i ≤ n` hold the running cumulative sums (the documented side effect). -/
def mutated (n : Nat) (a : Nat → Int) : Nat → Int :=
  fun i => if i ≤ n then csum a i else a i

/-- `Fenwick::rupq_update`:
`update(l, delta); if (r < n) update(r + 1, -delta);`. -/
def rupq_update (n : Nat) (T : Nat → Int) (l r : Nat) (delta : Int) : Nat → Int :=
  if r < n then update n (update n T l delta) (r + 1) (-delta) else update n T l delta

/-- `Fenwick::rupq_access`: `return prefix_sum(idx);`. -/
def rupq_access (T : Nat → Int) (idx : Nat) : Int := prefix_sum T idx

end BIT

namespace BIT

/-- The convergence loop computes `sum + prefix_sum i − prefix_sum j`,
for any tree contents whatsoever. -/
theorem converge_val (T : Nat → Int) :
    ∀ m i j sum, i + j ≤ m →
      converge T i j sum = sum + prefix_sum T i - prefix_sum T j := by
  intro m
  induction m with
  | zero =>
    intro i j sum h
    have hi : i = 0 := by omega
    have hj : j = 0 := by omega
    subst hi hj
    rw [converge_eq, if_pos rfl, prefix_sum_zero]
    ring
  | succ m ih =>
    intro i j sum h
    rw [converge_eq]
    by_cases hij : i = j
    · rw [if_pos hij, hij]
      ring
    · rw [if_neg hij]
      rcases lt_or_gt_of_ne hij with h1 | h1
      · rw [if_neg (by omega)]
        have hj1 : 1 ≤ j := by omega
        have hlb := lowBit_pos hj1
        rw [ih i (j - lowBit j) _ (by omega)]
        have hpj : prefix_sum T j = T j + prefix_sum T (j - lowBit j) := by
          rw [prefix_sum_eq, if_pos hj1]
        rw [hpj]
        ring
      · rw [if_pos h1]
        have hi1 : 1 ≤ i := by omega
        have hlb := lowBit_pos hi1
        rw [ih (i - lowBit i) j _ (by omega)]
        have hpi : prefix_sum T i = T i + prefix_sum T (i - lowBit i) := by
          rw [prefix_sum_eq, if_pos hi1]
        rw [hpi]
        ring

/-- `fast_access` agrees with the two-prefix-sum difference on every tree. -/
theorem fast_access_val (T : Nat → Int) (idx : Nat) (h : 1 ≤ idx) :
    fast_access T idx = prefix_sum T idx - prefix_sum T (idx - 1) := by
  unfold fast_access
  rw [converge_val T ((idx - lowBit idx) + (idx - 1)) _ _ _ (le_refl _)]
  have hpi : prefix_sum T idx = T idx + prefix_sum T (idx - lowBit idx) := by
    rw [prefix_sum_eq, if_pos h]
  rw [hpi]

/-- `access` agrees with `fast_access` on every tree (claims restrict to
reachable trees; no reachability is in fact needed). -/
theorem access_eq_fast_access (T : Nat → Int) (idx : Nat) (h : 1 ≤ idx) :
    access T idx = fast_access T idx := by
  unfold access
  rw [fast_access_val T idx h]
  by_cases h1 : idx = 1
  · subst h1
    rw [if_pos rfl]
    have : prefix_sum T 1 = T 1 + prefix_sum T (1 - lowBit 1) := by
      rw [prefix_sum_eq, if_pos (le_refl 1)]
    rw [this, lowBit_odd (by omega)]
    show T 1 = T 1 + prefix_sum T 0 - prefix_sum T 0
    ring
  · rw [if_neg h1]

/-- `range_sum` as a difference of prefix sums. -/
theorem range_sum_val (T : Nat → Int) (l r : Nat) (hl : 1 ≤ l) :
    range_sum T l r = prefix_sum T r - prefix_sum T (l - 1) := by
  unfold range_sum
  rcases lt_or_le 1 l with h1 | h1
  · rw [if_pos h1]
  · have : l = 1 := by omega
    subst this
    rw [if_neg (by omega)]
    show prefix_sum T r - 0 = prefix_sum T r - prefix_sum T 0
    rw [prefix_sum_zero]

/-- `range_sum` agrees with `fast_range_sum` on every tree. -/
theorem range_sum_eq_fast_range_sum (T : Nat → Int) (l r : Nat)
    (hl : 1 ≤ l) (hr : 1 ≤ r) :
    range_sum T l r = fast_range_sum T l r := by
  rw [range_sum_val T l r hl]
  unfold fast_range_sum
  rw [converge_val T ((r - lowBit r) + (l - 1)) _ _ _ (le_refl _)]
  have hpr : prefix_sum T r = T r + prefix_sum T (r - lowBit r) := by
    rw [prefix_sum_eq, if_pos hr]
  rw [hpr]

/-- A tree reached from the freshly allocated all-zero storage by a sequence
of point updates `update(idx, delta)`. -/
def applyUpdates (n : Nat) (us : List (Nat × Int)) (T : Nat → Int) : Nat → Int :=
  us.foldl (fun acc p => update n acc p.1 p.2) T

end BIT

namespace BIT

/-- Pointwise effect of the `construct` loop run from `i` down to `1`:
indices up to `i` have been zeroed and rebuilt, larger indices have received
the update deltas of the processed prefix of the array. -/
theorem construct_go_apply (n : Nat) (a : Nat → Int) :
    ∀ i T j, 1 ≤ j → j ≤ n →
      construct_go n a i T j =
        (if j ≤ i then 0 else T j) +
          ∑ k in Finset.Ioc (j - lowBit j) (min i j), a k := by
  intro i
  induction i with
  | zero =>
    intro T j h1 hn
    show T j = (if j ≤ 0 then 0 else T j) + ∑ k in Finset.Ioc (j - lowBit j) (min 0 j), a k
    rw [if_neg (by omega), Nat.min_comm, Nat.min_zero, Finset.Ioc_eq_empty (by omega),
      Finset.sum_empty, add_zero]
  | succ i ih =>
    intro T j h1 hn
    show construct_go n a i _ j = _
    rw [ih _ j h1 hn]
    have hlb := lowBit_pos h1
    have hlble := lowBit_le h1
    rcases lt_trichotomy j (i + 1) with hj | hj | hj
    · -- j ≤ i: already rebuilt; the update at i + 1 does not touch j (i + 1 > j)
      rw [if_pos (by omega), if_pos (by omega)]
      have hmin1 : min i j = j := by omega
      have hmin2 : min (i + 1) j = j := by omega
      rw [hmin1, hmin2]
    · -- j = i + 1: this iteration zeroes T[j] and seeds it with a[j]
      subst hj
      rw [if_neg (by omega), if_pos (le_refl _)]
      rw [update_apply' n _ (i + 1) (a (i + 1)) (by omega) (i + 1)]
      rw [if_pos rfl, if_pos ⟨le_refl _, hn, by omega⟩]
      have hmin1 : min i (i + 1) = i := by omega
      have hmin2 : min (i + 1) (i + 1) = i + 1 := by omega
      rw [hmin1, hmin2]
      rw [Finset.sum_Ioc_succ_top (by omega : i + 1 - lowBit (i + 1) ≤ i) a]
      ring
    · -- j > i + 1: only the update delta at i + 1 may reach j
      rw [if_neg (by omega), if_neg (by omega)]
      rw [update_apply' n _ (i + 1) (a (i + 1)) (by omega) j, if_neg (by omega)]
      have hmin1 : min i j = i := by omega
      have hmin2 : min (i + 1) j = i + 1 := by omega
      rw [hmin1, hmin2]
      by_cases hc : j - lowBit j < i + 1
      · rw [if_pos ⟨by omega, hn, hc⟩]
        rw [Finset.sum_Ioc_succ_top (by omega : j - lowBit j ≤ i) a]
        ring
      · rw [if_neg (fun hcc => hc hcc.2.2)]
        rw [Finset.Ioc_eq_empty (by omega), Finset.Ioc_eq_empty (by omega)]
        ring

/-- `Fenwick::construct` establishes the invariant for the supplied array,
from any previous storage contents. -/
theorem construct_fenwickInv (n : Nat) (T a : Nat → Int) :
    fenwickInv n (construct n T a) a := by
  intro i h1 hn
  unfold construct
  rw [construct_go_apply n a n T i h1 hn, if_pos hn]
  have : min n i = i := by omega
  rw [this, zero_add]

theorem csum_eq_sum (a : Nat → Int) : ∀ m, csum a m = ∑ j in Finset.Ioc 0 m, a j := by
  intro m
  induction m with
  | zero => simp [csum]
  | succ m ih =>
    show csum a m + a (m + 1) = _
    rw [ih, Finset.sum_Ioc_succ_top (by omega)]

/-- `Fenwick::fast_construct` establishes the invariant for the supplied
(pre-mutation) array, from any previous storage contents. -/
theorem fast_construct_fenwickInv (n : Nat) (T a : Nat → Int) :
    fenwickInv n (fast_construct n T a) a := by
  intro i h1 hn
  unfold fast_construct
  rw [if_pos ⟨h1, hn⟩]
  have hlb := lowBit_pos h1
  have hlble := lowBit_le h1
  have hsplit : (∑ j in Finset.Ioc 0 (i - lowBit i), a j) +
      ∑ j in Finset.Ioc (i - lowBit i) i, a j = ∑ j in Finset.Ioc 0 i, a j :=
    Finset.sum_Ioc_consecutive _ (by omega) (by omega)
  by_cases h0 : i - lowBit i = 0
  · rw [if_pos h0, csum_eq_sum, h0]
  · rw [if_neg h0, csum_eq_sum, csum_eq_sum]
    omega

/-- `Fenwick::clear` establishes the invariant for the all-zero array. -/
theorem clear_fenwickInv (n : Nat) (T : Nat → Int) :
    fenwickInv n (clear n T) (fun _ => 0) := by
  intro i h1 hn
  show (if i ≤ n then 0 else T i) = _
  rw [if_pos hn, Finset.sum_const_zero]

/-- The freshly allocated storage satisfies the invariant for the all-zero
array. -/
theorem zeroT_fenwickInv (n : Nat) : fenwickInv n zeroT (fun _ => 0) := by
  intro i h1 hn
  show (0 : Int) = _
  rw [Finset.sum_const_zero]

/-- The mutating operations of the base tree (spec §4.1), as driven by the
sequences claim C3 quantifies over. -/
inductive FOp where
  | upd (idx : Nat) (delta : Int)
  | con (arr : Nat → Int)
  | fcon (arr : Nat → Int)
  | clr

/-- Argument validity: `update` requires `1 ≤ idx ≤ n`; the constructors and
`clear` have no index argument. -/
def FOp.valid (n : Nat) : FOp → Prop
  | .upd idx _ => 1 ≤ idx ∧ idx ≤ n
  | .con _ => True
  | .fcon _ => True
  | .clr => True

/-- Effect of one operation on the storage. -/
def applyOpT (n : Nat) (T : Nat → Int) : FOp → (Nat → Int)
  | .upd idx delta => update n T idx delta
  | .con arr => construct n T arr
  | .fcon arr => fast_construct n T arr
  | .clr => clear n T

/-- Effect of one operation on the implied fictive array. -/
def applyOpA (a : Nat → Int) : FOp → (Nat → Int)
  | .upd idx delta => aUpd a idx delta
  | .con arr => arr
  | .fcon arr => arr
  | .clr => fun _ => 0

def runOpsT (n : Nat) (T : Nat → Int) (ops : List FOp) : Nat → Int :=
  ops.foldl (applyOpT n) T

def runOpsA (a : Nat → Int) (ops : List FOp) : Nat → Int :=
  ops.foldl applyOpA a

/-- Every valid operation sequence maintains the invariant. -/
theorem runOps_fenwickInv {n : Nat} :
    ∀ (ops : List FOp) (T a : Nat → Int), fenwickInv n T a →
      (∀ op ∈ ops, FOp.valid n op) →
      fenwickInv n (runOpsT n T ops) (runOpsA a ops) := by
  intro ops
  induction ops with
  | nil => intro T a h hv; exact h
  | cons op ops ih =>
    intro T a h hv
    have hvop := hv op (List.mem_cons_self op ops)
    have hvrest : ∀ o ∈ ops, FOp.valid n o := fun o ho => hv o (List.mem_cons_of_mem op ho)
    show fenwickInv n (runOpsT n (applyOpT n T op) ops) (runOpsA (applyOpA a op) ops)
    apply ih
    · cases op with
      | upd idx delta => exact update_fenwickInv h hvop.1 delta
      | con arr => exact construct_fenwickInv n T arr
      | fcon arr => exact fast_construct_fenwickInv n T arr
      | clr => exact clear_fenwickInv n T
    · exact hvrest

end BIT

namespace BIT

/-- Characterization of the linear-scan loop of `Fenwick::search`. -/
theorem search_go_spec (n : Nat) (T : Nat → Int) (val : Int) :
    ∀ f i, n + 1 ≤ i + f → 1 ≤ i → i ≤ n + 1 →
      i ≤ search_go n T val f i ∧
      search_go n T val f i ≤ n + 1 ∧
      (search_go n T val f i ≤ n → val ≤ prefix_sum T (search_go n T val f i)) ∧
      (∀ k, i ≤ k → k < search_go n T val f i → prefix_sum T k < val) := by
  intro f
  induction f with
  | zero =>
    intro i hf h1 hn1
    have hi : i = n + 1 := by omega
    subst hi
    simp only [search_go]
    refine ⟨le_refl _, le_refl _, by omega, ?_⟩
    intro k hk1 hk2
    omega
  | succ f ih =>
    intro i hf h1 hn1
    simp only [search_go]
    rcases le_or_lt i n with hin | hin
    · rw [if_pos hin]
      by_cases hv : val ≤ prefix_sum T i
      · rw [if_pos hv]
        refine ⟨le_refl _, by omega, fun _ => hv, ?_⟩
        intro k hk1 hk2
        omega
      · rw [if_neg hv]
        obtain ⟨ha, hb, hc, hd⟩ := ih (i + 1) (by omega) (by omega) (by omega)
        refine ⟨by omega, hb, hc, ?_⟩
        intro k hk1 hk2
        rcases eq_or_lt_of_le hk1 with hk | hk
        · rw [← hk]
          omega
        · exact hd k (by omega) hk2
    · rw [if_neg (by omega)]
      have hi : i = n + 1 := by omega
      refine ⟨by omega, le_refl _, by omega, ?_⟩
      intro k hk1 hk2
      omega

/-- Characterization of `Fenwick::search`: it returns a value `r` with
`1 ≤ r ≤ n + 1`, every prefix sum strictly below `r` is `< val`, and if
`r ≤ n` then `prefix_sum r ≥ val`. -/
theorem search_spec (n : Nat) (T : Nat → Int) (val : Int) :
    1 ≤ search n T val ∧
    search n T val ≤ n + 1 ∧
    (search n T val ≤ n → val ≤ prefix_sum T (search n T val)) ∧
    (∀ k, 1 ≤ k → k < search n T val → prefix_sum T k < val) :=
  search_go_spec n T val (n + 1) 1 (by omega) (by omega) (by omega)

/-- Nonnegative fictive arrays give nondecreasing prefix sums. -/
theorem prefix_sum_mono {n : Nat} {T a : Nat → Int} (hinv : fenwickInv n T a)
    (hpos : ∀ i, 1 ≤ i → i ≤ n → 0 ≤ a i) :
    ∀ j k, j ≤ k → k ≤ n → prefix_sum T j ≤ prefix_sum T k := by
  intro j k hjk hkn
  rw [prefix_sum_of_inv hinv j (by omega), prefix_sum_of_inv hinv k hkn]
  have hsplit : (∑ x in Finset.Ioc 0 j, a x) + ∑ x in Finset.Ioc j k, a x =
      ∑ x in Finset.Ioc 0 k, a x :=
    Finset.sum_Ioc_consecutive _ (by omega) hjk
  have hnn : 0 ≤ ∑ x in Finset.Ioc j k, a x := by
    apply Finset.sum_nonneg
    intro x hx
    rw [Finset.mem_Ioc] at hx
    exact hpos x (by omega) (by omega)
  omega

/-- Under the invariant, the probed accumulator on the binary-lifting descent
is the sum of the fictive array strictly between the committed position and
the probe. -/
theorem probe_val {n : Nat} {T a : Nat → Int} (hinv : fenwickInv n T a)
    {i t : Nat} (hdvd : 2 ^ (t + 1) ∣ i) (hn : i + 2 ^ t ≤ n) :
    T (i + 2 ^ t) = prefix_sum T (i + 2 ^ t) - prefix_sum T i := by
  have hp : 1 ≤ 2 ^ t := Nat.one_le_two_pow
  have hlb : lowBit (i + 2 ^ t) = 2 ^ t := by
    rcases Nat.eq_zero_or_pos i with h0 | hpos
    · subst h0
      rw [Nat.zero_add, lowBit_pow]
    · rw [lowBit_add_of_dvd hdvd hp (by rw [pow_succ]; omega), lowBit_pow]
  rw [hinv (i + 2 ^ t) (by omega) hn, hlb,
    prefix_sum_of_inv hinv (i + 2 ^ t) hn, prefix_sum_of_inv hinv i (by omega)]
  have hsplit : (∑ x in Finset.Ioc 0 i, a x) + ∑ x in Finset.Ioc i (i + 2 ^ t), a x =
      ∑ x in Finset.Ioc 0 (i + 2 ^ t), a x :=
    Finset.sum_Ioc_consecutive _ (by omega) (by omega)
  have heq : i + 2 ^ t - 2 ^ t = i := by omega
  rw [heq]
  omega

/-- The binary-lifting loop of `fast_search` lands exactly on the value the
linear `search` returns, given nondecreasing prefix sums. -/
theorem fast_search_go_spec {n : Nat} {T a : Nat → Int} (hinv : fenwickInv n T a)
    (val0 : Int) (r : Nat)
    (hr1 : 1 ≤ r) (hrn : r ≤ n + 1)
    (hrlow : ∀ k, 1 ≤ k → k < r → prefix_sum T k < val0)
    (hrhit : r ≤ n → val0 ≤ prefix_sum T r)
    (hmono : ∀ j k, j ≤ k → k ≤ n → prefix_sum T j ≤ prefix_sum T k) :
    ∀ t f i, 2 ^ t < f → 2 ^ (t + 1) ∣ i → i ≤ n → i < r → r ≤ i + 2 ^ (t + 1) →
      fast_search_go n T f (2 ^ t) i (val0 - 1 - prefix_sum T i) = r := by
  have hcommit : ∀ i t, 2 ^ (t + 1) ∣ i → i + 2 ^ t ≤ n →
      T (i + 2 ^ t) ≤ val0 - 1 - prefix_sum T i → i + 2 ^ t < r := by
    intro i t hdvd hn hc
    rw [probe_val hinv hdvd hn] at hc
    by_contra hcon
    push_neg at hcon
    have h1 : r ≤ n := by omega
    have h2 := hrhit h1
    have h3 := hmono r (i + 2 ^ t) hcon hn
    omega
  have hreject : ∀ i t, 2 ^ (t + 1) ∣ i → i + 2 ^ t ≤ n →
      ¬(T (i + 2 ^ t) ≤ val0 - 1 - prefix_sum T i) → r ≤ i + 2 ^ t := by
    intro i t hdvd hn hc
    rw [probe_val hinv hdvd hn] at hc
    by_contra hcon
    push_neg at hcon
    have hp : 1 ≤ 2 ^ t := Nat.one_le_two_pow
    have := hrlow (i + 2 ^ t) (by omega) hcon
    omega
  intro t
  induction t with
  | zero =>
    intro f i hf hdvd hin hir hri
    rw [pow_zero] at hf ⊢
    rw [pow_succ, pow_zero] at hri hdvd
    cases f with
    | zero => omega
    | succ f =>
      simp only [fast_search_go]
      rw [if_neg (by omega : ¬(1 : Nat) = 0)]
      rcases le_or_lt (i + 1) n with hle | hgt
      · rw [if_neg (by omega)]
        by_cases hc : T (i + 1) ≤ val0 - 1 - prefix_sum T i
        · rw [if_pos hc]
          have hlt := hcommit i 0 (by rw [pow_succ, pow_zero]; exact hdvd)
            (by rw [pow_zero]; omega) (by rw [pow_zero]; exact hc)
          rw [pow_zero] at hlt
          cases f with
          | zero => omega
          | succ f =>
            show fast_search_go n T (f + 1) (1 / 2) (i + 1) _ = r
            simp only [fast_search_go]
            rw [if_pos trivial]
            omega
        · rw [if_neg hc]
          have hge := hreject i 0 (by rw [pow_succ, pow_zero]; exact hdvd)
            (by rw [pow_zero]; omega) (by rw [pow_zero]; exact hc)
          rw [pow_zero] at hge
          cases f with
          | zero => omega
          | succ f =>
            show fast_search_go n T (f + 1) (1 / 2) i _ = r
            simp only [fast_search_go]
            rw [if_pos trivial]
            omega
      · rw [if_pos (by omega)]
        cases f with
        | zero => omega
        | succ f =>
          show fast_search_go n T (f + 1) (1 / 2) i _ = r
          simp only [fast_search_go]
          rw [if_pos trivial]
          omega
  | succ t ih =>
    intro f i hf hdvd hin hir hri
    have hp : 1 ≤ 2 ^ t := Nat.one_le_two_pow
    have hp1 : 1 ≤ 2 ^ (t + 1) := Nat.one_le_two_pow
    have hhalf : 2 ^ (t + 1) / 2 = 2 ^ t := by rw [pow_succ]; omega
    have hdvd' : 2 ^ (t + 1) ∣ i := dvd_trans (pow_dvd_pow 2 (by omega)) hdvd
    cases f with
    | zero => omega
    | succ f =>
      simp only [fast_search_go]
      rw [if_neg (by omega : ¬2 ^ (t + 1) = 0), hhalf]
      rcases le_or_lt (i + 2 ^ (t + 1)) n with hle | hgt
      · rw [if_neg (by omega)]
        by_cases hc : T (i + 2 ^ (t + 1)) ≤ val0 - 1 - prefix_sum T i
        · rw [if_pos hc]
          have hlt := hcommit i (t + 1) hdvd hle hc
          have harg : val0 - 1 - prefix_sum T i - T (i + 2 ^ (t + 1)) =
              val0 - 1 - prefix_sum T (i + 2 ^ (t + 1)) := by
            rw [probe_val hinv hdvd hle]
            ring
          rw [harg]
          apply ih f (i + 2 ^ (t + 1)) (by omega)
          · exact Dvd.dvd.add hdvd' (dvd_refl _)
          · exact hle
          · exact hlt
          · rw [pow_succ] at hri ⊢
            omega
        · rw [if_neg hc]
          have hge := hreject i (t + 1) hdvd hle hc
          exact ih f i (by omega) hdvd' hin hir (by rw [pow_succ] at hge ⊢; omega)
      · rw [if_pos (by omega)]
        apply ih f i (by omega) hdvd' hin hir
        rw [pow_succ]
        omega

end BIT

namespace BIT

/-- Under the invariant, `access` returns the fictive array element. -/
theorem access_of_inv {n : Nat} {T a : Nat → Int} (hinv : fenwickInv n T a)
    (idx : Nat) (h1 : 1 ≤ idx) (h2 : idx ≤ n) : access T idx = a idx := by
  unfold access
  by_cases hi : idx = 1
  · subst hi
    rw [if_pos rfl, hinv 1 (le_refl 1) h2, lowBit_odd (by omega)]
    show ∑ j in Finset.Ioc (1 - 1) 1, a j = a 1
    rw [show (1 : Nat) - 1 = 0 from rfl,
      show (1 : Nat) = 0 + 1 from rfl,
      Finset.sum_Ioc_succ_top (le_refl 0) a]
    simp
  · rw [if_neg hi, prefix_sum_of_inv hinv idx h2, prefix_sum_of_inv hinv (idx - 1) (by omega)]
    have hstep : ∑ j in Finset.Ioc 0 (idx - 1 + 1), a j =
        (∑ j in Finset.Ioc 0 (idx - 1), a j) + a (idx - 1 + 1) :=
      Finset.sum_Ioc_succ_top (by omega) a
    have hidx : idx - 1 + 1 = idx := by omega
    rw [hidx] at hstep
    omega

/-- Claim C3: for every Fenwick instance of size `n` and every `1 ≤ i ≤ n`,
after any valid sequence of the mutating operations `update`, `construct`,
`fast_construct` and `clear` starting from the freshly allocated all-zero
storage, the accumulator `T[i]` equals the sum of the implied fictive array
over the half-open interval `(i − lowBit i, i]`. -/
theorem claim_C3 (n : Nat) (ops : List FOp) (hv : ∀ op ∈ ops, FOp.valid n op)
    (i : Nat) (h1 : 1 ≤ i) (h2 : i ≤ n) :
    runOpsT n zeroT ops i =
      ∑ j in Finset.Ioc (i - lowBit i) i, runOpsA (fun _ => 0) ops j :=
  runOps_fenwickInv ops zeroT (fun _ => 0) (zeroT_fenwickInv n) hv i h1 h2

/-- Concrete instance of claim C3 (`n = 2`, one point update, `i = 1`). -/
theorem claim_C3_witness :
    (∀ op ∈ [FOp.upd 1 2], FOp.valid 2 op) ∧
      runOpsT 2 zeroT [FOp.upd 1 2] 1 =
        ∑ j in Finset.Ioc (1 - lowBit 1) 1, runOpsA (fun _ => 0) [FOp.upd 1 2] j :=
  ⟨fun op hop => by
      simp only [List.mem_singleton] at hop
      subst hop
      exact ⟨le_refl 1, by omega⟩,
    claim_C3 2 [FOp.upd 1 2]
      (fun op hop => by
        simp only [List.mem_singleton] at hop
        subst hop
        exact ⟨le_refl 1, by omega⟩)
      1 (le_refl 1) (by omega)⟩

/-- Claim C5: on every tree state reachable from the all-zero storage by a
sequence of point updates, `access(idx)` and `fast_access(idx)` agree for
every valid index. -/
theorem claim_C5 (n : Nat) (us : List (Nat × Int)) (idx : Nat)
    (h1 : 1 ≤ idx) (h2 : idx ≤ n) :
    access (applyUpdates n us zeroT) idx = fast_access (applyUpdates n us zeroT) idx :=
  access_eq_fast_access _ idx h1

/-- Concrete instance of claim C5 (`n = 7`, one update, `idx = 6`). -/
theorem claim_C5_witness :
    (1 ≤ 6 ∧ 6 ≤ 7) ∧
      access (applyUpdates 7 [(2, 5)] zeroT) 6 = fast_access (applyUpdates 7 [(2, 5)] zeroT) 6 :=
  ⟨⟨by omega, by omega⟩, claim_C5 7 [(2, 5)] 6 (by omega) (by omega)⟩

/-- Claim C6: on every tree state reachable from the all-zero storage by a
sequence of point updates, `range_sum(l, r)` and `fast_range_sum(l, r)`
agree for all `1 ≤ l ≤ r ≤ n`. -/
theorem claim_C6 (n : Nat) (us : List (Nat × Int)) (l r : Nat)
    (h1 : 1 ≤ l) (h2 : l ≤ r) (h3 : r ≤ n) :
    range_sum (applyUpdates n us zeroT) l r = fast_range_sum (applyUpdates n us zeroT) l r :=
  range_sum_eq_fast_range_sum _ l r h1 (by omega)

/-- Concrete instance of claim C6 (`n = 7`, one update, `[l, r] = [2, 5]`). -/
theorem claim_C6_witness :
    (1 ≤ 2 ∧ 2 ≤ 5 ∧ 5 ≤ 7) ∧
      range_sum (applyUpdates 7 [(3, 4)] zeroT) 2 5 =
        fast_range_sum (applyUpdates 7 [(3, 4)] zeroT) 2 5 :=
  ⟨⟨by omega, by omega, by omega⟩, claim_C6 7 [(3, 4)] 2 5 (by omega) (by omega) (by omega)⟩

/-- Claim C7: `fast_construct` from array `a` (on a copy) followed by
`access(idx)` reproduces the original, pre-mutation `a[idx]`; the array
passed in is left holding its running cumulative sums. -/
theorem claim_C7 (n : Nat) (T a : Nat → Int) (idx : Nat)
    (h1 : 1 ≤ idx) (h2 : idx ≤ n) :
    access (fast_construct n T a) idx = a idx ∧
      mutated n a idx = ∑ j in Finset.Ioc 0 idx, a j := by
  constructor
  · exact access_of_inv (fast_construct_fenwickInv n T a) idx h1 h2
  · unfold mutated
    rw [if_pos (by omega), csum_eq_sum]

/-- Concrete instance of claim C7 (`n = 3`, `idx = 2`). -/
theorem claim_C7_witness :
    (1 ≤ 2 ∧ 2 ≤ 3) ∧
      (access (fast_construct 3 zeroT (fun i => (i : Int))) 2 = ((2 : Nat) : Int) ∧
        mutated 3 (fun i => (i : Int)) 2 = ∑ j in Finset.Ioc 0 2, ((j : Nat) : Int)) :=
  ⟨⟨by omega, by omega⟩, claim_C7 3 zeroT (fun i => (i : Int)) 2 (by omega) (by omega)⟩

/-- Claim C4: on a tree state whose fictive array is elementwise nonnegative
(equivalently: nondecreasing prefix sums), `fast_search` agrees with the
linear-scan `search` for every value, with `n = 2^m − 1` and
`nmask = 2^(m−1)` as set up by `allocate`. -/
theorem claim_C4 (m n : Nat) (T a : Nat → Int) (hm : 1 ≤ m) (hn : n = 2 ^ m - 1)
    (hinv : fenwickInv n T a) (hpos : ∀ i, 1 ≤ i → i ≤ n → 0 ≤ a i) (val : Int) :
    fast_search n (2 ^ (m - 1)) T val = search n T val := by
  obtain ⟨hr1, hrn, hrhit, hrlow⟩ := search_spec n T val
  have hmono := prefix_sum_mono hinv hpos
  have hm1 : m - 1 + 1 = m := by omega
  have hpow : 1 ≤ 2 ^ m := Nat.one_le_two_pow
  have h2m : 2 ^ (m - 1 + 1) = n + 1 := by rw [hm1]; omega
  have hspec := fast_search_go_spec hinv val (search n T val) hr1 hrn hrlow hrhit hmono
    (m - 1) (2 ^ (m - 1) + 1) 0 (by omega) (dvd_zero _) (Nat.zero_le n) hr1 (by omega)
  rw [prefix_sum_zero, sub_zero] at hspec
  exact hspec

/-- Concrete instance of claim C4 (`m = 2`, `n = 3`, the all-zero tree). -/
theorem claim_C4_witness :
    (1 ≤ 2 ∧ 3 = 2 ^ 2 - 1 ∧ fenwickInv 3 zeroT (fun _ => 0) ∧
        (∀ i, 1 ≤ i → i ≤ 3 → (0 : Int) ≤ 0)) ∧
      fast_search 3 (2 ^ (2 - 1)) zeroT 1 = search 3 zeroT 1 :=
  ⟨⟨by omega, by omega, zeroT_fenwickInv 3, fun _ _ _ => le_refl 0⟩,
    claim_C4 2 3 zeroT (fun _ => 0) (by omega) (by omega) (zeroT_fenwickInv 3)
      (fun _ _ _ => le_refl 0) 1⟩

end BIT

namespace BIT

/-- A tree driven only through `rupq_update` calls `(l, r, delta)`. -/
def applyRupq (n : Nat) (us : List (Nat × Nat × Int)) (T : Nat → Int) : Nat → Int :=
  us.foldl (fun acc p => rupq_update n acc p.1 p.2.1 p.2.2) T

/-- Brute-force meaning of a range-update sequence at one index: the sum of
`delta` over exactly those updates whose range `[l, r]` contains `idx`. -/
def rupqSpec (idx : Nat) (us : List (Nat × Nat × Int)) : Int :=
  (us.map (fun p => if p.1 ≤ idx ∧ idx ≤ p.2.1 then p.2.2 else 0)).sum

/-- `rupq_update` maintains the invariant; the fictive array receives the
difference-array encoding of the range add. -/
theorem rupq_update_fenwickInv {n : Nat} {T a : Nat → Int} (h : fenwickInv n T a)
    {l r : Nat} (hl : 1 ≤ l) (delta : Int) :
    fenwickInv n (rupq_update n T l r delta)
      (if r < n then aUpd (aUpd a l delta) (r + 1) (-delta) else aUpd a l delta) := by
  unfold rupq_update
  by_cases hr : r < n
  · rw [if_pos hr, if_pos hr]
    exact update_fenwickInv (update_fenwickInv h hl delta) (by omega) (-delta)
  · rw [if_neg hr, if_neg hr]
    exact update_fenwickInv h hl delta

/-- Running a valid `rupq_update` sequence adds, at every prefix position,
exactly the brute-force superposition of the contained ranges. -/
theorem rupq_run {n : Nat} :
    ∀ (us : List (Nat × Nat × Int)) (T a : Nat → Int), fenwickInv n T a →
      (∀ p ∈ us, 1 ≤ p.1 ∧ p.1 ≤ p.2.1 ∧ p.2.1 ≤ n) →
      ∀ idx, 1 ≤ idx → idx ≤ n →
        rupq_access (applyRupq n us T) idx =
          (∑ j in Finset.Ioc 0 idx, a j) + rupqSpec idx us := by
  intro us
  induction us with
  | nil =>
    intro T a hinv hv idx h1 h2
    show prefix_sum T idx = _
    rw [prefix_sum_of_inv hinv idx h2]
    simp [rupqSpec]
  | cons p us ih =>
    intro T a hinv hv idx h1 h2
    obtain ⟨hp1, hp2, hp3⟩ := hv p (List.mem_cons_self p us)
    have hvrest : ∀ q ∈ us, 1 ≤ q.1 ∧ q.1 ≤ q.2.1 ∧ q.2.1 ≤ n :=
      fun q hq => hv q (List.mem_cons_of_mem p hq)
    show rupq_access (applyRupq n us (rupq_update n T p.1 p.2.1 p.2.2)) idx = _
    rw [ih (rupq_update n T p.1 p.2.1 p.2.2) _
      (rupq_update_fenwickInv hinv hp1 p.2.2) hvrest idx h1 h2]
    have hspec : rupqSpec idx (p :: us) =
        (if p.1 ≤ idx ∧ idx ≤ p.2.1 then p.2.2 else 0) + rupqSpec idx us := by
      simp [rupqSpec]
    rw [hspec]
    have hsum : (∑ j in Finset.Ioc 0 idx,
        (if p.2.1 < n then aUpd (aUpd a p.1 p.2.2) (p.2.1 + 1) (-p.2.2)
         else aUpd a p.1 p.2.2) j) =
        (∑ j in Finset.Ioc 0 idx, a j) + (if p.1 ≤ idx ∧ idx ≤ p.2.1 then p.2.2 else 0) := by
      by_cases hr : p.2.1 < n
      · rw [if_pos hr]
        rw [sum_aUpd (aUpd a p.1 p.2.2) (p.2.1 + 1) (-p.2.2), sum_aUpd a p.1 p.2.2]
        by_cases hc1 : p.1 ≤ idx
        · rw [if_pos (Finset.mem_Ioc.mpr ⟨by omega, hc1⟩)]
          by_cases hc2 : p.2.1 + 1 ≤ idx
          · rw [if_pos (Finset.mem_Ioc.mpr ⟨by omega, hc2⟩), if_neg (by omega)]
            ring
          · rw [if_neg (fun hm => hc2 (Finset.mem_Ioc.mp hm).2), if_pos ⟨hc1, by omega⟩]
            ring
        · rw [if_neg (fun hm => hc1 (Finset.mem_Ioc.mp hm).2)]
          rw [if_neg (fun hm => hc1 (by have h3 := (Finset.mem_Ioc.mp hm).2; omega))]
          rw [if_neg (fun hcc => hc1 hcc.1)]
          ring
      · rw [if_neg hr]
        rw [sum_aUpd a p.1 p.2.2]
        by_cases hc1 : p.1 ≤ idx
        · rw [if_pos (Finset.mem_Ioc.mpr ⟨by omega, hc1⟩), if_pos ⟨hc1, by omega⟩]
        · rw [if_neg (fun hm => hc1 (Finset.mem_Ioc.mp hm).2), if_neg (fun hcc => hc1 hcc.1)]
    rw [hsum]
    ring

/-- Claim C10: on a freshly allocated (all-zero) tree driven only through
the range-update/point-query operations, after any valid sequence of
`rupq_update(l, r, delta)` calls, `rupq_access(idx)` returns the sum of
`delta` over exactly those updates whose range contains `idx`. -/
theorem claim_C10 (n : Nat) (us : List (Nat × Nat × Int))
    (hv : ∀ p ∈ us, 1 ≤ p.1 ∧ p.1 ≤ p.2.1 ∧ p.2.1 ≤ n)
    (idx : Nat) (h1 : 1 ≤ idx) (h2 : idx ≤ n) :
    rupq_access (applyRupq n us zeroT) idx = rupqSpec idx us := by
  have h := rupq_run us zeroT (fun _ => 0) (zeroT_fenwickInv n) hv idx h1 h2
  rw [h, Finset.sum_const_zero, zero_add]

/-- Concrete instance of claim C10 (`n = 3`, one range update `[1, 2] += 4`). -/
theorem claim_C10_witness :
    (∀ p ∈ [((1 : Nat), (2 : Nat), (4 : Int))], 1 ≤ p.1 ∧ p.1 ≤ p.2.1 ∧ p.2.1 ≤ 3) ∧
      rupq_access (applyRupq 3 [(1, 2, 4)] zeroT) 2 = rupqSpec 2 [(1, 2, 4)] :=
  ⟨fun p hp => by
      simp only [List.mem_singleton] at hp
      subst hp
      exact ⟨by decide, by decide, by decide⟩,
    claim_C10 3 [(1, 2, 4)]
      (fun p hp => by
        simp only [List.mem_singleton] at hp
        subst hp
        exact ⟨by decide, by decide, by decide⟩)
      2 (by omega) (by omega)⟩

end BIT

/-!
### The range-update/range-query pair (`struct FenwickRURQ`, `src/fenwick_rurq.h`)
-/

namespace RURQ

/-- The two trees of `FenwickRURQ` (both `Fenwick::allocate`d to zero). -/
structure State where
  T1 : Nat → Int
  T2 : Nat → Int

/-- `FenwickRURQ(m)`: both trees freshly allocated, all accumulators zero. -/
def init : State := ⟨BIT.zeroT, BIT.zeroT⟩

/-- `FenwickRURQ::update`:
`T1->update(l, delta); T2->update(l, delta * (l - 1));
if (r < n) { T1->update(r + 1, -delta); T2->update(r + 1, delta * r); }`. -/
def update (n : Nat) (s : State) (l r : Nat) (delta : Int) : State where
  T1 :=
    if r < n then BIT.update n (BIT.update n s.T1 l delta) (r + 1) (-delta)
    else BIT.update n s.T1 l delta
  T2 :=
    if r < n then
      BIT.update n (BIT.update n s.T2 l (delta * ((l : Int) - 1))) (r + 1) (delta * (r : Int))
    else BIT.update n s.T2 l (delta * ((l : Int) - 1))

/-- `FenwickRURQ::prefix_sum`:
`return T1->prefix_sum(idx) * idx - T2->prefix_sum(idx);`. -/
def prefix_sum (s : State) (idx : Nat) : Int :=
  BIT.prefix_sum s.T1 idx * (idx : Int) - BIT.prefix_sum s.T2 idx

/-- `FenwickRURQ::range_sum`:
`sum = prefix_sum(r); if (l > 1) sum -= prefix_sum(l - 1);`. -/
def range_sum (s : State) (l r : Nat) : Int :=
  prefix_sum s r - (if 1 < l then prefix_sum s (l - 1) else 0)

/-- A structure driven by a sequence of `update(l, r, delta)` calls. -/
def applyUpdatesR (n : Nat) (us : List (Nat × Nat × Int)) (s : State) : State :=
  us.foldl (fun acc p => update n acc p.1 p.2.1 p.2.2) s

/-- The brute-force logical array: each update adds `delta` on `[l, r]`. -/
def brute (us : List (Nat × Nat × Int)) (x : Nat) : Int :=
  (us.map (fun p => if p.1 ≤ x ∧ x ≤ p.2.1 then p.2.2 else 0)).sum

/-- Brute-force range sum `brute l + … + brute r` over the logical array. -/
def bruteRange (us : List (Nat × Nat × Int)) (l r : Nat) : Int :=
  ((List.range' l (r + 1 - l)).map (brute us)).sum

/-- Claim C1 (failing input): on the `m = 2` (`n = 3`) structure, after the
single valid call `update(1, 1, 1)`, the code's `rangeSum(1, 2)` returns
`−1`, while the brute-force array simulation gives `1` — `T2`'s boundary
update `T2->update(r + 1, delta * r)` carries the wrong sign (the
difference-array identity needs `-delta * r`), so every prefix past `r` is
off by `2·delta·r`.  This contradicts the header's own documentation of
`prefix_sum`/`range_sum` and spec §8. -/
theorem claim_C1_failing :
    range_sum (applyUpdatesR 3 [(1, 1, 1)] init) 1 2 = -1 ∧
      bruteRange [(1, 1, 1)] 1 2 = 1 := by
  constructor
  · decide
  · decide

end RURQ

/-!
### The two-dimensional tree (`struct Fenwick2D`, `src/fenwick_2d.h`)

The flattened C storage `T[(n+1)*y + x]` is rendered as a curried function
`Nat → Nat → Int` applied as `T x y`.  The inner `yy` loops of `update` and
`prefix_sum` are the 1-D loops of `Fenwick::update` / `Fenwick::prefix_sum`
run on the column slice `fun yy => T x yy`, and are modeled by those very
functions.
-/

namespace BIT2D

open BIT

/-- `Fenwick2D::allocate` zero-fills the storage. -/
def zeroT2 : Nat → Nat → Int := fun _ _ => 0

/-- The outer `x` loop of `Fenwick2D::prefix_sum`; the inner `yy` loop is
`BIT.prefix_sum` on the column slice. -/
def prefix_sum_go (T : Nat → Nat → Int) (y : Nat) : Nat → Nat → Int
  | 0, _ => 0
  | f + 1, x =>
    if 1 ≤ x then
      BIT.prefix_sum (fun yy => T x yy) y + prefix_sum_go T y f (x - lowBit x)
    else 0

/-- `Fenwick2D::prefix_sum` (fuel `x + 1` never runs out). -/
def prefix_sum (T : Nat → Nat → Int) (x y : Nat) : Int := prefix_sum_go T y (x + 1) x

theorem prefix_sum2_go_congr (T : Nat → Nat → Int) (y : Nat) :
    ∀ f g x, x < f → x < g → prefix_sum_go T y f x = prefix_sum_go T y g x := by
  intro f
  induction f with
  | zero => intro g x hf; omega
  | succ f ih =>
    intro g x hf hg
    cases g with
    | zero => omega
    | succ g =>
      simp only [prefix_sum_go]
      rcases le_or_lt 1 x with h1 | h1
      · have hlb := lowBit_pos h1
        rw [if_pos h1, if_pos h1, ih g (x - lowBit x) (by omega) (by omega)]
      · rw [if_neg (by omega), if_neg (by omega)]

/-- The C loop equation for the outer loop of `Fenwick2D::prefix_sum`. -/
theorem prefix_sum2_eq (T : Nat → Nat → Int) (x y : Nat) :
    prefix_sum T x y =
      if 1 ≤ x then
        BIT.prefix_sum (fun yy => T x yy) y + prefix_sum T (x - lowBit x) y
      else 0 := by
  show prefix_sum_go T y (x + 1) x = _
  simp only [prefix_sum_go]
  rcases le_or_lt 1 x with h1 | h1
  · have hlb := lowBit_pos h1
    rw [if_pos h1, if_pos h1,
      prefix_sum2_go_congr T y x (x - lowBit x + 1) (x - lowBit x) (by omega) (by omega)]
    rfl
  · rw [if_neg (by omega), if_neg (by omega)]

/-- The outer `x` loop of `Fenwick2D::update`; the inner `yy` loop is
`BIT.update` on the column slice. -/
def update_go (n : Nat) (delta : Int) (y : Nat) : Nat → (Nat → Nat → Int) → Nat → (Nat → Nat → Int)
  | 0, T, _ => T
  | f + 1, T, x =>
    if x ≤ n then
      if lowBit x = 0 then T
      else update_go n delta y f
        (fun x' => if x' = x then BIT.update n (T x) y delta else T x') (x + lowBit x)
    else T

/-- `Fenwick2D::update` (fuel `n + 1` never runs out). -/
def update (n : Nat) (T : Nat → Nat → Int) (x y : Nat) (delta : Int) : Nat → Nat → Int :=
  update_go n delta y (n + 1) T x

theorem update2_go_congr (n : Nat) (delta : Int) (y : Nat) :
    ∀ f g T x, n < x + f → n < x + g →
      update_go n delta y f T x = update_go n delta y g T x := by
  intro f
  induction f with
  | zero =>
    intro g T x hf hg
    cases g with
    | zero => rfl
    | succ g =>
      simp only [update_go]
      rw [if_neg (by omega)]
  | succ f ih =>
    intro g T x hf hg
    cases g with
    | zero =>
      simp only [update_go]
      rw [if_neg (by omega)]
    | succ g =>
      simp only [update_go]
      rcases le_or_lt x n with h1 | h1
      · rw [if_pos h1, if_pos h1]
        rcases Nat.eq_zero_or_pos (lowBit x) with h0 | hp
        · rw [if_pos h0, if_pos h0]
        · rw [if_neg (by omega), if_neg (by omega)]
          exact ih g _ (x + lowBit x) (by omega) (by omega)
      · rw [if_neg (by omega), if_neg (by omega)]

/-- The C loop equation for the outer loop of `Fenwick2D::update`. -/
theorem update2_eq_step (n : Nat) (T : Nat → Nat → Int) (x y : Nat) (delta : Int) :
    update n T x y delta =
      if x ≤ n then
        (if lowBit x = 0 then T
         else update n (fun x' => if x' = x then BIT.update n (T x) y delta else T x')
           (x + lowBit x) y delta)
      else T := by
  show update_go n delta y (n + 1) T x = _
  simp only [update_go]
  rcases le_or_lt x n with h1 | h1
  · rw [if_pos h1, if_pos h1]
    rcases Nat.eq_zero_or_pos (lowBit x) with h0 | hp
    · rw [if_pos h0, if_pos h0]
    · rw [if_neg (by omega), if_neg (by omega)]
      exact update2_go_congr n delta y n (n + 1) _ (x + lowBit x) (by omega) (by omega)
  · rw [if_neg (by omega), if_neg (by omega)]

/-- Pointwise effect of `Fenwick2D::update`: `delta` lands exactly on the
product of the two 1-D ancestor sets. -/
theorem update_apply2 (n : Nat) (delta : Int) (y : Nat) (hy : 1 ≤ y) :
    ∀ k x T, n + 1 - x ≤ k → 1 ≤ x → ∀ x' y',
      update n T x y delta x' y' =
        T x' y' +
          (if (x ≤ x' ∧ x' ≤ n ∧ x' - lowBit x' < x) ∧
              (y ≤ y' ∧ y' ≤ n ∧ y' - lowBit y' < y) then delta else 0) := by
  intro k
  induction k with
  | zero =>
    intro x T hk hx x' y'
    rw [update2_eq_step, if_neg (by omega)]
    rw [if_neg (by omega)]
    omega
  | succ k ih =>
    intro x T hk hx x' y'
    rw [update2_eq_step]
    rcases le_or_lt x n with h1 | h1
    · have hlb := lowBit_pos hx
      rw [if_pos h1, if_neg (by omega)]
      rw [ih (x + lowBit x) _ (by omega) (by omega) x' y']
      by_cases hxx : x' = x
      · subst hxx
        rw [if_pos rfl, BIT.update_apply' n (T x') y delta hy y']
        have hA : ¬((x' + lowBit x' ≤ x' ∧ x' ≤ n ∧ x' - lowBit x' < x' + lowBit x') ∧
            (y ≤ y' ∧ y' ≤ n ∧ y' - lowBit y' < y)) := by
          intro hcc
          have h2 := hcc.1.1
          omega
        rw [if_neg hA]
        have hB : ((x' ≤ x' ∧ x' ≤ n ∧ x' - lowBit x' < x') ∧
            (y ≤ y' ∧ y' ≤ n ∧ y' - lowBit y' < y)) ↔
            (y ≤ y' ∧ y' ≤ n ∧ y' - lowBit y' < y) := by
          constructor
          · exact fun hcc => hcc.2
          · exact fun hyy => ⟨⟨le_refl _, h1, by omega⟩, hyy⟩
        rw [if_congr hB rfl rfl]
        ring
      · rw [if_neg hxx]
        by_cases hcond : (x ≤ x' ∧ x' ≤ n ∧ x' - lowBit x' < x) ∧
            (y ≤ y' ∧ y' ≤ n ∧ y' - lowBit y' < y)
        · obtain ⟨⟨hc1, hc2, hc3⟩, hcy⟩ := hcond
          have hlt : x < x' := by omega
          have hstep := (ancestor_step hx hlt).mp hc3
          rw [if_pos ⟨⟨hstep.1, hc2, hstep.2⟩, hcy⟩, if_pos ⟨⟨hc1, hc2, hc3⟩, hcy⟩]
        · rw [if_neg hcond]
          by_cases hcond2 : (x + lowBit x ≤ x' ∧ x' ≤ n ∧ x' - lowBit x' < x + lowBit x) ∧
              (y ≤ y' ∧ y' ≤ n ∧ y' - lowBit y' < y)
          · exfalso
            obtain ⟨⟨hd1, hd2, hd3⟩, hdy⟩ := hcond2
            have hlt : x < x' := by omega
            exact hcond ⟨⟨by omega, hd2, (ancestor_step hx hlt).mpr ⟨hd1, hd3⟩⟩, hdy⟩
          · rw [if_neg hcond2]
    · rw [if_neg (by omega), if_neg (by omega)]
      omega

end BIT2D

namespace BIT2D

open BIT

/-- The 2-D invariant (spec §3): `T[x][y]` sums the simulated grid over the
rectangle `(x − lowBit x, x] × (y − lowBit y, y]`. -/
def fenwickInv2 (n : Nat) (T : Nat → Nat → Int) (g : Nat → Nat → Int) : Prop :=
  ∀ x y, 1 ≤ x → x ≤ n → 1 ≤ y → y ≤ n →
    T x y = ∑ i in Finset.Ioc (x - lowBit x) x, ∑ j in Finset.Ioc (y - lowBit y) y, g i j

/-- The simulated grid after a point update `g[x][y] += delta`. -/
def gUpd (g : Nat → Nat → Int) (x y : Nat) (delta : Int) : Nat → Nat → Int :=
  fun i j => if i = x ∧ j = y then g i j + delta else g i j

theorem sum2_gUpd (g : Nat → Nat → Int) (x y : Nat) (delta : Int)
    (sX sY : Finset Nat) :
    (∑ i in sX, ∑ j in sY, gUpd g x y delta i j) =
      (∑ i in sX, ∑ j in sY, g i j) + if x ∈ sX ∧ y ∈ sY then delta else 0 := by
  have hinner : ∀ i, (∑ j in sY, gUpd g x y delta i j) =
      (∑ j in sY, g i j) + if i = x ∧ y ∈ sY then delta else 0 := by
    intro i
    by_cases hix : i = x
    · subst hix
      have hrow : ∀ j, gUpd g i y delta i j = aUpd (g i) y delta j := by
        intro j
        unfold gUpd aUpd
        by_cases hj : j = y
        · rw [if_pos ⟨rfl, hj⟩, if_pos hj]
        · rw [if_neg (fun hc => hj hc.2), if_neg hj]
      rw [Finset.sum_congr rfl (fun j _ => hrow j), sum_aUpd]
      by_cases hm : y ∈ sY
      · rw [if_pos hm, if_pos ⟨rfl, hm⟩]
      · rw [if_neg hm, if_neg (fun hc => hm hc.2)]
    · have hrow : ∀ j, gUpd g x y delta i j = g i j := by
        intro j
        unfold gUpd
        rw [if_neg (fun hc => hix hc.1)]
      rw [Finset.sum_congr rfl (fun j _ => hrow j), if_neg (fun hc => hix hc.1), add_zero]
  rw [Finset.sum_congr rfl (fun i _ => hinner i), Finset.sum_add_distrib]
  congr 1
  have : ∀ i, (if i = x ∧ y ∈ sY then delta else 0) =
      (if i = x then (if y ∈ sY then delta else 0) else 0) := by
    intro i
    by_cases hix : i = x
    · subst hix
      by_cases hm : y ∈ sY
      · rw [if_pos ⟨rfl, hm⟩, if_pos rfl, if_pos hm]
      · rw [if_neg (fun hc => hm hc.2), if_pos rfl, if_neg hm]
    · rw [if_neg (fun hc => hix hc.1), if_neg hix]
  rw [Finset.sum_congr rfl (fun i _ => this i), Finset.sum_ite_eq' sX x]
  by_cases hx : x ∈ sX
  · rw [if_pos hx]
    by_cases hm : y ∈ sY
    · rw [if_pos hm, if_pos ⟨hx, hm⟩]
    · rw [if_neg hm, if_neg (fun hc => hm hc.2)]
  · rw [if_neg hx, if_neg (fun hc => hx hc.1)]

/-- `Fenwick2D::update` maintains the 2-D invariant. -/
theorem update_fenwickInv2 {n : Nat} {T g : Nat → Nat → Int}
    (h : fenwickInv2 n T g) {x y : Nat} (hx : 1 ≤ x) (hy : 1 ≤ y) (delta : Int) :
    fenwickInv2 n (update n T x y delta) (gUpd g x y delta) := by
  intro x' y' hx1 hx2 hy1 hy2
  rw [update_apply2 n delta y hy (n + 1) x T (by omega) hx x' y',
    h x' y' hx1 hx2 hy1 hy2, sum2_gUpd]
  congr 1
  by_cases hc : (x' - lowBit x' < x ∧ x ≤ x') ∧ (y' - lowBit y' < y ∧ y ≤ y')
  · rw [if_pos ⟨⟨hc.1.2, hx2, hc.1.1⟩, hc.2.2, hy2, hc.2.1⟩,
      if_pos ⟨Finset.mem_Ioc.mpr hc.1, Finset.mem_Ioc.mpr hc.2⟩]
  · rw [if_neg (fun hcc => hc ⟨⟨hcc.1.2.2, hcc.1.1⟩, ⟨hcc.2.2.2, hcc.2.1⟩⟩),
      if_neg (fun hm => hc ⟨Finset.mem_Ioc.mp hm.1, Finset.mem_Ioc.mp hm.2⟩)]

/-- Under the 2-D invariant, `prefix_sum` returns the full double prefix of
the simulated grid. -/
theorem prefix_sum2_of_inv {n : Nat} {T g : Nat → Nat → Int}
    (hinv : fenwickInv2 n T g) :
    ∀ x y, x ≤ n → y ≤ n →
      prefix_sum T x y = ∑ i in Finset.Ioc 0 x, ∑ j in Finset.Ioc 0 y, g i j := by
  intro x
  induction x using Nat.strong_induction_on with
  | _ x ih =>
    intro y hx hy
    rw [prefix_sum2_eq]
    rcases le_or_lt 1 x with h1 | h1
    · have hlb := lowBit_pos h1
      have hlble := lowBit_le h1
      rw [if_pos h1, ih (x - lowBit x) (by omega) y (by omega) hy]
      have hrowinv : BIT.fenwickInv n (fun yy => T x yy)
          (fun j => ∑ i in Finset.Ioc (x - lowBit x) x, g i j) := by
        intro yy hyy1 hyy2
        show T x yy = _
        rw [hinv x yy h1 hx hyy1 hyy2]
        exact Finset.sum_comm
      rw [BIT.prefix_sum_of_inv hrowinv y hy]
      rw [Finset.sum_comm]
      rw [add_comm]
      exact Finset.sum_Ioc_consecutive _ (by omega) (by omega)
    · rw [if_neg (by omega)]
      have hx0 : x = 0 := by omega
      subst hx0
      simp

/-- `Fenwick2D::range_sum`: the four-term 2-D inclusion–exclusion with the
boundary guards of the C code. -/
def range_sum (T : Nat → Nat → Int) (x1 y1 x2 y2 : Nat) : Int :=
  prefix_sum T x2 y2
    - (if 1 < x1 then prefix_sum T (x1 - 1) y2 else 0)
    - (if 1 < y1 then prefix_sum T x2 (y1 - 1) else 0)
    + (if 1 < x1 ∧ 1 < y1 then prefix_sum T (x1 - 1) (y1 - 1) else 0)

theorem prefix_sum_x_zero (T : Nat → Nat → Int) (y : Nat) : prefix_sum T 0 y = 0 := by
  rw [prefix_sum2_eq]
  simp

/-- Under the invariant, `range_sum` is the brute-force double sum over the
query rectangle. -/
theorem range_sum2_of_inv {n : Nat} {T g : Nat → Nat → Int}
    (hinv : fenwickInv2 n T g) (x1 y1 x2 y2 : Nat)
    (hx1 : 1 ≤ x1) (hx2 : x1 ≤ x2) (hx3 : x2 ≤ n)
    (hy1 : 1 ≤ y1) (hy2 : y1 ≤ y2) (hy3 : y2 ≤ n) :
    range_sum T x1 y1 x2 y2 =
      ∑ i in Finset.Ioc (x1 - 1) x2, ∑ j in Finset.Ioc (y1 - 1) y2, g i j := by
  unfold range_sum
  rw [prefix_sum2_of_inv hinv x2 y2 hx3 hy3,
    prefix_sum2_of_inv hinv (x1 - 1) y2 (by omega) hy3,
    prefix_sum2_of_inv hinv x2 (y1 - 1) hx3 (by omega),
    prefix_sum2_of_inv hinv (x1 - 1) (y1 - 1) (by omega) (by omega)]
  have hiteA : (if 1 < x1 then ∑ i in Finset.Ioc 0 (x1 - 1), ∑ j in Finset.Ioc 0 y2, g i j
      else 0) = ∑ i in Finset.Ioc 0 (x1 - 1), ∑ j in Finset.Ioc 0 y2, g i j := by
    by_cases ha : 1 < x1
    · rw [if_pos ha]
    · rw [if_neg ha]
      have h0 : x1 - 1 = 0 := by omega
      rw [h0]
      simp
  have hiteB : (if 1 < y1 then ∑ i in Finset.Ioc 0 x2, ∑ j in Finset.Ioc 0 (y1 - 1), g i j
      else 0) = ∑ i in Finset.Ioc 0 x2, ∑ j in Finset.Ioc 0 (y1 - 1), g i j := by
    by_cases hb : 1 < y1
    · rw [if_pos hb]
    · rw [if_neg hb]
      have h0 : y1 - 1 = 0 := by omega
      rw [h0]
      simp
  have hiteC : (if 1 < x1 ∧ 1 < y1 then
      ∑ i in Finset.Ioc 0 (x1 - 1), ∑ j in Finset.Ioc 0 (y1 - 1), g i j else 0) =
      ∑ i in Finset.Ioc 0 (x1 - 1), ∑ j in Finset.Ioc 0 (y1 - 1), g i j := by
    by_cases hc : 1 < x1 ∧ 1 < y1
    · rw [if_pos hc]
    · rw [if_neg hc]
      rcases le_or_lt x1 1 with ha | ha
      · have h0 : x1 - 1 = 0 := by omega
        rw [h0]
        simp
      · have hb : y1 ≤ 1 := by
          by_contra hbc
          exact hc ⟨ha, by omega⟩
        have h0 : y1 - 1 = 0 := by omega
        rw [h0]
        simp
  rw [hiteA, hiteB, hiteC]
  have hcol : ∀ i, (∑ j in Finset.Ioc 0 (y1 - 1), g i j) +
      ∑ j in Finset.Ioc (y1 - 1) y2, g i j = ∑ j in Finset.Ioc 0 y2, g i j :=
    fun i => Finset.sum_Ioc_consecutive _ (by omega) (by omega)
  have hrowX : ∀ (F : Nat → Int), (∑ i in Finset.Ioc 0 (x1 - 1), F i) +
      ∑ i in Finset.Ioc (x1 - 1) x2, F i = ∑ i in Finset.Ioc 0 x2, F i :=
    fun F => Finset.sum_Ioc_consecutive _ (by omega) (by omega)
  have e1 := hrowX (fun i => ∑ j in Finset.Ioc 0 y2, g i j)
  have e2 := hrowX (fun i => ∑ j in Finset.Ioc 0 (y1 - 1), g i j)
  have e3 : ∀ s : Finset Nat, (∑ i in s, ∑ j in Finset.Ioc 0 (y1 - 1), g i j) +
      ∑ i in s, ∑ j in Finset.Ioc (y1 - 1) y2, g i j =
        ∑ i in s, ∑ j in Finset.Ioc 0 y2, g i j := by
    intro s
    rw [← Finset.sum_add_distrib]
    exact Finset.sum_congr rfl (fun i _ => hcol i)
  have e4 := e3 (Finset.Ioc 0 x2)
  have e5 := e3 (Finset.Ioc (x1 - 1) x2)
  have e6 := e3 (Finset.Ioc 0 (x1 - 1))
  omega

end BIT2D

namespace BIT2D

open BIT

/-- A 2-D tree driven from the all-zero storage by point updates
`(x, y, delta)`. -/
def applyUpdates2 (n : Nat) (us : List (Nat × Nat × Int)) (T : Nat → Nat → Int) :
    Nat → Nat → Int :=
  us.foldl (fun acc p => update n acc p.1 p.2.1 p.2.2) T

/-- The brute-force simulated grid after the same update sequence. -/
def grid (us : List (Nat × Nat × Int)) : Nat → Nat → Int :=
  us.foldl (fun g p => gUpd g p.1 p.2.1 p.2.2) (fun _ _ => 0)

theorem zeroT2_fenwickInv2 (n : Nat) : fenwickInv2 n zeroT2 (fun _ _ => 0) := by
  intro x y hx1 hx2 hy1 hy2
  show (0 : Int) = _
  simp

theorem run2_fenwickInv {n : Nat} :
    ∀ (us : List (Nat × Nat × Int)) (T g : Nat → Nat → Int), fenwickInv2 n T g →
      (∀ p ∈ us, 1 ≤ p.1 ∧ p.1 ≤ n ∧ 1 ≤ p.2.1 ∧ p.2.1 ≤ n) →
      fenwickInv2 n (applyUpdates2 n us T) (us.foldl (fun g p => gUpd g p.1 p.2.1 p.2.2) g) := by
  intro us
  induction us with
  | nil => intro T g h hv; exact h
  | cons p us ih =>
    intro T g h hv
    obtain ⟨h1, h2, h3, h4⟩ := hv p (List.mem_cons_self p us)
    exact ih _ _ (update_fenwickInv2 h h1 h3 p.2.2)
      (fun q hq => hv q (List.mem_cons_of_mem p hq))

theorem Ioc_pred_eq_Icc {a b : Nat} (ha : 1 ≤ a) :
    Finset.Ioc (a - 1) b = Finset.Icc a b := by
  ext z
  simp only [Finset.mem_Ioc, Finset.mem_Icc]
  omega

/-- Claim C8: for a `Grid2D` structure of size `n × n` created empty, after
any valid sequence of point updates, every in-range `range_sum(x1, y1, x2, y2)`
equals the brute-force double sum of the simulated grid over the rectangle
`[x1, x2] × [y1, y2]`. -/
theorem claim_C8 (n : Nat) (us : List (Nat × Nat × Int))
    (hv : ∀ p ∈ us, 1 ≤ p.1 ∧ p.1 ≤ n ∧ 1 ≤ p.2.1 ∧ p.2.1 ≤ n)
    (x1 y1 x2 y2 : Nat)
    (hx1 : 1 ≤ x1) (hx2 : x1 ≤ x2) (hx3 : x2 ≤ n)
    (hy1 : 1 ≤ y1) (hy2 : y1 ≤ y2) (hy3 : y2 ≤ n) :
    range_sum (applyUpdates2 n us zeroT2) x1 y1 x2 y2 =
      ∑ i in Finset.Icc x1 x2, ∑ j in Finset.Icc y1 y2, grid us i j := by
  have hinv := run2_fenwickInv us zeroT2 (fun _ _ => 0) (zeroT2_fenwickInv2 n) hv
  rw [range_sum2_of_inv hinv x1 y1 x2 y2 hx1 hx2 hx3 hy1 hy2 hy3,
    Ioc_pred_eq_Icc hx1]
  exact Finset.sum_congr rfl (fun i _ => by rw [Ioc_pred_eq_Icc hy1]; rfl)

/-- Concrete instance of claim C8 (`n = 3`, one update, rectangle
`[1, 2] × [1, 2]`). -/
theorem claim_C8_witness :
    (∀ p ∈ [((1 : Nat), (2 : Nat), (5 : Int))], 1 ≤ p.1 ∧ p.1 ≤ 3 ∧ 1 ≤ p.2.1 ∧ p.2.1 ≤ 3) ∧
      range_sum (applyUpdates2 3 [(1, 2, 5)] zeroT2) 1 1 2 2 =
        ∑ i in Finset.Icc 1 2, ∑ j in Finset.Icc 1 2, grid [(1, 2, 5)] i j :=
  ⟨fun p hp => by
      simp only [List.mem_singleton] at hp
      subst hp
      exact ⟨by decide, by decide, by decide, by decide⟩,
    claim_C8 3 [(1, 2, 5)]
      (fun p hp => by
        simp only [List.mem_singleton] at hp
        subst hp
        exact ⟨by decide, by decide, by decide, by decide⟩)
      1 1 2 2 (by omega) (by omega) (by omega) (by omega) (by omega) (by omega)⟩

end BIT2D

/-!
### The dynamic RMQ structure (`struct FenwickRMQ`, `src/fenwick_rmq.h`)
-/

namespace RMQ

open BIT

/-- The C `INT_MAX` sentinel (values stored are C `int`s, so every array
entry is bounded by it). -/
def INT_MAX : Int := 2147483647

/-- Minimum of `a` over `[lo, lo + k)`, seeded with the `INT_MAX` sentinel —
the direct linear scan used as the brute-force reference. -/
def rangeMinAux (a : Nat → Int) (lo : Nat) : Nat → Int
  | 0 => INT_MAX
  | k + 1 => min (rangeMinAux a lo k) (a (lo + k))

/-- Minimum of `a` over the closed interval `[lo, hi]` (`INT_MAX` when
empty). -/
def rangeMin (a : Nat → Int) (lo hi : Nat) : Int := rangeMinAux a lo (hi + 1 - lo)

theorem rangeMinAux_le_IMAX (a : Nat → Int) (lo : Nat) :
    ∀ k, rangeMinAux a lo k ≤ INT_MAX := by
  intro k
  induction k with
  | zero => exact le_refl _
  | succ k ih => exact le_trans (min_le_left _ _) ih

theorem rangeMin_le_IMAX (a : Nat → Int) (lo hi : Nat) : rangeMin a lo hi ≤ INT_MAX :=
  rangeMinAux_le_IMAX a lo _

theorem rangeMin_empty (a : Nat → Int) {lo hi : Nat} (h : hi < lo) :
    rangeMin a lo hi = INT_MAX := by
  unfold rangeMin
  have h0 : hi + 1 - lo = 0 := by omega
  rw [h0]
  rfl

theorem rangeMin_le (a : Nat → Int) {lo hi x : Nat} (h1 : lo ≤ x) (h2 : x ≤ hi) :
    rangeMin a lo hi ≤ a x := by
  unfold rangeMin
  have hk : hi + 1 - lo = (x - lo) + 1 + (hi - x) := by omega
  rw [hk]
  clear hk
  induction hi - x with
  | zero =>
    show min (rangeMinAux a lo (x - lo)) (a (lo + (x - lo))) ≤ a x
    have : lo + (x - lo) = x := by omega
    rw [this]
    exact min_le_right _ _
  | succ d ih =>
    show min (rangeMinAux a lo (x - lo + 1 + d)) _ ≤ a x
    exact le_trans (min_le_left _ _) ih

theorem rangeMin_attain (a : Nat → Int) (lo hi : Nat) :
    rangeMin a lo hi = INT_MAX ∨ ∃ x, lo ≤ x ∧ x ≤ hi ∧ rangeMin a lo hi = a x := by
  unfold rangeMin
  have : ∀ k, k ≤ hi + 1 - lo → rangeMinAux a lo k = INT_MAX ∨
      ∃ x, lo ≤ x ∧ x ≤ hi ∧ rangeMinAux a lo k = a x := by
    intro k
    induction k with
    | zero => intro h; exact Or.inl rfl
    | succ k ih =>
      intro h
      show (min (rangeMinAux a lo k) (a (lo + k)) = INT_MAX ∨
        ∃ x, lo ≤ x ∧ x ≤ hi ∧ min (rangeMinAux a lo k) (a (lo + k)) = a x)
      rcases le_total (rangeMinAux a lo k) (a (lo + k)) with hc | hc
      · rw [min_eq_left hc]
        exact ih (by omega)
      · rw [min_eq_right hc]
        exact Or.inr ⟨lo + k, by omega, by omega, rfl⟩
  exact this (hi + 1 - lo) (le_refl _)

/-- `rangeMin` over a subinterval is at least `rangeMin` over the interval. -/
theorem rangeMin_mono (a : Nat → Int) {lo hi lo' hi' : Nat}
    (h1 : lo' ≤ lo) (h2 : hi ≤ hi') : rangeMin a lo' hi' ≤ rangeMin a lo hi := by
  rcases rangeMin_attain a lo hi with h | ⟨x, hx1, hx2, hx⟩
  · rw [h]
    exact rangeMin_le_IMAX a lo' hi'
  · rw [hx]
    exact rangeMin_le a (by omega) (by omega)

/-- Two possibly-overlapping pieces covering `[lo, hi]` combine by `min`. -/
theorem rangeMin_union (a : Nat → Int) {lo m m' hi : Nat}
    (h1 : m ≤ hi) (h2 : lo ≤ m') (h3 : m' ≤ m + 1) :
    min (rangeMin a lo m) (rangeMin a m' hi) = rangeMin a lo hi := by
  apply le_antisymm
  · rcases rangeMin_attain a lo hi with h | ⟨x, hx1, hx2, hx⟩
    · rw [h]
      exact le_trans (min_le_left _ _) (rangeMin_le_IMAX a lo m)
    · rw [hx]
      rcases le_or_lt x m with hxm | hxm
      · exact le_trans (min_le_left _ _) (rangeMin_le a hx1 hxm)
      · exact le_trans (min_le_right _ _) (rangeMin_le a (by omega) hx2)
  · exact le_min (rangeMin_mono a (le_refl lo) h1) (rangeMin_mono a h2 (le_refl hi))

theorem rangeMin_congr {a b : Nat → Int} {lo hi : Nat}
    (h : ∀ x, lo ≤ x → x ≤ hi → a x = b x) : rangeMin a lo hi = rangeMin b lo hi := by
  unfold rangeMin
  have : ∀ k, k ≤ hi + 1 - lo → rangeMinAux a lo k = rangeMinAux b lo k := by
    intro k
    induction k with
    | zero => intro _; rfl
    | succ k ih =>
      intro hk
      show min (rangeMinAux a lo k) (a (lo + k)) = min (rangeMinAux b lo k) (b (lo + k))
      rw [ih (by omega), h (lo + k) (by omega) (by omega)]
  exact this _ (le_refl _)

theorem rangeMin_const_IMAX (lo hi : Nat) : rangeMin (fun _ => INT_MAX) lo hi = INT_MAX := by
  unfold rangeMin
  induction hi + 1 - lo with
  | zero => rfl
  | succ k ih =>
    show min (rangeMinAux (fun _ => INT_MAX) lo k) INT_MAX = INT_MAX
    rw [ih, min_self]

/-- Splitting off a single cell `[x, x]` of a bounded array. -/
theorem rangeMin_single {a : Nat → Int} (x : Nat) (h : a x ≤ INT_MAX) :
    rangeMin a x x = a x := by
  unfold rangeMin
  have h1 : x + 1 - x = 1 := by omega
  rw [h1]
  show min INT_MAX (a (x + 0)) = a x
  rw [Nat.add_zero, min_eq_right h]

end RMQ

namespace RMQ

open BIT

/-- The `FenwickRMQ` struct: size `n` and the three parallel sequences `a`
(live values), `lbit` (left-looking minima) and `rbit` (right-looking
minima), all indexed `0..n`. -/
structure State where
  n : Nat
  a : Nat → Int
  lbit : Nat → Int
  rbit : Nat → Int

/-- `FenwickRMQ(n)`: all three vectors filled with `INT_MAX`. -/
def init (n : Nat) : State :=
  ⟨n, fun _ => INT_MAX, fun _ => INT_MAX, fun _ => INT_MAX⟩

/-- The first climb of `FenwickRMQ::query`:
`i = from; ii = i + (i & -i);
while (i <= n && ii - 1 <= to) { res = min(res, rbit[i]); i = ii; ii = i + (i & -i); }`
(for `i = 0` the C loop would never advance; the model exits instead, and
the entry point `from ≥ 1` never reaches that case). -/
def query_climbR (rbitF : Nat → Int) (n tto : Nat) : Nat → Nat → Int → Nat × Int
  | 0, i, res => (i, res)
  | f + 1, i, res =>
    if i ≤ n ∧ i + lowBit i - 1 ≤ tto then
      (if lowBit i = 0 then (i, res)
       else query_climbR rbitF n tto f (i + lowBit i) (min res (rbitF i)))
    else (i, res)

/-- The second climb of `FenwickRMQ::query`:
`i = to; ii = i - (i & -i);
while (i >= 1 && ii + 1 >= from) { res = min(res, lbit[i]); i = ii; ii = i - (i & -i); }`. -/
def query_climbL (lbitF : Nat → Int) (frm : Nat) : Nat → Nat → Int → Nat × Int
  | 0, i, res => (i, res)
  | f + 1, i, res =>
    if 1 ≤ i ∧ frm ≤ i - lowBit i + 1 then
      query_climbL lbitF frm f (i - lowBit i) (min res (lbitF i))
    else (i, res)

/-- `FenwickRMQ::query`.  The guards take C `int` arguments; after them the
indices are known to lie in `[1, n]`.  The method writes no state, so it is
a pure function of the structure. -/
def query (s : State) (frm tto : Int) : Int :=
  if frm < 1 then INT_MAX
  else if tto > (s.n : Int) then INT_MAX
  else if frm > tto then INT_MAX
  else
    let f := frm.toNat
    let t := tto.toNat
    let p1 := query_climbR s.rbit s.n t (s.n + 1) f INT_MAX
    let res1 := if p1.1 ≤ t then min p1.2 (s.a p1.1) else p1.2
    let p2 := query_climbL s.lbit f (t + 1) t res1
    if f ≤ p2.1 then min p2.2 (s.a p2.1) else p2.2

/-- The persistent side-walk state of `FenwickRMQ::update` (`ll` and `rr`
are kept consistent with `lr`/`rl` by the C code — `ll = lr - (lr & -lr)`
and `rr = rl + (rl & -rl)` after every assignment — so they are derived
here rather than stored). -/
structure Sides where
  lr : Nat
  lmin : Int
  rl : Nat
  rmin : Int

/-- `SIDES_INIT`. -/
def sidesInit (idx : Nat) : Sides := ⟨idx - 1, INT_MAX, idx + 1, INT_MAX⟩

/-- The left `while` of `SIDES_UPDATE`:
`while (lr >= 1 && ll + 1 >= l) { lmin = min(lmin, lbit[lr]); lr = ll; ll = lr - (lr & -lr); }`. -/
def sidesL_go (lbitF : Nat → Int) (l : Nat) : Nat → Nat → Int → Nat × Int
  | 0, lr, lmin => (lr, lmin)
  | f + 1, lr, lmin =>
    if 1 ≤ lr ∧ l ≤ lr - lowBit lr + 1 then
      sidesL_go lbitF l f (lr - lowBit lr) (min lmin (lbitF lr))
    else (lr, lmin)

/-- The right `while` of `SIDES_UPDATE`:
`while (rl <= n && rr - 1 <= r) { rmin = min(rmin, rbit[rl]); rl = rr; rr = rl + (rl & -rl); }`
(defensive exit at `rl = 0` as in the other ascending loops). -/
def sidesR_go (rbitF : Nat → Int) (n r : Nat) : Nat → Nat → Int → Nat × Int
  | 0, rl, rmin => (rl, rmin)
  | f + 1, rl, rmin =>
    if rl ≤ n ∧ rl + lowBit rl - 1 ≤ r then
      (if lowBit rl = 0 then (rl, rmin)
       else sidesR_go rbitF n r f (rl + lowBit rl) (min rmin (rbitF rl)))
    else (rl, rmin)

/-- `SIDES_UPDATE` for the node subrange `[l, r]`: run both whiles from the
persistent state, then fold in the single boundary cells
`if (lr >= l) lmin = min(lmin, a[lr]);` and
`if (rl <= min(n, r)) rmin = min(rmin, a[rl]);`. -/
def sidesUpdate (n : Nat) (a lbitF rbitF : Nat → Int) (l r : Nat) (st : Sides) : Sides :=
  let pl := sidesL_go lbitF l (st.lr + 1) st.lr st.lmin
  let lmin2 := if l ≤ pl.1 then min pl.2 (a pl.1) else pl.2
  let pr := sidesR_go rbitF n r (n + 2) st.rl st.rmin
  let rmin2 := if pr.1 ≤ min n r then min pr.2 (a pr.1) else pr.2
  ⟨pl.1, lmin2, pr.1, rmin2⟩

/-- The `lbit` repair climb of `FenwickRMQ::update` (`r` ascends the chain
from `idx` while `r ≤ n`; `l = r - (r & -r) + 1` is derived):
cheap path `if (val <= lbit[r]) lbit[r] = val;`, lazy recompute
`else if (lbit[r] == a[idx]) { SIDES_UPDATE; lbit[r] = min(val, min(lmin, rmin)); }`. -/
def lbitClimb_go (n idx : Nat) (val aOld : Int) (a rbitF : Nat → Int) :
    Nat → Nat → (Nat → Int) → Sides → (Nat → Int)
  | 0, _, lbitF, _ => lbitF
  | f + 1, r, lbitF, st =>
    if r ≤ n then
      (if lowBit r = 0 then lbitF
       else if val ≤ lbitF r then
        lbitClimb_go n idx val aOld a rbitF f (r + lowBit r)
          (fun j => if j = r then val else lbitF j) st
       else if lbitF r = aOld then
        let st2 := sidesUpdate n a lbitF rbitF (r - lowBit r + 1) r st
        lbitClimb_go n idx val aOld a rbitF f (r + lowBit r)
          (fun j => if j = r then min val (min st2.lmin st2.rmin) else lbitF j) st2
       else lbitClimb_go n idx val aOld a rbitF f (r + lowBit r) lbitF st)
    else lbitF

/-- The `rbit` repair climb of `FenwickRMQ::update` (`l` descends the chain
from `idx` while `l ≥ 1`; `r = l + (l & -l) - 1` is derived).  It runs after
the `lbit` climb, so its `SIDES_UPDATE` reads the already-updated `lbit`
array (which agrees with the original below `idx`). -/
def rbitClimb_go (n idx : Nat) (val aOld : Int) (a lbitF : Nat → Int) :
    Nat → Nat → (Nat → Int) → Sides → (Nat → Int)
  | 0, _, rbitF, _ => rbitF
  | f + 1, l, rbitF, st =>
    if 1 ≤ l then
      (if val ≤ rbitF l then
        rbitClimb_go n idx val aOld a lbitF f (l - lowBit l)
          (fun j => if j = l then val else rbitF j) st
       else if rbitF l = aOld then
        let st2 := sidesUpdate n a lbitF rbitF l (l + lowBit l - 1) st
        rbitClimb_go n idx val aOld a lbitF f (l - lowBit l)
          (fun j => if j = l then min val (min st2.lmin st2.rmin) else rbitF j) st2
       else rbitClimb_go n idx val aOld a lbitF f (l - lowBit l) rbitF st)
    else rbitF

/-- `FenwickRMQ::update`: short-circuit on equal value, repair `lbit` along
the ascending chain, then `rbit` along the descending chain, then write
`a[idx] = val`. -/
def update (s : State) (idx : Nat) (val : Int) : State :=
  if s.a idx = val then s
  else
    let lbit2 := lbitClimb_go s.n idx val (s.a idx) s.a s.rbit (s.n + 1) idx s.lbit (sidesInit idx)
    let rbit2 := rbitClimb_go s.n idx val (s.a idx) s.a lbit2 (idx + 1) idx s.rbit (sidesInit idx)
    ⟨s.n, fun j => if j = idx then val else s.a j, lbit2, rbit2⟩

/-- Claim C9: `query` with an empty or out-of-range request (`from > to`,
`from < 1` or `to > n`) returns the `INT_MAX` sentinel rather than failing;
the structure's state is unchanged (in this embedding `query` is a pure
function of the state — the C method writes no field). -/
theorem claim_C9 (s : State) (frm tto : Int)
    (h : frm > tto ∨ frm < 1 ∨ tto > (s.n : Int)) :
    query s frm tto = INT_MAX := by
  unfold query
  by_cases h1 : frm < 1
  · rw [if_pos h1]
  · rw [if_neg h1]
    by_cases h2 : tto > (s.n : Int)
    · rw [if_pos h2]
    · rw [if_neg h2]
      have h3 : frm > tto := by omega
      rw [if_pos h3]

/-- Concrete instance of claim C9 (`n = 3`, inverted range `(2, 1)`). -/
theorem claim_C9_witness :
    ((2 : Int) > 1 ∨ (2 : Int) < 1 ∨ (1 : Int) > ((init 3).n : Int)) ∧
      query (init 3) 2 1 = INT_MAX :=
  ⟨Or.inl (by omega), claim_C9 (init 3) 2 1 (Or.inl (by omega))⟩

end RMQ

namespace RMQ

open BIT

/-- Splitting `rangeMin` over `[lo, hi]` at an interior cell `x`. -/
theorem rangeMin_split3 (a : Nat → Int) {lo x hi : Nat} (h1 : lo ≤ x) (h2 : x ≤ hi)
    (hb : a x ≤ INT_MAX) :
    rangeMin a lo hi = min (rangeMin a lo (x - 1)) (min (a x) (rangeMin a (x + 1) hi)) := by
  have e1 : rangeMin a x x = a x := rangeMin_single x hb
  have e2 : min (rangeMin a x x) (rangeMin a (x + 1) hi) = rangeMin a x hi :=
    rangeMin_union a h2 (by omega) (by omega)
  have e3 : min (rangeMin a lo (x - 1)) (rangeMin a x hi) = rangeMin a lo hi :=
    rangeMin_union a (by omega) h1 (by omega)
  rw [← e3, ← e2, e1]

/-- The ascending update chain stays an update chain: if `idx` lies in the
`lbit` block of `r`, it lies in the block of `r + lowBit r`. -/
theorem chainUp_next {idx r : Nat} (h1 : 1 ≤ idx) (ha : idx ≤ r) (hb : r - lowBit r < idx) :
    idx ≤ r + lowBit r ∧ (r + lowBit r) - lowBit (r + lowBit r) < idx := by
  have hr : 1 ≤ r := le_trans h1 ha
  have h2 := two_lowBit_le_lowBit_add hr
  have h3 := lowBit_le hr
  have h4 := lowBit_pos hr
  omega

/-- No update-chain position lies strictly between `p` and `p + lowBit p`. -/
theorem chainUp_gap {idx p v : Nat} (h1 : 1 ≤ idx) (hpa : idx ≤ p) (hpb : p - lowBit p < idx)
    (hva : idx ≤ v) (hvb : v - lowBit v < idx) (hlt : p < v) : p + lowBit p ≤ v := by
  by_contra hc
  exact block_straddle (x := p) (y := v) (by omega) hlt (by omega) (by omega)

/-- The descending query chain stays a query chain: if `idx` lies in the
`rbit` block of `l ` then it lies in the block of `l - lowBit l`. -/
theorem chainDown_next {idx l : Nat} (ha : l ≤ idx) (hb : idx < l + lowBit l)
    (h2 : 1 ≤ l - lowBit l) :
    l - lowBit l ≤ idx ∧ idx < (l - lowBit l) + lowBit (l - lowBit l) := by
  have hl : 1 ≤ l := by omega
  have hs := two_lowBit_le_lowBit_sub hl h2
  have hle := lowBit_le hl
  omega

/-- No query-chain position lies strictly between `p - lowBit p` and `p`. -/
theorem chainDown_gap {idx p v : Nat} (hpa : p ≤ idx) (hpb : idx < p + lowBit p)
    (hva : v ≤ idx) (hvb : idx < v + lowBit v) (hlt : v < p) : v ≤ p - lowBit p := by
  have hv1 : 1 ≤ v := by
    rcases Nat.eq_zero_or_pos v with h0 | h1
    · subst h0
      rw [lowBit_zero] at hvb
      omega
    · exact h1
  by_contra hc
  exact block_straddle (x := v) (y := p) hv1 hlt (by omega) (by omega)

/-- Inside an `lbit` node `[r - lowBit r + 1, r]`, every block's bottom stays
inside the node (laminarity on the left). -/
theorem nodeL_lbit {r x : Nat} (hr : 1 ≤ r) (h1 : r - lowBit r + 1 < x) (h2 : x ≤ r) :
    r - lowBit r + 1 ≤ x - lowBit x + 1 := by
  rcases lowBit_isPow hr with ⟨s, hs⟩
  have hd : 2 ^ s ∣ r - lowBit r := by
    rw [← hs]
    exact Nat.dvd_sub' (lowBit_dvd r) (dvd_refl _)
  have hle := lowBit_le hr
  by_cases hxr : x = r
  · subst hxr
    exact le_refl _
  · have hw := lowBit_le_sub_of_window (m := r - lowBit r) (s := s) (x := x) hd (by omega) (by omega)
    omega

/-- Inside an `lbit` node `[r - lowBit r + 1, r]`, every block reached from a
strictly interior cell tops out inside the node (laminarity on the right). -/
theorem nodeR_lbit {r x : Nat} (hr : 1 ≤ r) (h1 : r - lowBit r + 1 ≤ x) (h2 : x < r) :
    x + lowBit x - 1 ≤ r := by
  rcases lowBit_isPow hr with ⟨s, hs⟩
  have hd : 2 ^ s ∣ r - lowBit r := by
    rw [← hs]
    exact Nat.dvd_sub' (lowBit_dvd r) (dvd_refl _)
  have hle := lowBit_le hr
  have hw := add_lowBit_le_of_window (m := r - lowBit r) (s := s) (x := x) hd (by omega) (by omega)
  omega

/-- Inside an `rbit` node `[l, l + lowBit l - 1]`, every block's bottom above
`l` stays inside the node. -/
theorem nodeL_rbit {l x : Nat} (hl : 1 ≤ l) (h1 : l < x) (h2 : x ≤ l + lowBit l - 1) :
    l ≤ x - lowBit x + 1 := by
  rcases lowBit_isPow hl with ⟨s, hs⟩
  have hd : 2 ^ s ∣ l := hs ▸ lowBit_dvd l
  have hp := lowBit_pos hl
  have hw := lowBit_le_sub_of_window (m := l) (s := s) (x := x) hd h1 (by omega)
  omega

/-- Inside an `rbit` node `[l, l + lowBit l - 1]`, every block reached from a
strictly interior cell tops out inside the node. -/
theorem nodeR_rbit {l x : Nat} (hl : 1 ≤ l) (h1 : l ≤ x) (h2 : x < l + lowBit l - 1) :
    x + lowBit x - 1 ≤ l + lowBit l - 1 := by
  by_cases hx : x = l
  · subst hx
    exact le_refl _
  · rcases lowBit_isPow hl with ⟨s, hs⟩
    have hd : 2 ^ s ∣ l := hs ▸ lowBit_dvd l
    have hw := add_lowBit_le_of_window (m := l) (s := s) (x := x) hd (by omega) (by omega)
    omega

/-- Invariant of the persistent left side walk: the accumulated `lmin` is the
exact minimum of the cells `[d, idx - 1]` for a ghost bound `d` adjacent to
the resume point `lr` and not yet past the current node bottom `l`. -/
def SideInvL (a2 : Nat → Int) (idx l : Nat) (st : Sides) : Prop :=
  ∃ d, st.lmin = rangeMin a2 d (idx - 1) ∧ st.lr ≤ d ∧ d ≤ st.lr + 1 ∧ l ≤ d ∧
    st.lr ≤ idx - 1

/-- Invariant of the persistent right side walk: the accumulated `rmin` is the
exact minimum of the cells `[idx + 1, c]` for a ghost bound `c` adjacent to
the resume point `rl`, clamped by `n` and not yet past the node top `r`. -/
def SideInvR (a2 : Nat → Int) (idx n r : Nat) (st : Sides) : Prop :=
  ∃ c, st.rmin = rangeMin a2 (idx + 1) c ∧ min n (st.rl - 1) ≤ c ∧ c ≤ st.rl ∧
    c ≤ n ∧ c ≤ r ∧ idx + 1 ≤ st.rl ∧ st.rl ≤ r + 1

end RMQ

namespace RMQ

open BIT

/-- Exact behaviour of the left `while` of `SIDES_UPDATE` plus its boundary
fix-up at a node with bottom `l`: the walk stops at `l - 1` (or at `l`, in
which case the boundary cell is folded in) and the result is exactly the
minimum over `[l, idx - 1]`. -/
theorem sidesL_spec {a2 lbitF : Nat → Int} {idx l : Nat}
    (Hlbv : ∀ j, 1 ≤ j → j ≤ idx - 1 → lbitF j = rangeMin a2 (j - lowBit j + 1) j)
    (HnodeL : ∀ x, l < x → x ≤ idx - 1 → l ≤ x - lowBit x + 1)
    (Hb : ∀ x, 1 ≤ x → x ≤ idx - 1 → a2 x ≤ INT_MAX)
    (hl : 1 ≤ l) :
    ∀ fuel lr0 lmin0 d, lr0 ≤ idx - 1 → lr0 + 1 ≤ fuel →
      lmin0 = rangeMin a2 d (idx - 1) → lr0 ≤ d → d ≤ lr0 + 1 → l ≤ d →
      ((sidesL_go lbitF l fuel lr0 lmin0).1 = l - 1 ∨
        ((sidesL_go lbitF l fuel lr0 lmin0).1 = l ∧ l ≤ idx - 1)) ∧
      (if l ≤ (sidesL_go lbitF l fuel lr0 lmin0).1
       then min (sidesL_go lbitF l fuel lr0 lmin0).2 (a2 (sidesL_go lbitF l fuel lr0 lmin0).1)
       else (sidesL_go lbitF l fuel lr0 lmin0).2) = rangeMin a2 l (idx - 1) := by
  intro fuel
  induction fuel with
  | zero =>
    intro lr0 lmin0 d h1 h2 hm hd1 hd2 hd3
    omega
  | succ f ih =>
    intro lr0 lmin0 d h1 h2 hm hd1 hd2 hd3
    by_cases hcase : lr0 + 1 ≤ l
    · have hguard : ¬(1 ≤ lr0 ∧ l ≤ lr0 - lowBit lr0 + 1) := by
        rintro ⟨g1, g2⟩
        have := lowBit_pos g1
        omega
      have he : sidesL_go lbitF l (f + 1) lr0 lmin0 = (lr0, lmin0) := by
        simp only [sidesL_go]
        rw [if_neg hguard]
      rw [he]
      refine ⟨Or.inl (by omega), ?_⟩
      rw [if_neg (by omega)]
      have hdl : d = l := by omega
      rw [hm, hdl]
    · by_cases hcase2 : lr0 = l
      · subst hcase2
        have hlidx : lr0 ≤ idx - 1 := h1
        by_cases hlb1 : lowBit lr0 = 1
        · have hguard : (1 ≤ lr0 ∧ lr0 ≤ lr0 - lowBit lr0 + 1) := by
            constructor
            · omega
            · rw [hlb1]; omega
          have he : sidesL_go lbitF lr0 (f + 1) lr0 lmin0 =
              sidesL_go lbitF lr0 f (lr0 - lowBit lr0) (min lmin0 (lbitF lr0)) := by
            simp only [sidesL_go]
            rw [if_pos hguard]
          rw [he]
          have hstep : min lmin0 (lbitF lr0) = rangeMin a2 (lr0 - lowBit lr0 + 1) (idx - 1) := by
            rw [hm, Hlbv lr0 (by omega) hlidx, min_comm]
            exact rangeMin_union a2 hlidx (by omega) (by omega)
          exact ih (lr0 - lowBit lr0) _ (lr0 - lowBit lr0 + 1) (by omega) (by omega)
            hstep (by omega) (by omega) (by rw [hlb1]; omega)
        · have hlbl := lowBit_le (show 1 ≤ lr0 by omega)
          have hlbp := lowBit_pos (show 1 ≤ lr0 by omega)
          have hguard : ¬(1 ≤ lr0 ∧ lr0 ≤ lr0 - lowBit lr0 + 1) := by
            rintro ⟨g1, g2⟩
            omega
          have he : sidesL_go lbitF lr0 (f + 1) lr0 lmin0 = (lr0, lmin0) := by
            simp only [sidesL_go]
            rw [if_neg hguard]
          rw [he]
          refine ⟨Or.inr ⟨rfl, hlidx⟩, ?_⟩
          rw [if_pos (le_refl lr0)]
          rw [hm]
          have hd4 : d = lr0 ∨ d = lr0 + 1 := by omega
          rcases hd4 with hd4 | hd4
          · subst hd4
            exact min_eq_left (rangeMin_le a2 (le_refl _) hlidx)
          · subst hd4
            rw [min_comm, ← rangeMin_single (a := a2) lr0 (Hb lr0 hl hlidx)]
            exact rangeMin_union a2 hlidx (by omega) (by omega)
      · have hllt : l < lr0 := by omega
        have hguard : (1 ≤ lr0 ∧ l ≤ lr0 - lowBit lr0 + 1) :=
          ⟨by omega, HnodeL lr0 hllt h1⟩
        have hlbp := lowBit_pos (show 1 ≤ lr0 by omega)
        have he : sidesL_go lbitF l (f + 1) lr0 lmin0 =
            sidesL_go lbitF l f (lr0 - lowBit lr0) (min lmin0 (lbitF lr0)) := by
          simp only [sidesL_go]
          rw [if_pos hguard]
        rw [he]
        have hstep : min lmin0 (lbitF lr0) = rangeMin a2 (lr0 - lowBit lr0 + 1) (idx - 1) := by
          rw [hm, Hlbv lr0 (by omega) h1, min_comm]
          exact rangeMin_union a2 h1 (by omega) (by omega)
        exact ih (lr0 - lowBit lr0) _ (lr0 - lowBit lr0 + 1) (by omega) (by omega)
          hstep (by omega) (by omega) hguard.2

end RMQ

namespace RMQ

open BIT

/-- Exact behaviour of the right `while` of `SIDES_UPDATE` plus its boundary
fix-up at a node with top `r`: the walk stops right past `min n r` and the
result is exactly the minimum over `[idx + 1, min n r]`. -/
theorem sidesR_spec {a2 rbitF : Nat → Int} {idx n r l : Nat}
    (Hrbv : ∀ j, idx + 1 ≤ j → j ≤ n → rbitF j = rangeMin a2 j (min n (j + lowBit j - 1)))
    (HnodeR : ∀ x, l ≤ x → x < r → x + lowBit x - 1 ≤ r)
    (Hb : ∀ x, idx + 1 ≤ x → x ≤ n → a2 x ≤ INT_MAX)
    (hlidx : l ≤ idx) :
    ∀ fuel rl0 rmin0 c, idx + 1 ≤ rl0 → rl0 ≤ r + 1 → n + 2 ≤ fuel + rl0 →
      rmin0 = rangeMin a2 (idx + 1) c →
      min n (rl0 - 1) ≤ c → c ≤ rl0 → c ≤ n → c ≤ r →
      (idx + 1 ≤ (sidesR_go rbitF n r fuel rl0 rmin0).1 ∧
        (sidesR_go rbitF n r fuel rl0 rmin0).1 ≤ r + 1 ∧
        min n ((sidesR_go rbitF n r fuel rl0 rmin0).1 - 1) ≤ min n r ∧
        min n r ≤ (sidesR_go rbitF n r fuel rl0 rmin0).1) ∧
      (if (sidesR_go rbitF n r fuel rl0 rmin0).1 ≤ min n r
       then min (sidesR_go rbitF n r fuel rl0 rmin0).2 (a2 (sidesR_go rbitF n r fuel rl0 rmin0).1)
       else (sidesR_go rbitF n r fuel rl0 rmin0).2) = rangeMin a2 (idx + 1) (min n r) := by
  intro fuel
  induction fuel with
  | zero =>
    intro rl0 rmin0 c h1 h2 h3 hm hc1 hc2 hc3 hc4
    have he : sidesR_go rbitF n r 0 rl0 rmin0 = (rl0, rmin0) := rfl
    rw [he]
    refine ⟨⟨by omega, by omega, by omega, by omega⟩, ?_⟩
    rw [if_neg (by omega), hm]
    have hcn : c = n := by omega
    have hrn : min n r = n := by omega
    rw [hcn, hrn]
  | succ f ih =>
    intro rl0 rmin0 c h1 h2 h3 hm hc1 hc2 hc3 hc4
    by_cases hg1 : rl0 ≤ n
    · by_cases hg2 : rl0 + lowBit rl0 - 1 ≤ r
      · have hlbp := lowBit_pos (show 1 ≤ rl0 by omega)
        have he : sidesR_go rbitF n r (f + 1) rl0 rmin0 =
            sidesR_go rbitF n r f (rl0 + lowBit rl0) (min rmin0 (rbitF rl0)) := by
          simp only [sidesR_go]
          rw [if_pos ⟨hg1, hg2⟩, if_neg (by omega)]
        rw [he]
        have hstep : min rmin0 (rbitF rl0) =
            rangeMin a2 (idx + 1) (min n (rl0 + lowBit rl0 - 1)) := by
          rw [hm, Hrbv rl0 h1 hg1]
          exact rangeMin_union a2 (by omega) h1 (by omega)
        exact ih (rl0 + lowBit rl0) _ (min n (rl0 + lowBit rl0 - 1)) (by omega) (by omega)
          (by omega) hstep (by omega) (by omega) (by omega) (by omega)
      · have he : sidesR_go rbitF n r (f + 1) rl0 rmin0 = (rl0, rmin0) := by
          simp only [sidesR_go]
          rw [if_neg (by rintro ⟨g1, g2⟩; omega)]
        rw [he]
        by_cases hrl : rl0 = r + 1
        · have hrn : min n r = r := by omega
          refine ⟨⟨h1, h2, by omega, by omega⟩, ?_⟩
          rw [if_neg (by omega), hm]
          have hcr : c = r := by omega
          rw [hcr, hrn]
        · have hreq : rl0 = r := by
            rcases (show rl0 < r ∨ rl0 = r by omega) with hlt | heq
            · exact absurd (HnodeR rl0 (by omega) hlt) (by omega)
            · exact heq
          have hrn : min n r = rl0 := by omega
          have hlbp := lowBit_pos (show 1 ≤ rl0 by omega)
          refine ⟨⟨h1, by omega, by omega, by omega⟩, ?_⟩
          rw [if_pos (by omega), hm, hrn]
          have hc5 : c = rl0 ∨ c + 1 = rl0 := by omega
          rcases hc5 with hc5 | hc5
          · rw [hc5]
            exact min_eq_left (rangeMin_le a2 h1 (le_refl _))
          · rw [← rangeMin_single (a := a2) rl0 (Hb rl0 h1 hg1), ← hc5]
            exact rangeMin_union a2 (by omega) (by omega) (by omega)
    · have he : sidesR_go rbitF n r (f + 1) rl0 rmin0 = (rl0, rmin0) := by
        simp only [sidesR_go]
        rw [if_neg (by rintro ⟨g1, g2⟩; omega)]
      rw [he]
      refine ⟨⟨h1, h2, by omega, by omega⟩, ?_⟩
      rw [if_neg (by omega), hm]
      have hcn : c = n := by omega
      have hrn : min n r = n := by omega
      rw [hcn, hrn]

end RMQ

namespace RMQ

open BIT

/-- Exact behaviour of one `SIDES_UPDATE` at a node `[l, r]` containing
`idx`: afterwards `lmin` is exactly the minimum over `[l, idx - 1]`, `rmin`
exactly the minimum over `[idx + 1, min n r]`, and the resume points satisfy
the side invariants again (ghosts `l` and `min n r`). -/
theorem sidesUpdate_spec {a a2 lbitF rbitF : Nat → Int} {idx n l r : Nat} {st : Sides}
    (ha : ∀ j, j ≠ idx → a j = a2 j)
    (Hlbv : ∀ j, 1 ≤ j → j ≤ idx - 1 → lbitF j = rangeMin a2 (j - lowBit j + 1) j)
    (Hrbv : ∀ j, idx + 1 ≤ j → j ≤ n → rbitF j = rangeMin a2 j (min n (j + lowBit j - 1)))
    (HnodeL : ∀ x, l < x → x ≤ idx - 1 → l ≤ x - lowBit x + 1)
    (HnodeR : ∀ x, l ≤ x → x < r → x + lowBit x - 1 ≤ r)
    (HbL : ∀ x, 1 ≤ x → x ≤ idx - 1 → a2 x ≤ INT_MAX)
    (HbR : ∀ x, idx + 1 ≤ x → x ≤ n → a2 x ≤ INT_MAX)
    (hl : 1 ≤ l) (hli : l ≤ idx)
    (hInvL : SideInvL a2 idx l st) (hInvR : SideInvR a2 idx n r st) :
    ((sidesUpdate n a lbitF rbitF l r st).lr = l - 1 ∨
      ((sidesUpdate n a lbitF rbitF l r st).lr = l ∧ l ≤ idx - 1)) ∧
    (sidesUpdate n a lbitF rbitF l r st).lmin = rangeMin a2 l (idx - 1) ∧
    (idx + 1 ≤ (sidesUpdate n a lbitF rbitF l r st).rl ∧
      (sidesUpdate n a lbitF rbitF l r st).rl ≤ r + 1 ∧
      min n ((sidesUpdate n a lbitF rbitF l r st).rl - 1) ≤ min n r ∧
      min n r ≤ (sidesUpdate n a lbitF rbitF l r st).rl) ∧
    (sidesUpdate n a lbitF rbitF l r st).rmin = rangeMin a2 (idx + 1) (min n r) := by
  obtain ⟨d, hm, hd1, hd2, hd3, hd4⟩ := hInvL
  obtain ⟨c, hrm, hc1, hc2, hc3, hc4, hc5, hc6⟩ := hInvR
  have HL := sidesL_spec Hlbv HnodeL HbL hl (st.lr + 1) st.lr st.lmin d hd4
    (le_refl _) hm hd1 hd2 hd3
  have HR := sidesR_spec Hrbv HnodeR HbR hli (n + 2) st.rl st.rmin c hc5 hc6
    (by omega) hrm hc1 hc2 hc3 hc4
  obtain ⟨HL1, HL2⟩ := HL
  obtain ⟨HR1, HR2⟩ := HR
  simp only [sidesUpdate]
  refine ⟨HL1, ?_, HR1, ?_⟩
  · by_cases hb1 : l ≤ (sidesL_go lbitF l (st.lr + 1) st.lr st.lmin).1
    · rw [if_pos hb1] at HL2 ⊢
      have hne : (sidesL_go lbitF l (st.lr + 1) st.lr st.lmin).1 ≠ idx := by
        rcases HL1 with h | ⟨h, h2⟩
        · omega
        · omega
      rw [ha _ hne]
      exact HL2
    · rw [if_neg hb1] at HL2 ⊢
      exact HL2
  · by_cases hb2 : (sidesR_go rbitF n r (n + 2) st.rl st.rmin).1 ≤ min n r
    · rw [if_pos hb2] at HR2 ⊢
      have hne : (sidesR_go rbitF n r (n + 2) st.rl st.rmin).1 ≠ idx := by
        obtain ⟨g1, g2, g3, g4⟩ := HR1
        omega
      rw [ha _ hne]
      exact HR2
    · rw [if_neg hb2] at HR2 ⊢
      exact HR2

end RMQ

namespace RMQ

open BIT

/-- Widening the node bottom preserves the left side invariant. -/
theorem SideInvL_mono {a2 : Nat → Int} {idx l l' : Nat} {st : Sides}
    (h : SideInvL a2 idx l st) (hll : l' ≤ l) : SideInvL a2 idx l' st := by
  obtain ⟨d, h1, h2, h3, h4, h5⟩ := h
  exact ⟨d, h1, h2, h3, le_trans hll h4, h5⟩

/-- Widening the node top preserves the right side invariant. -/
theorem SideInvR_mono {a2 : Nat → Int} {idx n r r' : Nat} {st : Sides}
    (h : SideInvR a2 idx n r st) (hrr : r ≤ r') : SideInvR a2 idx n r' st := by
  obtain ⟨c, h1, h2, h3, h4, h5, h6, h7⟩ := h
  exact ⟨c, h1, h2, h3, h4, le_trans h5 hrr, h6, by omega⟩

/-- The `lbit` climb of `FenwickRMQ::update` repairs exactly the chain nodes
whose block contains `idx` (setting them to the block minimum of the updated
array) and leaves every other node untouched. -/
theorem lbitClimb_spec {n idx : Nat} {val : Int} {a a2 rbit0 : Nat → Int}
    (hidx1 : 1 ≤ idx) (hidxn : idx ≤ n)
    (ha2i : a2 idx = val) (ha2o : ∀ j, j ≠ idx → a2 j = a j)
    (Ha : ∀ j, 1 ≤ j → j ≤ n → a j ≤ INT_MAX) (hval : val ≤ INT_MAX)
    (Hrb : ∀ i, 1 ≤ i → i ≤ n → rbit0 i = rangeMin a i (min n (i + lowBit i - 1))) :
    ∀ fuel r lbitF st,
      idx ≤ r → r - lowBit r < idx →
      n + 1 ≤ fuel + r →
      (∀ j, 1 ≤ j → j ≤ n → lbitF j =
        if idx ≤ j ∧ j - lowBit j < idx ∧ j < r
        then rangeMin a2 (j - lowBit j + 1) j
        else rangeMin a (j - lowBit j + 1) j) →
      SideInvL a2 idx (r - lowBit r + 1) st →
      SideInvR a2 idx n r st →
      ∀ j, 1 ≤ j → j ≤ n →
        lbitClimb_go n idx val (a idx) a rbit0 fuel r lbitF st j =
          (if idx ≤ j ∧ j - lowBit j < idx
           then rangeMin a2 (j - lowBit j + 1) j
           else rangeMin a (j - lowBit j + 1) j) := by
  intro fuel
  induction fuel with
  | zero =>
    intro r lbitF st hch1 hch2 hfuel H3 hSL hSR j hj1 hj2
    have he : lbitClimb_go n idx val (a idx) a rbit0 0 r lbitF st = lbitF := rfl
    rw [he, H3 j hj1 hj2]
    by_cases hc : idx ≤ j ∧ j - lowBit j < idx
    · rw [if_pos ⟨hc.1, hc.2, by omega⟩, if_pos hc]
    · rw [if_neg (by rintro ⟨x, y, z⟩; exact hc ⟨x, y⟩), if_neg hc]
  | succ f ih =>
    intro r lbitF st hch1 hch2 hfuel H3 hSL hSR j hj1 hj2
    by_cases hrn : r ≤ n
    · have hr1 : 1 ≤ r := le_trans hidx1 hch1
      have hlbp := lowBit_pos hr1
      have hlbl := lowBit_le hr1
      have hO := H3 r (by omega) hrn
      rw [if_neg (by rintro ⟨x, y, z⟩; omega)] at hO
      have hA : rangeMin a (r - lowBit r + 1) (idx - 1) =
          rangeMin a2 (r - lowBit r + 1) (idx - 1) :=
        rangeMin_congr (fun x hx1 hx2 => (ha2o x (by omega)).symm)
      have hB : rangeMin a (idx + 1) r = rangeMin a2 (idx + 1) r :=
        rangeMin_congr (fun x hx1 hx2 => (ha2o x (by omega)).symm)
      have hsplitO : rangeMin a (r - lowBit r + 1) r =
          min (a idx) (min (rangeMin a2 (r - lowBit r + 1) (idx - 1))
            (rangeMin a2 (idx + 1) r)) := by
        rw [rangeMin_split3 a (show r - lowBit r + 1 ≤ idx by omega)
          (show idx ≤ r from hch1) (Ha idx hidx1 hidxn), hA, hB]
        exact min_left_comm _ _ _
      have hsplitN : rangeMin a2 (r - lowBit r + 1) r =
          min val (min (rangeMin a2 (r - lowBit r + 1) (idx - 1))
            (rangeMin a2 (idx + 1) r)) := by
        rw [rangeMin_split3 a2 (show r - lowBit r + 1 ≤ idx by omega)
          (show idx ≤ r from hch1) (by rw [ha2i]; exact hval), ha2i]
        exact min_left_comm _ _ _
      have hnest : (r + lowBit r) - lowBit (r + lowBit r) + 1 ≤ r - lowBit r + 1 := by
        have := two_lowBit_le_lowBit_add hr1
        omega
      have hchn := chainUp_next hidx1 hch1 hch2
      have hgapj : ∀ j', idx ≤ j' → j' - lowBit j' < idx → r < j' → r + lowBit r ≤ j' :=
        fun j' hx hy hz => chainUp_gap hidx1 hch1 hch2 hx hy hz
      by_cases hbr1 : val ≤ lbitF r
      · have he : lbitClimb_go n idx val (a idx) a rbit0 (f + 1) r lbitF st j =
            lbitClimb_go n idx val (a idx) a rbit0 f (r + lowBit r)
              (fun j' => if j' = r then val else lbitF j') st j := by
          simp only [lbitClimb_go]
          rw [if_pos hrn, if_neg (by omega), if_pos hbr1]
        rw [he]
        have hvalM : val ≤ min (rangeMin a2 (r - lowBit r + 1) (idx - 1))
            (rangeMin a2 (idx + 1) r) := by
          rw [hO, hsplitO] at hbr1
          exact le_trans hbr1 (min_le_right _ _)
        have hNval : rangeMin a2 (r - lowBit r + 1) r = val := by
          rw [hsplitN]
          exact min_eq_left hvalM
        refine ih (r + lowBit r) _ st hchn.1 hchn.2 (by omega) ?_
          (SideInvL_mono hSL hnest) (SideInvR_mono hSR (by omega)) j hj1 hj2
        intro j' hj1' hj2'
        by_cases hjr : j' = r
        · rw [hjr]
          show (if r = r then val else lbitF r) = _
          rw [if_pos rfl, if_pos ⟨hch1, hch2, by omega⟩]
          exact hNval.symm
        · show (if j' = r then val else lbitF j') = _
          rw [if_neg hjr, H3 j' hj1' hj2']
          by_cases hcond : idx ≤ j' ∧ j' - lowBit j' < idx
          · by_cases hjlt : j' < r
            · rw [if_pos ⟨hcond.1, hcond.2, hjlt⟩, if_pos ⟨hcond.1, hcond.2, by omega⟩]
            · have hge := hgapj j' hcond.1 hcond.2 (by omega)
              rw [if_neg (by omega), if_neg (by omega)]
          · rw [if_neg (by rintro ⟨x, y, z⟩; exact hcond ⟨x, y⟩),
              if_neg (by rintro ⟨x, y, z⟩; exact hcond ⟨x, y⟩)]
      · by_cases hbr2 : lbitF r = a idx
        · have hminr : min n r = r := by omega
          have HS := @sidesUpdate_spec a a2 lbitF rbit0 idx n (r - lowBit r + 1) r st
            (fun j' hj' => (ha2o j' hj').symm)
            (fun j' h1' h2' => by
              rw [H3 j' (by omega) (by omega), if_neg (by rintro ⟨x, y, z⟩; omega)]
              exact rangeMin_congr (fun x hx1 hx2 => (ha2o x (by omega)).symm))
            (fun j' h1' h2' => by
              rw [Hrb j' (by omega) h2']
              exact rangeMin_congr (fun x hx1 hx2 => (ha2o x (by omega)).symm))
            (fun x hx1 hx2 => nodeL_lbit hr1 hx1 (by omega))
            (fun x hx1 hx2 => nodeR_lbit hr1 hx1 hx2)
            (fun x hx1 hx2 => by rw [ha2o x (by omega)]; exact Ha x hx1 (by omega))
            (fun x hx1 hx2 => by rw [ha2o x (by omega)]; exact Ha x (by omega) hx2)
            (by omega) (by omega) hSL hSR
          obtain ⟨HS1, HS2, HS3, HS4⟩ := HS
          have he : lbitClimb_go n idx val (a idx) a rbit0 (f + 1) r lbitF st j =
              lbitClimb_go n idx val (a idx) a rbit0 f (r + lowBit r)
                (fun j' => if j' = r
                  then min val (min (sidesUpdate n a lbitF rbit0 (r - lowBit r + 1) r st).lmin
                    (sidesUpdate n a lbitF rbit0 (r - lowBit r + 1) r st).rmin)
                  else lbitF j')
                (sidesUpdate n a lbitF rbit0 (r - lowBit r + 1) r st) j := by
            simp only [lbitClimb_go]
            rw [if_pos hrn, if_neg (by omega), if_neg hbr1, if_pos hbr2]
          rw [he]
          have hNval : rangeMin a2 (r - lowBit r + 1) r =
              min val (min (sidesUpdate n a lbitF rbit0 (r - lowBit r + 1) r st).lmin
                (sidesUpdate n a lbitF rbit0 (r - lowBit r + 1) r st).rmin) := by
            rw [HS2, HS4, hminr, hsplitN]
          refine ih (r + lowBit r) _ _ hchn.1 hchn.2 (by omega) ?_ ?_ ?_ j hj1 hj2
          · intro j' hj1' hj2'
            by_cases hjr : j' = r
            · rw [hjr]
              show (if r = r then _ else lbitF r) = _
              rw [if_pos rfl, if_pos ⟨hch1, hch2, by omega⟩]
              exact hNval.symm
            · show (if j' = r then _ else lbitF j') = _
              rw [if_neg hjr, H3 j' hj1' hj2']
              by_cases hcond : idx ≤ j' ∧ j' - lowBit j' < idx
              · by_cases hjlt : j' < r
                · rw [if_pos ⟨hcond.1, hcond.2, hjlt⟩, if_pos ⟨hcond.1, hcond.2, by omega⟩]
                · have hge := hgapj j' hcond.1 hcond.2 (by omega)
                  rw [if_neg (by omega), if_neg (by omega)]
              · rw [if_neg (by rintro ⟨x, y, z⟩; exact hcond ⟨x, y⟩),
                  if_neg (by rintro ⟨x, y, z⟩; exact hcond ⟨x, y⟩)]
          · refine ⟨r - lowBit r + 1, HS2, ?_, ?_, hnest, ?_⟩
            · rcases HS1 with h | ⟨h, h2⟩
              · omega
              · omega
            · rcases HS1 with h | ⟨h, h2⟩
              · omega
              · omega
            · rcases HS1 with h | ⟨h, h2⟩
              · omega
              · omega
          · refine ⟨min n r, ?_, ?_, ?_, by omega, by omega, ?_, ?_⟩
            · rw [HS4]
            · exact HS3.2.2.1
            · exact HS3.2.2.2
            · exact HS3.1
            · have := HS3.2.1
              omega
        · have he : lbitClimb_go n idx val (a idx) a rbit0 (f + 1) r lbitF st j =
              lbitClimb_go n idx val (a idx) a rbit0 f (r + lowBit r) lbitF st j := by
            simp only [lbitClimb_go]
            rw [if_pos hrn, if_neg (by omega), if_neg hbr1, if_neg hbr2]
          rw [he]
          have hMO : lbitF r = min (rangeMin a2 (r - lowBit r + 1) (idx - 1))
              (rangeMin a2 (idx + 1) r) := by
            rcases le_total (a idx) (min (rangeMin a2 (r - lowBit r + 1) (idx - 1))
              (rangeMin a2 (idx + 1) r)) with hle | hle
            · exact absurd (by rw [hO, hsplitO]; exact min_eq_left hle) hbr2
            · rw [hO, hsplitO]
              exact min_eq_right hle
          have hNO : rangeMin a2 (r - lowBit r + 1) r = lbitF r := by
            rw [hsplitN, hMO]
            refine min_eq_right ?_
            rw [hMO] at hbr1
            exact le_of_lt (lt_of_not_le hbr1)
          refine ih (r + lowBit r) _ st hchn.1 hchn.2 (by omega) ?_
            (SideInvL_mono hSL hnest) (SideInvR_mono hSR (by omega)) j hj1 hj2
          intro j' hj1' hj2'
          rw [H3 j' hj1' hj2']
          by_cases hcond : idx ≤ j' ∧ j' - lowBit j' < idx
          · by_cases hjlt : j' < r
            · rw [if_pos ⟨hcond.1, hcond.2, hjlt⟩, if_pos ⟨hcond.1, hcond.2, by omega⟩]
            · by_cases hjr : j' = r
              · rw [if_neg (by omega), if_pos ⟨hcond.1, hcond.2, by omega⟩, hjr, hNO, hO]
              · have hge := hgapj j' hcond.1 hcond.2 (by omega)
                rw [if_neg (by omega), if_neg (by omega)]
          · rw [if_neg (by rintro ⟨x, y, z⟩; exact hcond ⟨x, y⟩),
              if_neg (by rintro ⟨x, y, z⟩; exact hcond ⟨x, y⟩)]
    · have he : lbitClimb_go n idx val (a idx) a rbit0 (f + 1) r lbitF st = lbitF := by
        simp only [lbitClimb_go]
        rw [if_neg hrn]
      rw [he, H3 j hj1 hj2]
      by_cases hc : idx ≤ j ∧ j - lowBit j < idx
      · rw [if_pos ⟨hc.1, hc.2, by omega⟩, if_pos hc]
      · rw [if_neg (by rintro ⟨x, y, z⟩; exact hc ⟨x, y⟩), if_neg hc]

end RMQ

namespace RMQ

open BIT

/-- The `rbit` climb of `FenwickRMQ::update` repairs exactly the chain nodes
whose block contains `idx` (setting them to the block minimum of the updated
array) and leaves every other node untouched.  It runs after the `lbit`
climb, whose final values below `idx` it reads through `SIDES_UPDATE`. -/
theorem rbitClimb_spec {n idx : Nat} {val : Int} {a a2 lbit2 : Nat → Int}
    (hidx1 : 1 ≤ idx) (hidxn : idx ≤ n)
    (ha2i : a2 idx = val) (ha2o : ∀ j, j ≠ idx → a2 j = a j)
    (Ha : ∀ j, 1 ≤ j → j ≤ n → a j ≤ INT_MAX) (hval : val ≤ INT_MAX)
    (Hlb2 : ∀ j, 1 ≤ j → j ≤ idx - 1 → lbit2 j = rangeMin a2 (j - lowBit j + 1) j) :
    ∀ fuel l rbitF st,
      l ≤ idx → idx < l + lowBit l → 1 ≤ l →
      l + 1 ≤ fuel →
      (∀ j, 1 ≤ j → j ≤ n → rbitF j =
        if j ≤ idx ∧ idx < j + lowBit j ∧ l < j
        then rangeMin a2 j (min n (j + lowBit j - 1))
        else rangeMin a j (min n (j + lowBit j - 1))) →
      SideInvL a2 idx l st →
      SideInvR a2 idx n (l + lowBit l - 1) st →
      ∀ j, 1 ≤ j → j ≤ n →
        rbitClimb_go n idx val (a idx) a lbit2 fuel l rbitF st j =
          (if j ≤ idx ∧ idx < j + lowBit j
           then rangeMin a2 j (min n (j + lowBit j - 1))
           else rangeMin a j (min n (j + lowBit j - 1))) := by
  intro fuel
  induction fuel with
  | zero =>
    intro l rbitF st hch1 hch2 hl1 hfuel H3 hSL hSR j hj1 hj2
    omega
  | succ f ih =>
    intro l rbitF st hch1 hch2 hl1 hfuel H3 hSL hSR j hj1 hj2
    have hlbp := lowBit_pos hl1
    have hlbl := lowBit_le hl1
    have hln : l ≤ n := le_trans hch1 hidxn
    have hidxr : idx ≤ l + lowBit l - 1 := by omega
    have hO := H3 l (by omega) hln
    rw [if_neg (by rintro ⟨x, y, z⟩; omega)] at hO
    have hA : rangeMin a l (idx - 1) = rangeMin a2 l (idx - 1) :=
      rangeMin_congr (fun x hx1 hx2 => (ha2o x (by omega)).symm)
    have hB : rangeMin a (idx + 1) (min n (l + lowBit l - 1)) =
        rangeMin a2 (idx + 1) (min n (l + lowBit l - 1)) :=
      rangeMin_congr (fun x hx1 hx2 => (ha2o x (by omega)).symm)
    have hsplitO : rangeMin a l (min n (l + lowBit l - 1)) =
        min (a idx) (min (rangeMin a2 l (idx - 1))
          (rangeMin a2 (idx + 1) (min n (l + lowBit l - 1)))) := by
      rw [rangeMin_split3 a (show l ≤ idx from hch1) (show idx ≤ min n (l + lowBit l - 1) by omega)
        (Ha idx hidx1 hidxn), hA, hB]
      exact min_left_comm _ _ _
    have hsplitN : rangeMin a2 l (min n (l + lowBit l - 1)) =
        min val (min (rangeMin a2 l (idx - 1))
          (rangeMin a2 (idx + 1) (min n (l + lowBit l - 1)))) := by
      rw [rangeMin_split3 a2 (show l ≤ idx from hch1) (show idx ≤ min n (l + lowBit l - 1) by omega)
        (by rw [ha2i]; exact hval), ha2i]
      exact min_left_comm _ _ _
    have hgapj : ∀ j', j' ≤ idx → idx < j' + lowBit j' → j' < l → j' ≤ l - lowBit l :=
      fun j' hx hy hz => chainDown_gap hch1 hch2 hx hy hz
    by_cases hbr1 : val ≤ rbitF l
    · have he : rbitClimb_go n idx val (a idx) a lbit2 (f + 1) l rbitF st j =
          rbitClimb_go n idx val (a idx) a lbit2 f (l - lowBit l)
            (fun j' => if j' = l then val else rbitF j') st j := by
        simp only [rbitClimb_go]
        rw [if_pos hl1, if_pos hbr1]
      rw [he]
      have hvalM : val ≤ min (rangeMin a2 l (idx - 1))
          (rangeMin a2 (idx + 1) (min n (l + lowBit l - 1))) := by
        rw [hO, hsplitO] at hbr1
        exact le_trans hbr1 (min_le_right _ _)
      have hNval : rangeMin a2 l (min n (l + lowBit l - 1)) = val := by
        rw [hsplitN]
        exact min_eq_left hvalM
      have H3new : ∀ j', 1 ≤ j' → j' ≤ n →
          (fun j'' => if j'' = l then val else rbitF j'') j' =
          if j' ≤ idx ∧ idx < j' + lowBit j' ∧ l - lowBit l < j'
          then rangeMin a2 j' (min n (j' + lowBit j' - 1))
          else rangeMin a j' (min n (j' + lowBit j' - 1)) := by
        intro j' hj1' hj2'
        by_cases hjr : j' = l
        · rw [hjr]
          show (if l = l then val else rbitF l) = _
          rw [if_pos rfl, if_pos ⟨hch1, hch2, by omega⟩]
          exact hNval.symm
        · show (if j' = l then val else rbitF j') = _
          rw [if_neg hjr, H3 j' hj1' hj2']
          by_cases hcond : j' ≤ idx ∧ idx < j' + lowBit j'
          · by_cases hjlt : l < j'
            · rw [if_pos ⟨hcond.1, hcond.2, hjlt⟩, if_pos ⟨hcond.1, hcond.2, by omega⟩]
            · have hge := hgapj j' hcond.1 hcond.2 (by omega)
              rw [if_neg (by omega), if_neg (by omega)]
          · rw [if_neg (by rintro ⟨x, y, z⟩; exact hcond ⟨x, y⟩),
              if_neg (by rintro ⟨x, y, z⟩; exact hcond ⟨x, y⟩)]
      by_cases hl2 : 1 ≤ l - lowBit l
      · have hchn := chainDown_next hch1 hch2 hl2
        have hrr : l + lowBit l - 1 ≤ (l - lowBit l) + lowBit (l - lowBit l) - 1 := by
          have := two_lowBit_le_lowBit_sub hl1 hl2
          omega
        exact ih (l - lowBit l) _ st hchn.1 hchn.2 hl2 (by omega) H3new
          (SideInvL_mono hSL (by omega)) (SideInvR_mono hSR hrr) j hj1 hj2
      · obtain ⟨f2, rfl⟩ : ∃ f2, f = f2 + 1 := ⟨f - 1, by omega⟩
        have he2 : rbitClimb_go n idx val (a idx) a lbit2 (f2 + 1) (l - lowBit l)
            (fun j' => if j' = l then val else rbitF j') st =
            (fun j' => if j' = l then val else rbitF j') := by
          simp only [rbitClimb_go]
          rw [if_neg (by omega)]
        rw [he2, H3new j hj1 hj2]
        by_cases hc : j ≤ idx ∧ idx < j + lowBit j
        · rw [if_pos ⟨hc.1, hc.2, by omega⟩, if_pos hc]
        · rw [if_neg (by rintro ⟨x, y, z⟩; exact hc ⟨x, y⟩), if_neg hc]
    · by_cases hbr2 : rbitF l = a idx
      · have HS := @sidesUpdate_spec a a2 lbit2 rbitF idx n l (l + lowBit l - 1) st
          (fun j' hj' => (ha2o j' hj').symm)
          Hlb2
          (fun j' h1' h2' => by
            rw [H3 j' (by omega) h2', if_neg (by rintro ⟨x, y, z⟩; omega)]
            exact rangeMin_congr (fun x hx1 hx2 => (ha2o x (by omega)).symm))
          (fun x hx1 hx2 => nodeL_rbit hl1 hx1 (by omega))
          (fun x hx1 hx2 => nodeR_rbit hl1 hx1 hx2)
          (fun x hx1 hx2 => by rw [ha2o x (by omega)]; exact Ha x hx1 (by omega))
          (fun x hx1 hx2 => by rw [ha2o x (by omega)]; exact Ha x (by omega) hx2)
          hl1 hch1 hSL hSR
        obtain ⟨HS1, HS2, HS3, HS4⟩ := HS
        have he : rbitClimb_go n idx val (a idx) a lbit2 (f + 1) l rbitF st j =
            rbitClimb_go n idx val (a idx) a lbit2 f (l - lowBit l)
              (fun j' => if j' = l
                then min val (min (sidesUpdate n a lbit2 rbitF l (l + lowBit l - 1) st).lmin
                  (sidesUpdate n a lbit2 rbitF l (l + lowBit l - 1) st).rmin)
                else rbitF j')
              (sidesUpdate n a lbit2 rbitF l (l + lowBit l - 1) st) j := by
          simp only [rbitClimb_go]
          rw [if_pos hl1, if_neg hbr1, if_pos hbr2]
        rw [he]
        have hNval : rangeMin a2 l (min n (l + lowBit l - 1)) =
            min val (min (sidesUpdate n a lbit2 rbitF l (l + lowBit l - 1) st).lmin
              (sidesUpdate n a lbit2 rbitF l (l + lowBit l - 1) st).rmin) := by
          rw [HS2, HS4, hsplitN]
        have H3new : ∀ j', 1 ≤ j' → j' ≤ n →
            (fun j'' => if j'' = l
              then min val (min (sidesUpdate n a lbit2 rbitF l (l + lowBit l - 1) st).lmin
                (sidesUpdate n a lbit2 rbitF l (l + lowBit l - 1) st).rmin)
              else rbitF j'') j' =
            if j' ≤ idx ∧ idx < j' + lowBit j' ∧ l - lowBit l < j'
            then rangeMin a2 j' (min n (j' + lowBit j' - 1))
            else rangeMin a j' (min n (j' + lowBit j' - 1)) := by
          intro j' hj1' hj2'
          by_cases hjr : j' = l
          · rw [hjr]
            show (if l = l then _ else rbitF l) = _
            rw [if_pos rfl, if_pos ⟨hch1, hch2, by omega⟩]
            exact hNval.symm
          · show (if j' = l then _ else rbitF j') = _
            rw [if_neg hjr, H3 j' hj1' hj2']
            by_cases hcond : j' ≤ idx ∧ idx < j' + lowBit j'
            · by_cases hjlt : l < j'
              · rw [if_pos ⟨hcond.1, hcond.2, hjlt⟩, if_pos ⟨hcond.1, hcond.2, by omega⟩]
              · have hge := hgapj j' hcond.1 hcond.2 (by omega)
                rw [if_neg (by omega), if_neg (by omega)]
            · rw [if_neg (by rintro ⟨x, y, z⟩; exact hcond ⟨x, y⟩),
                if_neg (by rintro ⟨x, y, z⟩; exact hcond ⟨x, y⟩)]
        have hSLnew : SideInvL a2 idx l (sidesUpdate n a lbit2 rbitF l (l + lowBit l - 1) st) := by
          refine ⟨l, HS2, ?_, ?_, le_refl l, ?_⟩
          · rcases HS1 with h | ⟨h, h2⟩
            · omega
            · omega
          · rcases HS1 with h | ⟨h, h2⟩
            · omega
            · omega
          · rcases HS1 with h | ⟨h, h2⟩
            · omega
            · omega
        have hSRnew : SideInvR a2 idx n (l + lowBit l - 1)
            (sidesUpdate n a lbit2 rbitF l (l + lowBit l - 1) st) := by
          refine ⟨min n (l + lowBit l - 1), ?_, ?_, ?_, by omega, by omega, ?_, ?_⟩
          · rw [HS4]
          · exact HS3.2.2.1
          · exact HS3.2.2.2
          · exact HS3.1
          · exact HS3.2.1
        by_cases hl2 : 1 ≤ l - lowBit l
        · have hchn := chainDown_next hch1 hch2 hl2
          have hrr : l + lowBit l - 1 ≤ (l - lowBit l) + lowBit (l - lowBit l) - 1 := by
            have := two_lowBit_le_lowBit_sub hl1 hl2
            omega
          exact ih (l - lowBit l) _ _ hchn.1 hchn.2 hl2 (by omega) H3new
            (SideInvL_mono hSLnew (by omega)) (SideInvR_mono hSRnew hrr) j hj1 hj2
        · obtain ⟨f2, rfl⟩ : ∃ f2, f = f2 + 1 := ⟨f - 1, by omega⟩
          have he2 : rbitClimb_go n idx val (a idx) a lbit2 (f2 + 1) (l - lowBit l)
              (fun j' => if j' = l
                then min val (min (sidesUpdate n a lbit2 rbitF l (l + lowBit l - 1) st).lmin
                  (sidesUpdate n a lbit2 rbitF l (l + lowBit l - 1) st).rmin)
                else rbitF j')
              (sidesUpdate n a lbit2 rbitF l (l + lowBit l - 1) st) =
              (fun j' => if j' = l
                then min val (min (sidesUpdate n a lbit2 rbitF l (l + lowBit l - 1) st).lmin
                  (sidesUpdate n a lbit2 rbitF l (l + lowBit l - 1) st).rmin)
                else rbitF j') := by
            simp only [rbitClimb_go]
            rw [if_neg (by omega)]
          rw [he2, H3new j hj1 hj2]
          by_cases hc : j ≤ idx ∧ idx < j + lowBit j
          · rw [if_pos ⟨hc.1, hc.2, by omega⟩, if_pos hc]
          · rw [if_neg (by rintro ⟨x, y, z⟩; exact hc ⟨x, y⟩), if_neg hc]
      · have he : rbitClimb_go n idx val (a idx) a lbit2 (f + 1) l rbitF st j =
            rbitClimb_go n idx val (a idx) a lbit2 f (l - lowBit l) rbitF st j := by
          simp only [rbitClimb_go]
          rw [if_pos hl1, if_neg hbr1, if_neg hbr2]
        rw [he]
        have hMO : rbitF l = min (rangeMin a2 l (idx - 1))
            (rangeMin a2 (idx + 1) (min n (l + lowBit l - 1))) := by
          rcases le_total (a idx) (min (rangeMin a2 l (idx - 1))
            (rangeMin a2 (idx + 1) (min n (l + lowBit l - 1)))) with hle | hle
          · exact absurd (by rw [hO, hsplitO]; exact min_eq_left hle) hbr2
          · rw [hO, hsplitO]
            exact min_eq_right hle
        have hNO : rangeMin a2 l (min n (l + lowBit l - 1)) = rbitF l := by
          rw [hsplitN, hMO]
          refine min_eq_right ?_
          rw [hMO] at hbr1
          exact le_of_lt (lt_of_not_le hbr1)
        have H3new : ∀ j', 1 ≤ j' → j' ≤ n → rbitF j' =
            if j' ≤ idx ∧ idx < j' + lowBit j' ∧ l - lowBit l < j'
            then rangeMin a2 j' (min n (j' + lowBit j' - 1))
            else rangeMin a j' (min n (j' + lowBit j' - 1)) := by
          intro j' hj1' hj2'
          rw [H3 j' hj1' hj2']
          by_cases hcond : j' ≤ idx ∧ idx < j' + lowBit j'
          · by_cases hjlt : l < j'
            · rw [if_pos ⟨hcond.1, hcond.2, hjlt⟩, if_pos ⟨hcond.1, hcond.2, by omega⟩]
            · by_cases hjr : j' = l
              · rw [if_neg (by omega), if_pos ⟨hcond.1, hcond.2, by omega⟩, hjr, hNO, hO]
              · have hge := hgapj j' hcond.1 hcond.2 (by omega)
                rw [if_neg (by omega), if_neg (by omega)]
          · rw [if_neg (by rintro ⟨x, y, z⟩; exact hcond ⟨x, y⟩),
              if_neg (by rintro ⟨x, y, z⟩; exact hcond ⟨x, y⟩)]
        by_cases hl2 : 1 ≤ l - lowBit l
        · have hchn := chainDown_next hch1 hch2 hl2
          have hrr : l + lowBit l - 1 ≤ (l - lowBit l) + lowBit (l - lowBit l) - 1 := by
            have := two_lowBit_le_lowBit_sub hl1 hl2
            omega
          exact ih (l - lowBit l) _ st hchn.1 hchn.2 hl2 (by omega) H3new
            (SideInvL_mono hSL (by omega)) (SideInvR_mono hSR hrr) j hj1 hj2
        · obtain ⟨f2, rfl⟩ : ∃ f2, f = f2 + 1 := ⟨f - 1, by omega⟩
          have he2 : rbitClimb_go n idx val (a idx) a lbit2 (f2 + 1) (l - lowBit l)
              rbitF st = rbitF := by
            simp only [rbitClimb_go]
            rw [if_neg (by omega)]
          rw [he2, H3new j hj1 hj2]
          by_cases hc : j ≤ idx ∧ idx < j + lowBit j
          · rw [if_pos ⟨hc.1, hc.2, by omega⟩, if_pos hc]
          · rw [if_neg (by rintro ⟨x, y, z⟩; exact hc ⟨x, y⟩), if_neg hc]

end RMQ

namespace RMQ

open BIT

/-- The `FenwickRMQ` data-structure invariant: every stored value fits in a C
`int`, every `lbit` node holds the exact minimum of its left-looking block
`(i - lowBit i, i]`, and every `rbit` node the exact minimum of its
right-looking block `[i, min n (i + lowBit i - 1)]`. -/
def rmqInv (s : State) : Prop :=
  (∀ j, 1 ≤ j → j ≤ s.n → s.a j ≤ INT_MAX) ∧
  (∀ i, 1 ≤ i → i ≤ s.n → s.lbit i = rangeMin s.a (i - lowBit i + 1) i) ∧
  (∀ i, 1 ≤ i → i ≤ s.n → s.rbit i = rangeMin s.a i (min s.n (i + lowBit i - 1)))

theorem init_rmqInv (n : Nat) : rmqInv (init n) :=
  ⟨fun _ _ _ => le_refl _, fun _ _ _ => (rangeMin_const_IMAX _ _).symm,
    fun _ _ _ => (rangeMin_const_IMAX _ _).symm⟩

/-- `FenwickRMQ::update` preserves the invariant and performs exactly the
point write on the tracked array. -/
theorem update_rmqInv {s : State} (h : rmqInv s) {idx : Nat} {val : Int}
    (h1 : 1 ≤ idx) (h2 : idx ≤ s.n) (h3 : val ≤ INT_MAX) :
    rmqInv (update s idx val) ∧ (update s idx val).n = s.n ∧
      ∀ j, (update s idx val).a j = (if j = idx then val else s.a j) := by
  obtain ⟨Ha, Hlb, Hrb⟩ := h
  by_cases hsc : s.a idx = val
  · have he : update s idx val = s := by
      simp only [update]
      rw [if_pos hsc]
    rw [he]
    refine ⟨⟨Ha, Hlb, Hrb⟩, rfl, ?_⟩
    intro j
    by_cases hj : j = idx
    · rw [if_pos hj, hj, hsc]
    · rw [if_neg hj]
  · have hlbp := lowBit_pos h1
    have ha2i : (fun j => if j = idx then val else s.a j) idx = val := if_pos rfl
    have ha2o : ∀ j, j ≠ idx → (fun j' => if j' = idx then val else s.a j') j = s.a j :=
      fun j hj => if_neg hj
    have hInitL : ∀ lv : Nat, lv ≤ idx →
        SideInvL (fun j => if j = idx then val else s.a j) idx lv (sidesInit idx) := by
      intro lv hlv
      refine ⟨idx, (rangeMin_empty _ (by omega)).symm, ?_, ?_, hlv, ?_⟩ <;>
        simp only [sidesInit] <;> omega
    have hInitR : ∀ rv : Nat, idx ≤ rv →
        SideInvR (fun j => if j = idx then val else s.a j) idx s.n rv (sidesInit idx) := by
      intro rv hrv
      refine ⟨idx, (rangeMin_empty _ (by omega)).symm, ?_, ?_, h2, hrv, ?_, ?_⟩ <;>
        simp only [sidesInit] <;> omega
    have Hlb2full := @lbitClimb_spec s.n idx val s.a (fun j => if j = idx then val else s.a j)
      s.rbit h1 h2 ha2i ha2o Ha h3 Hrb (s.n + 1) idx s.lbit (sidesInit idx)
      (le_refl idx) (by omega) (by omega)
      (fun j hj1 hj2 => by
        rw [if_neg (by rintro ⟨x, y, z⟩; omega)]
        exact Hlb j hj1 hj2)
      (hInitL _ (by omega)) (hInitR _ (le_refl idx))
    have Hlb2inv : ∀ i, 1 ≤ i → i ≤ s.n →
        lbitClimb_go s.n idx val (s.a idx) s.a s.rbit (s.n + 1) idx s.lbit (sidesInit idx) i =
        rangeMin (fun j => if j = idx then val else s.a j) (i - lowBit i + 1) i := by
      intro i hi1 hi2
      rw [Hlb2full i hi1 hi2]
      by_cases hc : idx ≤ i ∧ i - lowBit i < idx
      · rw [if_pos hc]
      · rw [if_neg hc]
        exact rangeMin_congr (fun x hx1 hx2 => ((ha2o x (by omega)).symm))
    have Hrb2full := @rbitClimb_spec s.n idx val s.a (fun j => if j = idx then val else s.a j)
      (lbitClimb_go s.n idx val (s.a idx) s.a s.rbit (s.n + 1) idx s.lbit
        (sidesInit idx))
      h1 h2 ha2i ha2o Ha h3
      (fun j hj1 hj2 => Hlb2inv j hj1 (by omega))
      (idx + 1) idx s.rbit (sidesInit idx)
      (le_refl idx) (by omega) h1 (le_refl _)
      (fun j hj1 hj2 => by
        rw [if_neg (by rintro ⟨x, y, z⟩; omega)]
        exact Hrb j hj1 hj2)
      (hInitL idx (le_refl idx)) (hInitR _ (by omega))
    have Hrb2inv : ∀ i, 1 ≤ i → i ≤ s.n →
        rbitClimb_go s.n idx val (s.a idx) s.a
          (lbitClimb_go s.n idx val (s.a idx) s.a s.rbit (s.n + 1) idx s.lbit (sidesInit idx))
          (idx + 1) idx s.rbit (sidesInit idx) i =
        rangeMin (fun j => if j = idx then val else s.a j) i (min s.n (i + lowBit i - 1)) := by
      intro i hi1 hi2
      rw [Hrb2full i hi1 hi2]
      by_cases hc : i ≤ idx ∧ idx < i + lowBit i
      · rw [if_pos hc]
      · rw [if_neg hc]
        exact rangeMin_congr (fun x hx1 hx2 => ((ha2o x (by omega)).symm))
    have he : update s idx val = ⟨s.n, fun j => if j = idx then val else s.a j,
        lbitClimb_go s.n idx val (s.a idx) s.a s.rbit (s.n + 1) idx s.lbit (sidesInit idx),
        rbitClimb_go s.n idx val (s.a idx) s.a
          (lbitClimb_go s.n idx val (s.a idx) s.a s.rbit (s.n + 1) idx s.lbit (sidesInit idx))
          (idx + 1) idx s.rbit (sidesInit idx)⟩ := by
      simp only [update]
      rw [if_neg hsc]
    rw [he]
    refine ⟨⟨?_, Hlb2inv, Hrb2inv⟩, rfl, fun j => rfl⟩
    intro j hj1 hj2
    by_cases hj : j = idx
    · show (if j = idx then val else s.a j) ≤ INT_MAX
      rw [if_pos hj]
      exact h3
    · show (if j = idx then val else s.a j) ≤ INT_MAX
      rw [if_neg hj]
      exact Ha j hj1 hj2

/-- Running a list of `update` calls. -/
def applyRMQ (s : State) (ops : List (Nat × Int)) : State :=
  ops.foldl (fun t p => update t p.1 p.2) s

/-- The brute-force shadow array: apply each point write to `a0`. -/
def shadowW (a0 : Nat → Int) (ops : List (Nat × Int)) : Nat → Int :=
  ops.foldl (fun arr p => fun j => if j = p.1 then p.2 else arr j) a0

/-- The shadow array of a fresh structure: unset slots hold `INT_MAX`. -/
def shadow (ops : List (Nat × Int)) : Nat → Int :=
  shadowW (fun _ => INT_MAX) ops

theorem applyRMQ_spec : ∀ (ops : List (Nat × Int)) (s : State), rmqInv s →
    (∀ p ∈ ops, 1 ≤ p.1 ∧ p.1 ≤ s.n ∧ p.2 ≤ INT_MAX) →
    rmqInv (applyRMQ s ops) ∧ (applyRMQ s ops).n = s.n ∧
      (applyRMQ s ops).a = shadowW s.a ops := by
  intro ops
  induction ops with
  | nil => exact fun s hI hV => ⟨hI, rfl, rfl⟩
  | cons p t ihp =>
    intro s hI hV
    have hp := hV p (List.mem_cons_self _ _)
    have hu := update_rmqInv hI hp.1 hp.2.1 hp.2.2
    have ht := ihp (update s p.1 p.2) hu.1 (fun q hq => by
      have hq2 := hV q (List.mem_cons_of_mem _ hq)
      rw [hu.2.1]
      exact hq2)
    have hstep : applyRMQ s (p :: t) = applyRMQ (update s p.1 p.2) t := rfl
    have hfun : (update s p.1 p.2).a = (fun j => if j = p.1 then p.2 else s.a j) :=
      funext hu.2.2
    refine ⟨hstep ▸ ht.1, ?_, ?_⟩
    · rw [hstep, ht.2.1, hu.2.1]
    · rw [hstep, ht.2.2, hfun]
      rfl

end RMQ

namespace RMQ

open BIT

/-- Exact behaviour of the first (`rbit`) climb of `FenwickRMQ::query`: it
accumulates exactly the minimum over `[i0, i1 - 1]` where `i1` is the stop
position, and stops exactly when the next block would overshoot `tto`. -/
theorem query_climbR_spec {a rbitF : Nat → Int} {n tto : Nat}
    (Hrbv : ∀ i, 1 ≤ i → i ≤ n → rbitF i = rangeMin a i (min n (i + lowBit i - 1)))
    (ht : tto ≤ n) :
    ∀ fuel i0 res0, 1 ≤ i0 → i0 ≤ tto + 1 → res0 ≤ INT_MAX → n + 1 ≤ fuel + i0 →
      (1 ≤ (query_climbR rbitF n tto fuel i0 res0).1 ∧
        i0 ≤ (query_climbR rbitF n tto fuel i0 res0).1 ∧
        (query_climbR rbitF n tto fuel i0 res0).1 ≤ tto + 1 ∧
        ¬((query_climbR rbitF n tto fuel i0 res0).1 ≤ n ∧
          (query_climbR rbitF n tto fuel i0 res0).1 +
            lowBit (query_climbR rbitF n tto fuel i0 res0).1 - 1 ≤ tto)) ∧
      (query_climbR rbitF n tto fuel i0 res0).2 =
        min res0 (rangeMin a i0 ((query_climbR rbitF n tto fuel i0 res0).1 - 1)) := by
  intro fuel
  induction fuel with
  | zero =>
    intro i0 res0 h1 h2 h3 h4
    have he : query_climbR rbitF n tto 0 i0 res0 = (i0, res0) := rfl
    rw [he]
    have hlbp := lowBit_pos h1
    refine ⟨⟨h1, le_refl _, h2, by omega⟩, ?_⟩
    rw [rangeMin_empty a (by omega), min_eq_left h3]
  | succ f ih =>
    intro i0 res0 h1 h2 h3 h4
    have hlbp := lowBit_pos h1
    by_cases hg : i0 ≤ n ∧ i0 + lowBit i0 - 1 ≤ tto
    · have he : query_climbR rbitF n tto (f + 1) i0 res0 =
          query_climbR rbitF n tto f (i0 + lowBit i0) (min res0 (rbitF i0)) := by
        simp only [query_climbR]
        rw [if_pos hg, if_neg (by omega)]
      rw [he]
      set q := query_climbR rbitF n tto f (i0 + lowBit i0) (min res0 (rbitF i0)) with hq
      have hstep := ih (i0 + lowBit i0) (min res0 (rbitF i0)) (by omega) (by omega)
        (le_trans (min_le_left _ _) h3) (by omega)
      rw [← hq] at hstep
      have h5 := hstep.1.2.1
      refine ⟨⟨hstep.1.1, by omega, hstep.1.2.2.1, hstep.1.2.2.2⟩, ?_⟩
      rw [hstep.2, Hrbv i0 h1 hg.1]
      have hmin : min n (i0 + lowBit i0 - 1) = i0 + lowBit i0 - 1 := by omega
      rw [hmin, min_assoc]
      have hun : min (rangeMin a i0 (i0 + lowBit i0 - 1))
          (rangeMin a (i0 + lowBit i0) (q.1 - 1)) = rangeMin a i0 (q.1 - 1) :=
        rangeMin_union a (by omega) (by omega) (by omega)
      rw [hun]
    · have he : query_climbR rbitF n tto (f + 1) i0 res0 = (i0, res0) := by
        simp only [query_climbR]
        rw [if_neg hg]
      rw [he]
      refine ⟨⟨h1, le_refl _, h2, hg⟩, ?_⟩
      rw [rangeMin_empty a (by omega), min_eq_left h3]

/-- Exact behaviour of the second (`lbit`) climb of `FenwickRMQ::query`: it
accumulates exactly the minimum over `[j1 + 1, j0]` where `j1` is the stop
position, stays at or above `frm - 1`, and cannot pass a position whose
block reaches the start (the meeting property with the first climb). -/
theorem query_climbL_spec {a lbitF : Nat → Int} {n frm : Nat}
    (Hlbv : ∀ i, 1 ≤ i → i ≤ n → lbitF i = rangeMin a (i - lowBit i + 1) i)
    (hf : 1 ≤ frm) :
    ∀ fuel j0 res0, j0 ≤ n → res0 ≤ INT_MAX → frm ≤ j0 + 1 → j0 + 1 ≤ fuel →
      ((query_climbL lbitF frm fuel j0 res0).1 ≤ j0 ∧
        frm ≤ (query_climbL lbitF frm fuel j0 res0).1 + 1 ∧
        (∀ i1, 1 ≤ i1 → frm ≤ i1 → i1 ≤ j0 → j0 < i1 + lowBit i1 →
          (query_climbL lbitF frm fuel j0 res0).1 ≤ i1)) ∧
      (query_climbL lbitF frm fuel j0 res0).2 =
        min res0 (rangeMin a ((query_climbL lbitF frm fuel j0 res0).1 + 1) j0) := by
  intro fuel
  induction fuel with
  | zero =>
    intro j0 res0 h1 h2 h3 h4
    omega
  | succ f ih =>
    intro j0 res0 h1 h2 h3 h4
    by_cases hg : 1 ≤ j0 ∧ frm ≤ j0 - lowBit j0 + 1
    · have hlbp := lowBit_pos hg.1
      have he : query_climbL lbitF frm (f + 1) j0 res0 =
          query_climbL lbitF frm f (j0 - lowBit j0) (min res0 (lbitF j0)) := by
        simp only [query_climbL]
        rw [if_pos hg]
      rw [he]
      set q := query_climbL lbitF frm f (j0 - lowBit j0) (min res0 (lbitF j0)) with hq
      have hstep := ih (j0 - lowBit j0) (min res0 (lbitF j0)) (by omega)
        (le_trans (min_le_left _ _) h2) (by omega) (by omega)
      rw [← hq] at hstep
      have hj1le := hstep.1.1
      refine ⟨⟨by omega, hstep.1.2.1, ?_⟩, ?_⟩
      · intro i1 hi1 hi2 hi3 hi4
        by_cases hieq : i1 = j0
        · omega
        · rcases lowBit_isPow hi1 with ⟨s, hs⟩
          have hd : 2 ^ s ∣ i1 := hs ▸ lowBit_dvd i1
          have hlbj : lowBit j0 = lowBit (j0 - i1) := by
            have hw := lowBit_add_of_dvd (m := i1) (s := s) (v := j0 - i1) hd (by omega)
              (by omega)
            rw [show i1 + (j0 - i1) = j0 by omega] at hw
            exact hw
          have hlbe : lowBit (j0 - i1) ≤ j0 - i1 := lowBit_le (by omega)
          exact hstep.1.2.2 i1 hi1 hi2 (by omega) (by omega)
      · rw [hstep.2, Hlbv j0 hg.1 h1, min_assoc]
        have hun : min (rangeMin a (j0 - lowBit j0 + 1) j0)
            (rangeMin a (q.1 + 1) (j0 - lowBit j0)) = rangeMin a (q.1 + 1) j0 := by
          rw [min_comm]
          exact rangeMin_union a (by omega) (by omega) (by omega)
        rw [hun]
    · have he : query_climbL lbitF frm (f + 1) j0 res0 = (j0, res0) := by
        simp only [query_climbL]
        rw [if_neg hg]
      rw [he]
      refine ⟨⟨le_refl _, h3, ?_⟩, ?_⟩
      · intro i1 hi1 hi2 hi3 hi4
        by_cases hz : j0 = 0
        · omega
        · have hlbp := lowBit_pos (show 1 ≤ j0 by omega)
          by_contra hc
          exact block_straddle (x := i1) (y := j0) hi1 (by omega) (by omega) (by omega)
      · rw [rangeMin_empty a (by omega), min_eq_left h2]

end RMQ

namespace RMQ

open BIT

/-- Under the invariant, `FenwickRMQ::query` on a valid range returns the
exact minimum of the tracked array over `[f, t]`. -/
theorem query_of_inv {s : State} (h : rmqInv s) {f t : Nat}
    (hf : 1 ≤ f) (hft : f ≤ t) (ht : t ≤ s.n) :
    query s (f : Int) (t : Int) = rangeMin s.a f t := by
  obtain ⟨Ha, Hlb, Hrb⟩ := h
  simp only [query]
  rw [if_neg (by omega), if_neg (by omega), if_neg (by omega)]
  have htn1 : ((f : Int)).toNat = f := by simp
  have htn2 : ((t : Int)).toNat = t := by simp
  rw [htn1, htn2]
  set p1 := query_climbR s.rbit s.n t (s.n + 1) f INT_MAX with hp1
  have hR := query_climbR_spec Hrb ht (s.n + 1) f INT_MAX hf (by omega) (le_refl _)
    (by omega)
  rw [← hp1] at hR
  obtain ⟨⟨hR1, hR2, hR3, hR4⟩, hRv⟩ := hR
  have hlb1 := lowBit_pos hR1
  by_cases hcase : p1.1 ≤ t
  · have hstr : t < p1.1 + lowBit p1.1 := by omega
    have hres1 : (if p1.1 ≤ t then min p1.2 (s.a p1.1) else p1.2) = rangeMin s.a f p1.1 := by
      rw [if_pos hcase, hRv, min_eq_right (rangeMin_le_IMAX s.a f _)]
      rw [← rangeMin_single (a := s.a) p1.1 (Ha p1.1 hR1 (le_trans hcase ht))]
      exact rangeMin_union s.a (by omega) hR2 (by omega)
    rw [hres1]
    set p2 := query_climbL s.lbit f (t + 1) t (rangeMin s.a f p1.1) with hp2
    have hL := query_climbL_spec Hlb hf (t + 1) t (rangeMin s.a f p1.1) ht
      (rangeMin_le_IMAX _ _ _) (by omega) (le_refl _)
    rw [← hp2] at hL
    obtain ⟨⟨hL1, hL2, hL3⟩, hLv⟩ := hL
    have hmeet : p2.1 ≤ p1.1 := hL3 p1.1 hR1 hR2 hcase hstr
    have hp2v : p2.2 = rangeMin s.a f t := by
      rw [hLv]
      exact rangeMin_union s.a hcase hL2 (by omega)
    by_cases hb : f ≤ p2.1
    · rw [if_pos hb, hp2v]
      exact min_eq_left (rangeMin_le s.a hb (le_trans hmeet hcase))
    · rw [if_neg hb, hp2v]
  · have hi1t : p1.1 = t + 1 := by omega
    have hres1 : (if p1.1 ≤ t then min p1.2 (s.a p1.1) else p1.2) = rangeMin s.a f t := by
      rw [if_neg hcase, hRv, min_eq_right (rangeMin_le_IMAX s.a f _)]
      have he : p1.1 - 1 = t := by omega
      rw [he]
    rw [hres1]
    set p2 := query_climbL s.lbit f (t + 1) t (rangeMin s.a f t) with hp2
    have hL := query_climbL_spec Hlb hf (t + 1) t (rangeMin s.a f t) ht
      (rangeMin_le_IMAX _ _ _) (by omega) (le_refl _)
    rw [← hp2] at hL
    obtain ⟨⟨hL1, hL2, hL3⟩, hLv⟩ := hL
    have hp2v : p2.2 = rangeMin s.a f t := by
      rw [hLv]
      exact min_eq_left (rangeMin_mono s.a hL2 (le_refl t))
    by_cases hb : f ≤ p2.1
    · rw [if_pos hb, hp2v]
      exact min_eq_left (rangeMin_le s.a hb hL1)
    · rw [if_neg hb, hp2v]

/-- Claim C2: for a `DynamicRMQ` (`FenwickRMQ`) of size `n`, after any
sequence of valid `update(idx, val)` calls (`1 ≤ idx ≤ n`, values within the
C `int` range), every `query(from, to)` with `1 ≤ from ≤ to ≤ n` returns the
minimum of `a[from..to]` as computed by a direct linear scan of the shadow
array obtained by replaying the point writes over an all-`INT_MAX` array.
`query` writes no field, so interleaving queries between the updates cannot
change any later answer. -/
theorem claim_C2 {n : Nat} (ops : List (Nat × Int))
    (hops : ∀ p ∈ ops, 1 ≤ p.1 ∧ p.1 ≤ n ∧ p.2 ≤ INT_MAX)
    {f t : Nat} (hf : 1 ≤ f) (hft : f ≤ t) (ht : t ≤ n) :
    query (applyRMQ (init n) ops) (f : Int) (t : Int) = rangeMin (shadow ops) f t := by
  have hrun := applyRMQ_spec ops (init n) (init_rmqInv n) (fun p hp => hops p hp)
  have hq := query_of_inv hrun.1 hf hft (by rw [hrun.2.1]; exact ht)
  rw [hq, hrun.2.2]
  rfl

/-- Concrete instance of claim C2: `n = 3`, updates
`update(2, 5); update(1, 7); update(2, 9)`, query over `[1, 3]`. -/
theorem claim_C2_witness :
    (∀ p ∈ [((2 : Nat), (5 : Int)), (1, 7), (2, 9)], 1 ≤ p.1 ∧ p.1 ≤ 3 ∧ p.2 ≤ INT_MAX) ∧
      1 ≤ 1 ∧ 1 ≤ 3 ∧ 3 ≤ 3 ∧
      query (applyRMQ (init 3) [(2, 5), (1, 7), (2, 9)]) ((1 : Nat) : Int) ((3 : Nat) : Int) =
        rangeMin (shadow [(2, 5), (1, 7), (2, 9)]) 1 3 :=
  ⟨by decide, le_refl 1, by omega, le_refl 3,
    claim_C2 [(2, 5), (1, 7), (2, 9)] (by decide) (le_refl 1) (by omega) (le_refl 3)⟩

end RMQ
